import Mathlib

/-!
Merlinio: frame-header scanning, frame indexing, pixel decoding, defect correction.

A shallow embedding of the decoding core of merlinio (merlin_hdr.cpp, merlin_prm.cpp)
together with theorems about it.

Conventions of the embedding
* `std::string` values are lists of characters (`List Char`).
* `int`, `__int8`, `__int16`, `__int32` values are `Int`, and their arithmetic is that of
  the integers (an overflow of signed arithmetic has no defined result in the source);
  a conversion to `size_t` is written out as a reduction modulo `2 ^ 64` (`size_t_of_int`),
  and arithmetic in `size_t` is reduced modulo `2 ^ 64`.  The scan lookups of section 9
  compute in the 32-bit `int` of the target (`imod_int32`, `to_int32`); for grids of at
  most `2^30` columns and rows the two readings of `imod` agree (`imod_int32_eq`).
* A finite `double` is the rational number it denotes; `prepare_annular_detector` takes the
  rounded operations as an argument (`double_ops`), and `ieee_ops` are those of IEEE 754.
* `std::streampos` values are mathematical integers (`Int`).
* A C++ exception or an operation without defined behaviour is the result `none`.
-/

namespace Merlinio

/-! ## Section 1: the frame-header token scanner (merlin_hdr.cpp, lines 67-91) -/

/-- First loop of `merlin_read_frame_header_param`:
`while (pstr_hdr->at(lcpos) != ',' && lcpos < lmpos) lcpos++;`
The list argument is the part of the string that starts at `lcpos`.  The call
`at(lcpos)` is evaluated before the bound test, and `std::string::at` throws
`std::out_of_range` when `lcpos` is not below the size of the string: that is the
result `none` on the empty remainder. -/
def scan_to_separator (lmpos : Nat) : List Char → Nat → Option Nat
  | [], _ => none
  | c :: rest, lcpos =>
    if c ≠ ',' ∧ lcpos < lmpos then scan_to_separator lmpos rest (lcpos + 1) else some lcpos

/-- Second loop of `merlin_read_frame_header_param`:
`while (pstr_hdr->at(lcpos) == ',' && lcpos < lmpos) lcpos++;`
with the same reading of `at` as in `scan_to_separator`. -/
def skip_separators (lmpos : Nat) : List Char → Nat → Option Nat
  | [], _ => none
  | c :: rest, lcpos =>
    if c = ',' ∧ lcpos < lmpos then skip_separators lmpos rest (lcpos + 1) else some lcpos

/-- The function `merlin_read_frame_header_param(ipos, pstr_hdr, prm)` for non-null
string pointers.  The result is `none` when `at` throws, and otherwise the returned
position together with the content of `*prm` after the call (`*prm` is assigned only
when the token has more than one character). -/
def merlin_read_frame_header_param (ipos : Int) (pstr_hdr : List Char) (prm : List Char) :
    Option (Int × List Char) :=
  let lipos := ipos.toNat
  let lmpos := pstr_hdr.length
  match scan_to_separator lmpos (pstr_hdr.drop lipos) lipos with
  | none => none
  | some lcpos =>
    let prm1 := if lcpos - lipos > 1 then (pstr_hdr.drop lipos).take (lcpos - lipos) else prm
    let lcpos1 := if lcpos - lipos > 1 then lcpos + 1 else lcpos
    match skip_separators lmpos (pstr_hdr.drop lcpos1) lcpos1 with
    | none => none
    | some lcpos2 => some ((lcpos2 : Int), prm1)

/-- Repeated application of the scanner: `n` calls, the first at position `ipos`, each
later call at the position returned by the call before it, all calls sharing the output
string `prm` (as `str_num` is shared in `merlin_read_frame_header`).  The result is the
list of the captured values, one per call, and the position returned by the last call. -/
def scan_fields (pstr_hdr : List Char) : Nat → Int → List Char → Option (List (List Char) × Int)
  | 0, ipos, _ => some ([], ipos)
  | n + 1, ipos, prm =>
    match merlin_read_frame_header_param ipos pstr_hdr prm with
    | none => none
    | some (ipos1, prm1) =>
      match scan_fields pstr_hdr n ipos1 prm1 with
      | none => none
      | some (caps, iend) => some (prm1 :: caps, iend)

/-- Tokens joined with single commas. -/
def join_fields : List (List Char) → List Char
  | [] => []
  | [t] => t
  | t :: u :: ts => t ++ ',' :: join_fields (u :: ts)


/-! ## Section 2: the frame index builder (merlin_prm.cpp, lines 93-250) -/

/-- Conversion of a signed integer to `size_t` (64 bit, unsigned). -/
def size_t_of_int (i : Int) : Nat := (i % 2 ^ 64).toNat

/-- Conversion of a `size_t` value to a stream offset (64 bit, signed). -/
def streamoff_of_size_t (n : Nat) : Int := if n < 2 ^ 63 then (n : Int) else (n : Int) - 2 ^ 64

/-- The struct `merlin_hdr` (merlin_hdr.h, lines 54-62). -/
structure merlin_hdr where
  n_frames : Int := 0
  n_columns : Int := 0
  n_rows : Int := 0
  n_files : Int := 0
  n_fhdr_bytes : Nat := 0
  n_data_bytes : Nat := 0
  s_timestamp : List Char := []
deriving DecidableEq

/-- The struct `merlin_frame_hdr` (merlin_hdr.h, lines 65-77); the member `d_dwell` of type
`double` is a rational number. -/
structure merlin_frame_hdr where
  n_size : Int := 0
  n_columns : Int := 0
  n_rows : Int := 0
  i_seq : Int := 0
  n_chips : Int := 0
  n_bpi : Int := 16
  n_chip_select : Int := 0
  d_dwell : ℚ := 0
  s_sensor_layout : List Char := []
  s_hid : List Char := []
  s_time : List Char := []
deriving DecidableEq

/-- The struct `defect_pixel_corr` (merlin_prm.h, lines 34-39). -/
structure defect_pixel_corr where
  idx : Nat
  x : Int
  y : Int
  v_idx_corr : List Nat
deriving DecidableEq

/-- The struct `merlin_pos` (merlin_hdr.h, lines 44-47); a `double` is a rational number
and the operations on it are exact. -/
structure merlin_pos where
  x : ℚ := 0
  y : ℚ := 0
deriving DecidableEq

/-- The struct `merlin_range` (merlin_hdr.h, lines 49-52). -/
structure merlin_range where
  min : ℚ := 0
  max : ℚ := 0
deriving DecidableEq

/-- The struct `merlin_frame_calib` (merlin_hdr.h, lines 79-83), with the values that the
constructor of `merlin_params` assigns. -/
structure merlin_frame_calib where
  offset : merlin_pos := { x := 0, y := 0 }
  a0 : merlin_pos := { x := 1, y := 0 }
  a1 : merlin_pos := { x := 0, y := 1 }
deriving DecidableEq

/-- The struct `merlin_roi` (merlin_hdr.h, lines 32-37). -/
structure merlin_roi where
  x0 : Int := 0
  y0 : Int := 0
  x1 : Int := 0
  y1 : Int := 0
deriving DecidableEq

/-- The struct `merlin_pix` (merlin_hdr.h, lines 39-42). -/
structure merlin_pix where
  x : Int := 0
  y : Int := 0
deriving DecidableEq

/-- The members of the class `merlin_params` (merlin_prm.h) that the frame index builder,
the defect correction, the annular detector, the gain correction and the scan lookups read
or write.  The array behind `img_gaincorrect` is a list, a null pointer is `none`. -/
structure merlin_params where
  bscanframeheaders : Bool := false
  swapbytes : Bool := false
  hdr : merlin_hdr := {}
  hdr_frm : merlin_frame_hdr := {}
  v_frm_file : List Int := []
  v_frm_pos : List Int := []
  defects_modified : Bool := false
  v_defect_corr : List defect_pixel_corr := []
  frame_calib : merlin_frame_calib := {}
  range_annular : merlin_range := {}
  scan_rect_roi : merlin_roi := {}
  gaincorrect : Bool := false
  img_gaincorrect : Option (List ℚ) := none
deriving DecidableEq

/-- What one call `merlin_read_frame_header(&fin, &fhdr)` leaves behind: the return code,
the decoded header (all of its members are assigned when the code is 0), the stream position
`fin.tellg()` and the flag `fin.eof()` after the call. -/
structure frame_header_read where
  ierr : Int
  fhdr : merlin_frame_hdr
  tellg : Int
  eof : Bool

/-- A data file as the index builder sees it through `std::ifstream`: whether it can be
opened, its length in bytes, the outcome of `merlin_read_frame_header` as a function of
the stream position at which the call starts, and the result of `fin.good()` after
`fin.seekg(pos)`. -/
structure data_file where
  is_open : Bool
  size : Nat
  read_frame_header : Int → frame_header_read
  seekg_good : Int → Bool

/-- What `merlin_read_frame_header` (merlin_hdr.cpp, lines 93-188) guarantees for a call
that returns 0 at stream position `pos`: the declared header length is positive and at most
`MERLIN_FRAME_HDR_SIZE_MAX` (line 129), that many bytes were read from the file at `pos`
(lines 132-133), and the stream is left at `pos` plus the header length (line 185). -/
structure decoder_contract (f : data_file) : Prop where
  size_pos : ∀ pos, (f.read_frame_header pos).ierr = 0 → 0 < (f.read_frame_header pos).fhdr.n_size
  size_max : ∀ pos, (f.read_frame_header pos).ierr = 0 →
    (f.read_frame_header pos).fhdr.n_size ≤ 2048
  in_file : ∀ pos, (f.read_frame_header pos).ierr = 0 →
    pos + (f.read_frame_header pos).fhdr.n_size ≤ (f.size : Int)
  tellg_eq : ∀ pos, (f.read_frame_header pos).ierr = 0 →
    (f.read_frame_header pos).tellg = pos + (f.read_frame_header pos).fhdr.n_size

/-- The state of `merlin_params::read_frame_headers`: the object members, the locals
`n_frm` and `dpos`, and a record (`decoded`, not part of the program state) of every
successful header decoding as the pair of `n_frm` before the call and the decoded header. -/
structure index_builder where
  prm : merlin_params
  n_frm : Int := 0
  dpos : Int := 0
  decoded : List (Int × merlin_frame_hdr) := []
deriving DecidableEq

/-- How one pass through the body of `while (bread)` ends: another pass with the stream at
the given position, the normal end of the file loop, or `goto _cancel_file_browsing` with an
error code. -/
inductive loop_exit where
  | again (pos : Int)
  | done
  | cancel (nerr : Int)
deriving DecidableEq

/-- Line 134: `((size_t)hdr_frm.n_columns*hdr_frm.n_rows*hdr_frm.n_bpi >> 3)`, a product
in `size_t` followed by a shift to the right. -/
def frame_data_bytes (fhdr : merlin_frame_hdr) : Nat :=
  (size_t_of_int fhdr.n_columns * size_t_of_int fhdr.n_rows % 2 ^ 64
    * size_t_of_int fhdr.n_bpi % 2 ^ 64) / 2 ^ 3

/-- Lines 129-136: the first decoded header of the data set becomes the template. -/
def seed_template (st : index_builder) (fhdr : merlin_frame_hdr) : index_builder :=
  if st.n_frm = 0 then
    let n_fhdr_bytes := size_t_of_int fhdr.n_size
    let n_data_bytes := frame_data_bytes fhdr
    { st with
      prm := { st.prm with
        hdr_frm := fhdr
        hdr := { st.prm.hdr with n_fhdr_bytes := n_fhdr_bytes, n_data_bytes := n_data_bytes } }
      dpos := streamoff_of_size_t ((n_fhdr_bytes + n_data_bytes) % 2 ^ 64) }
  else st

/-- The three statements `v_frm_pos.push_back(fpos); v_frm_file.push_back(ifile); n_frm++;`. -/
def push_frame (st : index_builder) (fpos ifile : Int) : index_builder :=
  { st with
    prm := { st.prm with
      v_frm_pos := st.prm.v_frm_pos ++ [fpos]
      v_frm_file := st.prm.v_frm_file ++ [ifile] }
    n_frm := st.n_frm + 1 }

/-- The loop `for (i = nextfrm; i < bound; i++) { lfpos += dpos; push lfpos, lfile; n_frm++; }`
of lines 175-181 and 233-239, by the number of passes. -/
def add_frames (lfile : Int) : Nat → Int → index_builder → index_builder
  | 0, _, st => st
  | k + 1, lfpos, st => add_frames lfile k (lfpos + st.dpos) (push_frame st (lfpos + st.dpos) lfile)

/-- Lines 171-181 and 230-239: extrapolation of the entries `n_frm .. bound - 1` from the
last entry of the index. -/
def fill_frames (st : index_builder) (bound : Int) : index_builder :=
  let lfpos := st.prm.v_frm_pos.getD (st.n_frm - 1).toNat 0
  let lfile := st.prm.v_frm_file.getD (st.n_frm - 1).toNat 0
  add_frames lfile (bound - st.n_frm).toNat lfpos st

/-- Lines 141-147: the consistency test of scan mode. -/
def bconsistent (st : index_builder) (fhdr : merlin_frame_hdr) : Bool :=
  (decide (st.prm.hdr_frm.n_size = fhdr.n_size) &&
    decide (st.prm.hdr_frm.n_bpi = fhdr.n_bpi) &&
    decide (st.prm.hdr_frm.n_columns = fhdr.n_columns) &&
    decide (st.prm.hdr_frm.n_rows = fhdr.n_rows)) &&
  decide (fhdr.i_seq = st.n_frm)

/-- One pass through the body of `while (bread)` (lines 126-203) with the stream of file
`f` at position `pos`. -/
def header_step (f : data_file) (st : index_builder) (pos : Int) : index_builder × loop_exit :=
  let r := f.read_frame_header pos
  if r.ierr = 0 then
    let fhdr := r.fhdr
    let st0 := { st with decoded := st.decoded ++ [(st.n_frm, fhdr)] }
    let st1 := seed_template st0 fhdr
    let fpos := r.tellg
    if st1.prm.bscanframeheaders then
      if bconsistent st1 fhdr then
        let st2 := push_frame st1 fpos st1.prm.hdr.n_files
        let fpos1 := fpos + (st2.prm.hdr.n_data_bytes : Int)
        (st2, if f.seekg_good fpos1 then loop_exit.again fpos1 else loop_exit.done)
      else
        (st1, loop_exit.cancel 3)
    else
      if st1.n_frm = 0 then
        (push_frame st1 fpos st1.prm.hdr.n_files, loop_exit.done)
      else
        let st2 := if fhdr.i_seq > st1.n_frm then fill_frames st1 fhdr.i_seq else st1
        (push_frame st2 fpos st2.prm.hdr.n_files, loop_exit.done)
  else
    if r.eof then (st, loop_exit.done) else (st, loop_exit.cancel 2)

/-- The loop `while (bread)` (lines 124-204) on file `f`; the result is the state and the
value of `nerr` at the label `_cancel_file_browsing`.  The first argument bounds the number
of passes; `none` stands for a loop that has not ended within the bound. -/
def read_file_headers (f : data_file) : Nat → index_builder → Int → Option (index_builder × Int)
  | 0, _, _ => none
  | fuel + 1, st, pos =>
    match header_step f st pos with
    | (st1, loop_exit.again pos1) => read_file_headers f fuel st1 pos1
    | (st1, loop_exit.done) => some (st1, 0)
    | (st1, loop_exit.cancel nerr) => some (st1, nerr)

/-- The loop `while (bfilefound)` (lines 117-217).  The list holds the data files with the
suffixes 1, 2, ... in this order; the file after the last one does not exist.  Every
successful header decoding moves the stream forward by at least one byte, so that a file
of `size` bytes gives at most `size + 1` passes of the inner loop. -/
def browse_files : List data_file → index_builder → Option (index_builder × Int)
  | [], st => some (st, 0)
  | f :: fs, st =>
    if f.is_open then
      match read_file_headers f (f.size + 1) st 0 with
      | none => none
      | some (st1, nerr) =>
        if nerr ≠ 0 then some (st1, nerr)
        else browse_files fs
          { st1 with prm := { st1.prm with hdr := { st1.prm.hdr with
              n_files := st1.prm.hdr.n_files + 1 } } }
    else some (st, 1)

/-- Lines 111-115: the reset at the start of `read_frame_headers`. -/
def reset_index (prm : merlin_params) : index_builder :=
  { prm := { prm with
      hdr := { prm.hdr with n_files := 0, n_fhdr_bytes := 0, n_data_bytes := 0 }
      v_frm_file := []
      v_frm_pos := [] } }

/-- Lines 219-249: the checks and the tail padding after the file loop. -/
def finish_index (st : index_builder) : index_builder × Int :=
  if st.prm.hdr.n_files = 0 ∨ st.n_frm = 0 then (st, 4)
  else if 0 < st.prm.hdr.n_files ∧ st.n_frm < st.prm.hdr.n_frames then
    if st.prm.bscanframeheaders then (st, 5)
    else (fill_frames st st.prm.hdr.n_frames, 0)
  else (st, 0)

/-- The function `merlin_params::read_frame_headers` on the data files `files`, with the
final builder state and the return code. -/
def read_frame_headers_run (prm : merlin_params) (files : List data_file) :
    Option (index_builder × Int) :=
  match browse_files files (reset_index prm) with
  | none => none
  | some (st, nerr) => if nerr ≠ 0 then some (st, nerr) else some (finish_index st)

/-- The function `merlin_params::read_frame_headers`: the object after the call and the
return code. -/
def read_frame_headers (prm : merlin_params) (files : List data_file) :
    Option (merlin_params × Int) :=
  (read_frame_headers_run prm files).map (fun r => (r.1.prm, r.2))


/-! ### Properties of the builder state and example data files -/

/-- The frame index as a list of entries (file index, byte offset of the pixel payload). -/
def index_entries (prm : merlin_params) : List (Int × Int) :=
  List.zip prm.v_frm_file prm.v_frm_pos

/-- The order of index entries: an earlier file, or the same file and a smaller offset. -/
def entry_lt (a b : Int × Int) : Prop := a.1 < b.1 ∨ (a.1 = b.1 ∧ a.2 < b.2)

/-- The header `fhdr` agrees with the template in header size, bits per pixel, pixel
columns and pixel rows. -/
def same_geometry (tmpl fhdr : merlin_frame_hdr) : Prop :=
  tmpl.n_size = fhdr.n_size ∧ tmpl.n_bpi = fhdr.n_bpi ∧
  tmpl.n_columns = fhdr.n_columns ∧ tmpl.n_rows = fhdr.n_rows

/-- The template and the sizes derived from it are in place: the header length is within
its bounds, `n_fhdr_bytes` and `n_data_bytes` are the values of lines 133-134, and `dpos`
is their sum. -/
def template_ok (st : index_builder) : Prop :=
  0 < st.prm.hdr_frm.n_size ∧ st.prm.hdr_frm.n_size ≤ 2048 ∧
  (st.prm.hdr.n_fhdr_bytes : Int) = st.prm.hdr_frm.n_size ∧
  st.prm.hdr.n_data_bytes = frame_data_bytes st.prm.hdr_frm ∧
  st.dpos = (st.prm.hdr.n_fhdr_bytes : Int) + (st.prm.hdr.n_data_bytes : Int)

/-- Entry number `j` of the index, `e`, is the payload position of a header that
`merlin_read_frame_header` decoded in the file with the index `e.1`: the header has the
sequence number `j` and the geometry of the template. -/
def entry_decoded (files : List data_file) (tmpl : merlin_frame_hdr) (j : Nat)
    (e : Int × Int) : Prop :=
  ∃ (k : Nat) (f : data_file) (start : Int), e.1 = (k : Int) ∧ files[k]? = some f ∧
    (f.read_frame_header start).ierr = 0 ∧ (f.read_frame_header start).tellg = e.2 ∧
    (f.read_frame_header start).fhdr.i_seq = (j : Int) ∧
    same_geometry tmpl (f.read_frame_header start).fhdr

/-- What holds of the builder state throughout `read_frame_headers` on the data files
`files`: the counter `n_frm` is the length of both index vectors, the template is in
place once a frame is indexed, the index is strictly ordered, and in scan mode every
entry stems from a decoded header. -/
structure index_inv (files : List data_file) (st : index_builder) : Prop where
  n_frm_eq : st.n_frm = (st.prm.v_frm_pos.length : Int)
  len_eq : st.prm.v_frm_file.length = st.prm.v_frm_pos.length
  tmpl : 1 ≤ st.n_frm → template_ok st
  sorted : (index_entries st.prm).Pairwise entry_lt
  scan : st.prm.bscanframeheaders = true →
    ∀ (j : Nat) (e : Int × Int), (index_entries st.prm)[j]? = some e →
      entry_decoded files st.prm.hdr_frm j e

/-- Every index entry lies in an earlier file than the current one, or in the current file
at an offset up to the stream position `pos`. -/
def file_bound (st : index_builder) (pos : Int) : Prop :=
  ∀ e ∈ index_entries st.prm,
    e.1 < st.prm.hdr.n_files ∨ (e.1 = st.prm.hdr.n_files ∧ e.2 ≤ pos)

/-- A record of the decoding log is in line with the template: same geometry, and the
sequence number equals the number of frames indexed before the header was decoded. -/
def record_ok (tmpl : merlin_frame_hdr) (r : Int × merlin_frame_hdr) : Prop :=
  same_geometry tmpl r.2 ∧ r.2.i_seq = r.1


/-- The decoding log of scan mode is in order: one record per indexed frame, each in line
with the template. -/
def log_ok (st : index_builder) : Prop :=
  st.prm.bscanframeheaders = true →
    ((st.decoded.length : Int) = st.n_frm ∧ ∀ r ∈ st.decoded, record_ok st.prm.hdr_frm r)


/-- The template is the first header of the decoding log. -/
def log_head (st : index_builder) : Prop :=
  ∀ r rest, st.decoded = r :: rest → st.prm.hdr_frm = r.2

/-- What holds when the file loop is left with the state `st1` and the code `e`, having
started from a state with the mode and the frame count of `st`. -/
structure exit_ok (files : List data_file) (st st1 : index_builder) (e : Int) : Prop where
  inv : index_inv files st1
  bscan_eq : st1.prm.bscanframeheaders = st.prm.bscanframeheaders
  n_frames_eq : st1.prm.hdr.n_frames = st.prm.hdr.n_frames
  files_le : ∀ en ∈ index_entries st1.prm, en.1 ≤ st1.prm.hdr.n_files
  log : e ≠ 3 → log_ok st1
  bad : e = 3 → st.prm.bscanframeheaders = true ∧
    ∃ r ∈ st1.decoded, ¬ record_ok st1.prm.hdr_frm r
  head : st.prm.bscanframeheaders = true → log_head st1

/-- An example data file for the fast mode: it opens, and a header decoding at position 0
gives a header of 384 bytes for frames of 256 x 256 pixels of 16 bit with the sequence
number `i_seq`; no header can be decoded anywhere else. -/
def example_file (i_seq : Int) : data_file where
  is_open := true
  size := 131456 * 5
  read_frame_header := fun pos =>
    if pos = 0 then
      { ierr := 0
        fhdr := { n_size := 384, n_columns := 256, n_rows := 256, n_bpi := 16, i_seq := i_seq }
        tellg := 384
        eof := false }
    else { ierr := 13, fhdr := {}, tellg := pos, eof := true }
  seekg_good := fun _ => true

/-- The builder state after the file loop has gone through the single file `example_file 0`
in fast mode, with 8 frames declared in the acquisition header. -/
def example_state : index_builder where
  prm :=
    { hdr := { n_frames := 8, n_files := 1, n_fhdr_bytes := 384, n_data_bytes := 131072 }
      hdr_frm := { n_size := 384, n_columns := 256, n_rows := 256, n_bpi := 16, i_seq := 0 }
      v_frm_file := [0]
      v_frm_pos := [384] }
  n_frm := 1
  dpos := 131456
  decoded := [(0, { n_size := 384, n_columns := 256, n_rows := 256, n_bpi := 16, i_seq := 0 })]

/-- An example data file for the scan mode with two frames of 384 + 131072 bytes: the first
header has the sequence number 0 and 256 pixel columns, the second one the sequence number 1
and `n_columns` pixel columns. -/
def example_scan_file (n_columns : Int) : data_file where
  is_open := true
  size := 131456 * 2
  read_frame_header := fun pos =>
    if pos = 0 then
      { ierr := 0
        fhdr := { n_size := 384, n_columns := 256, n_rows := 256, n_bpi := 16, i_seq := 0 }
        tellg := 384
        eof := false }
    else if pos = 131456 then
      { ierr := 0
        fhdr := { n_size := 384, n_columns := n_columns, n_rows := 256, n_bpi := 16, i_seq := 1 }
        tellg := 131840
        eof := false }
    else { ierr := 13, fhdr := {}, tellg := pos, eof := true }
  seekg_good := fun _ => true

/-! ## Section 3: the pixel data decoder (merlin_hdr.cpp, lines 190-286) -/

/-- The buffer in which the bytes of each group of `g` bytes are reversed: position `p`
holds the byte from the mirrored position of the same group. -/
def swap_groups (g : Nat) (inbuf : List (Fin 256)) : List (Fin 256) :=
  (List.range inbuf.length).map (fun p => inbuf.getD (g * (p / g) + (g - 1 - p % g)) 0)

/-! ## Section 4: frame pixel indices and the defect pixel correction
(merlin_hdr.cpp, lines 9-12; merlin_prm.cpp, lines 356-372, 526-596, 746-774, 883-915) -/

/-- Conversion of a `size_t` value to `int` (32 bit, two's complement). -/
def int_of_size_t (n : Nat) : Int :=
  if n % 2 ^ 32 < 2 ^ 31 then ((n % 2 ^ 32 : Nat) : Int) else ((n % 2 ^ 32 : Nat) : Int) - 2 ^ 32

/-- The function `imod(i, n)`, `((i%n + n) % n)` with the truncating remainder of C++, for
`n` other than 0, on the integers: the sum `i%n + n` is not reduced to 32 bits.  This is
the value on the target for `0 < n <= 2^30` (`imod_int32_eq`); `imod_int32` of section 9
is the function on the 32-bit `int`. -/
def imod (i n : Int) : Int := (i.tmod n + n).tmod n

/-- The function `merlin_params::get_frame_pixel_idx(x, y)`. -/
def get_frame_pixel_idx (prm : merlin_params) (x y : Int) : Int :=
  if prm.hdr_frm.n_columns ≤ 0 ∨ prm.hdr_frm.n_rows ≤ 0 then -1
  else imod x prm.hdr_frm.n_columns + imod y prm.hdr_frm.n_rows * prm.hdr_frm.n_columns

/-- The function `merlin_params::get_frame_pixel(idx, x, y)`.  The outer `none` stands for
the division by zero inside `imod` when `n_rows` is 0; the inner `none` for the return
code 1, which leaves `x` and `y` as they were; `some (x, y)` for the return code 0. -/
def get_frame_pixel (prm : merlin_params) (idx : Int) : Option (Option (Int × Int)) :=
  if prm.hdr_frm.n_columns ≤ 0 then some none
  else if prm.hdr_frm.n_rows = 0 then none
  else
    let x := imod idx prm.hdr_frm.n_columns
    some (some (x, imod ((idx - x).tdiv prm.hdr_frm.n_columns) prm.hdr_frm.n_rows))

/-- The function `merlin_params::is_defect_pixel(size_t idx)`. -/
def is_defect_pixel (prm : merlin_params) (idx : Nat) : Bool :=
  prm.v_defect_corr.any (fun d => decide (d.idx = idx))

/-- The function `merlin_params::is_defect_pixel(int x, int y)`; the test `i >= 0` on the
`size_t` value `i` always holds. -/
def is_defect_pixel_xy (prm : merlin_params) (x y : Int) : Bool :=
  is_defect_pixel prm (size_t_of_int (get_frame_pixel_idx prm x y))

/-- The offsets `(l, k)` in the order of the loops `for (k = -1; k <= 1; k++)`,
`for (l = -1; l <= 1; l++)` of `update_defect_correction_list`. -/
def neighbor_offsets : List (Int × Int) :=
  [(-1, -1), (0, -1), (1, -1), (-1, 0), (0, 0), (1, 0), (-1, 1), (0, 1), (1, 1)]

/-- The correction table that lines 563-574 build for a defect at `(x, y)`: the entries
`idx2 = (size_t)get_frame_pixel_idx(x + l, y + k)` that are not registered defects.  The
test `idx2 < 0` on the `size_t` value `idx2` never holds, so it skips nothing. -/
def correction_table (prm : merlin_params) (x y : Int) : List Nat :=
  (neighbor_offsets.map (fun lk =>
    size_t_of_int (get_frame_pixel_idx prm (x + lk.1) (y + lk.2)))).filter
      (fun idx2 => !is_defect_pixel prm idx2)

/-- The function `merlin_params::update_defect_correction_list`.  The loop over the
defects changes the member `v_idx_corr` only, which `is_defect_pixel` does not read. -/
def update_defect_correction_list (prm : merlin_params) : merlin_params × Int :=
  ({ prm with
      v_defect_corr := prm.v_defect_corr.map (fun d =>
        { d with v_idx_corr := correction_table prm d.x d.y })
      defects_modified := false }, 0)

/-- The function `merlin_params::set_defect_pixel(int x, int y)`.  The result is `none`
when `get_frame_pixel` divides by zero or leaves the coordinates of the new entry
without a value. -/
def set_defect_pixel (prm : merlin_params) (x y : Int) : Option (merlin_params × Int) :=
  if is_defect_pixel_xy prm x y then some (prm, 0)
  else
    let i := size_t_of_int (get_frame_pixel_idx prm x y)
    match get_frame_pixel prm (int_of_size_t i) with
    | some (some (dx, dy)) =>
      some ({ prm with
        v_defect_corr := prm.v_defect_corr ++ [{ idx := i, x := dx, y := dy, v_idx_corr := [] }]
        defects_modified := true }, 0)
    | _ => none

/-- The function `merlin_params::unset_defect_list`. -/
def unset_defect_list (prm : merlin_params) : merlin_params × Int :=
  ({ prm with v_defect_corr := [], defects_modified := false }, 0)

/-- The function `merlin_params::unset_defect_pixel(int x, int y)`: the first entry with the
index of `(x, y)` is erased. -/
def unset_defect_pixel (prm : merlin_params) (x y : Int) : merlin_params × Int :=
  let idx_d := size_t_of_int (get_frame_pixel_idx prm x y)
  if is_defect_pixel prm idx_d then
    let v := prm.v_defect_corr.eraseP (fun d => decide (d.idx = idx_d))
    ({ prm with v_defect_corr := v, defects_modified := decide (0 < v.length) }, 0)
  else (prm, 0)

/-- The body of the loop over the defects in `defect_correction` (lines 898-911) for the
defect `d` on the buffer `buf`.  Pixel values are rational numbers and the arithmetic of
`double` is taken as exact. -/
def defect_step (buf : Nat → ℚ) (d : defect_pixel_corr) : Nat → ℚ :=
  let nc : Int := (d.v_idx_corr.length : Int)
  if nc > 0 then
    let rnc : ℚ := 1 / (nc : ℚ)
    let snc : ℚ := d.v_idx_corr.foldl (fun snc idx2 => snc + buf idx2) 0
    Function.update buf d.idx (snc * rnc)
  else buf

/-- The function `merlin_params::defect_correction(buf)` for a non-null buffer: the return
code and the buffer after the call. -/
def defect_correction (prm : merlin_params) (buf : Nat → ℚ) : Int × (Nat → ℚ) :=
  let npix := size_t_of_int prm.hdr_frm.n_rows * size_t_of_int prm.hdr_frm.n_columns % 2 ^ 64
  if prm.v_defect_corr.length > 0 then
    if npix = 0 then (2, buf)
    else (0, prm.v_defect_corr.foldl defect_step buf)
  else (0, buf)

/-- The states that a sequence of calls of `set_defect_pixel(x, y)`,
`unset_defect_pixel(x, y)`, `unset_defect_list` and `update_defect_correction_list` reaches
from the state `prm0`; none of the calls changes the frame geometry `hdr_frm`. -/
inductive defect_reachable (prm0 : merlin_params) : merlin_params → Prop where
  | start : defect_reachable prm0 prm0
  | set_pixel (p p1 : merlin_params) (x y r : Int) : defect_reachable prm0 p →
      set_defect_pixel p x y = some (p1, r) → defect_reachable prm0 p1
  | unset_pixel (p : merlin_params) (x y : Int) : defect_reachable prm0 p →
      defect_reachable prm0 (unset_defect_pixel p x y).1
  | unset_list (p : merlin_params) : defect_reachable prm0 p →
      defect_reachable prm0 (unset_defect_list p).1
  | update (p : merlin_params) : defect_reachable prm0 p →
      defect_reachable prm0 (update_defect_correction_list p).1

/-- No entry of a correction table is the index of a defect that has a non-empty
correction table of its own. -/
def cache_sound (ds : List defect_pixel_corr) : Prop :=
  ∀ d ∈ ds, ∀ i ∈ d.v_idx_corr, ∀ d1 ∈ ds, d1.idx = i → d1.v_idx_corr = []

/-- The last defect of the list that has a non-empty correction table and the index `j`:
the one whose value the correction pass leaves at `j`. -/
def last_writer (ds : List defect_pixel_corr) (j : Nat) : Option defect_pixel_corr :=
  (ds.filter (fun d => decide (0 < d.v_idx_corr.length) && decide (d.idx = j))).getLast?

/-- The value that `defect_step` writes for the defect `d` on the buffer `buf`. -/
def correction_value (buf : Nat → ℚ) (d : defect_pixel_corr) : ℚ :=
  (d.v_idx_corr.foldl (fun snc idx2 => snc + buf idx2) 0) *
    (1 / ((d.v_idx_corr.length : Int) : ℚ))

/-- A frame of 4 x 4 pixels without registered defects. -/
def example_frame : merlin_params := { hdr_frm := { n_columns := 4, n_rows := 4 } }

/-- The frame of 4 x 4 pixels with the pixels (0, 0) and (1, 1) registered as defects and
no correction tables yet. -/
def example_defects : merlin_params :=
  { hdr_frm := { n_columns := 4, n_rows := 4 }
    defects_modified := true
    v_defect_corr := [{ idx := 0, x := 0, y := 0, v_idx_corr := [] },
      { idx := 5, x := 1, y := 1, v_idx_corr := [] }] }

/-! ## Section 5: properties of the defect list (merlin_prm.cpp, lines 545-596) -/

/-- The function `merlin_params::is_defect_list_modified`. -/
def is_defect_list_modified (prm : merlin_params) : Bool := prm.defects_modified

/-- A frame geometry with at least one pixel whose pixel indices are values of `int`. -/
def frame_geometry_ok (prm : merlin_params) : Prop :=
  0 < prm.hdr_frm.n_columns ∧ 0 < prm.hdr_frm.n_rows ∧
    prm.hdr_frm.n_columns * prm.hdr_frm.n_rows < 2 ^ 31

/-- The frame of 4 x 4 pixels after `set_defect_pixel(1, 1)`: one defect in the interior,
no correction table yet. -/
def example_interior_defect : merlin_params :=
  { hdr_frm := { n_columns := 4, n_rows := 4 }
    defects_modified := true
    v_defect_corr := [{ idx := 5, x := 1, y := 1, v_idx_corr := [] }] }


/-! ## Section 6: the acquisition header (merlin_hdr.cpp, lines 9-65)

A `std::ifstream` is its content, the flag of being open, the read position and the state
flags `failbit` and `eofbit`; the content is the sequence of characters that the stream
delivers.  An exception of the standard library and a division by zero end the run without
a result, `none`. -/

/-- A `std::ifstream`. -/
structure ifstream where
  data : List Char := []
  is_open : Bool := true
  pos : Nat := 0
  failbit : Bool := false
  eofbit : Bool := false
deriving DecidableEq

/-- The member `good()` of a stream. -/
def ifstream.good (fin : ifstream) : Bool := !fin.failbit && !fin.eofbit

/-- The call `getline(*pfin, str_line)`: the characters up to the next line feed, which is
extracted and dropped; at the end of the content `eofbit` is set, and `failbit` as well when
no character was extracted.  The second component is `none` when the stream converts to
`false` after the call. -/
def getline (fin : ifstream) : ifstream × Option (List Char) :=
  if fin.good then
    let rest := fin.data.drop fin.pos
    let line := rest.takeWhile (fun c => c != '\n')
    if line.length < rest.length then
      ({ fin with pos := fin.pos + line.length + 1 }, some line)
    else if line.length = 0 then ({ fin with eofbit := true, failbit := true }, none)
    else ({ fin with pos := fin.pos + line.length, eofbit := true }, some line)
  else ({ fin with failbit := true }, none)

/-- The loop `while (getline(*pfin, str_line))` of lines 27-34, with the list
`v_str_header` built so far; `0 == str_line.find("End")` holds when the line starts with
`End`.  The first argument bounds the number of rounds; `none` when it is used up. -/
def read_header_lines : Nat → ifstream → List (List Char) → Option (List (List Char))
  | 0, _, _ => none
  | n + 1, fin, v_str_header =>
    match getline fin with
    | (fin1, some str_line) =>
      if "End".toList.isPrefixOf str_line then some (v_str_header ++ ["End".toList])
      else read_header_lines n fin1 (v_str_header ++ [str_line])
    | (_, none) => some v_str_header

/-- The member `substr(pos, n)` of `std::string`: `none` for the exception
`std::out_of_range` when `pos` is beyond the size. -/
def substr (s : List Char) (pos n : Nat) : Option (List Char) :=
  if s.length < pos then none else some ((s.drop pos).take n)

/-- The function `isspace` of the C locale. -/
def isspace (c : Char) : Bool := c = ' ' || (9 ≤ c.toNat && c.toNat ≤ 13)

/-- The function `isdigit`. -/
def isdigit (c : Char) : Bool := 48 ≤ c.toNat && c.toNat ≤ 57

/-- The value of the leading decimal digits of a string, after the value `acc`. -/
def digits_value : Nat → List Char → Nat
  | acc, [] => acc
  | acc, c :: s => if isdigit c then digits_value (10 * acc + (c.toNat - 48)) s else acc

/-- The function `atoi` on the characters of a string: white space, an optional sign, decimal
digits; a value outside the range of `int` is returned as the nearest bound of the range, as
the C runtime of the compiler of this project does. -/
def atoi (s : List Char) : Int :=
  let v : Int :=
    match s.dropWhile isspace with
    | '-' :: r => -(digits_value 0 r : Int)
    | '+' :: r => (digits_value 0 r : Int)
    | r => (digits_value 0 r : Int)
  if v < -(2 ^ 31) then -(2 ^ 31) else if 2 ^ 31 - 1 < v then 2 ^ 31 - 1 else v

/-- The body of the loop over the header lines (lines 44-55): the first of the three
prefixes that the line starts with decides the member that is assigned. -/
def parse_header_line (hdr : merlin_hdr) (ln : List Char) : Option merlin_hdr :=
  if "Time and Date Stamp (yr, mnth, day, hr, min, s):".toList.isPrefixOf ln then
    (substr ln 49 (size_t_of_int ((ln.length : Int) - 49))).map
      (fun s => { hdr with s_timestamp := s })
  else if "Frames in Acquisition (Number):".toList.isPrefixOf ln then
    (substr ln 32 (size_t_of_int ((ln.length : Int) - 32))).map
      (fun s => { hdr with n_frames := atoi s })
  else if "Frames per Trigger (Number):".toList.isPrefixOf ln then
    (substr ln 29 (size_t_of_int ((ln.length : Int) - 29))).map
      (fun s => { hdr with n_columns := atoi s })
  else some hdr

/-- The loop over the header lines (lines 43-56). -/
def parse_header_lines : List (List Char) → merlin_hdr → Option merlin_hdr
  | [], hdr => some hdr
  | ln :: v, hdr => (parse_header_line hdr ln).bind (parse_header_lines v)

/-- A call `imod(i, n)` as the processor evaluates it: the remainder `i%n` has no value for
`n = 0`. -/
def imod_eval (i n : Int) : Option Int := if n = 0 then none else some (imod i n)

/-- Lines 57-62 of `merlin_read_header`: the number of scan rows.  The second call of `imod`
is not under the condition of the first statement. -/
def scan_rows (hdr : merlin_hdr) : Option merlin_hdr :=
  let hdr1 : Option merlin_hdr :=
    if 0 < hdr.n_frames ∧ hdr.n_columns < hdr.n_frames ∧ 0 < hdr.n_columns then
      (imod_eval hdr.n_frames hdr.n_columns).map (fun m =>
        { hdr with n_rows := (hdr.n_frames - m).tdiv hdr.n_columns })
    else some hdr
  hdr1.bind (fun h =>
    (imod_eval h.n_frames h.n_columns).map (fun m =>
      if 0 < m then { h with n_rows := h.n_rows + 1 } else h))

/-- The function `merlin_read_header(pfin, phdr)`: the return code and the header behind
`phdr`; a null pointer is `none`.  The stream is closed when the lines are read and is
not part of the result. -/
def merlin_read_header (pfin : Option ifstream) (phdr : Option merlin_hdr) :
    Option (Int × Option merlin_hdr) :=
  match pfin with
  | none => some (1, phdr)
  | some fin =>
    if fin.is_open then
      match read_header_lines (fin.data.length + 2) fin [] with
      | none => none
      | some v_str_header =>
        match phdr with
        | none => some (0, none)
        | some hdr =>
          ((parse_header_lines v_str_header hdr).bind scan_rows).map (fun h => (0, some h))
    else some (2, phdr)

/-- A stream over the lines of an acquisition header with the given numbers of frames and
of frames per trigger. -/
def example_header (frames columns : String) : ifstream :=
  { data := ("HDR,\nTime and Date Stamp (yr, mnth, day, hr, min, s):\t01/02/2020 10:11:12\n"
      ++ "Frames in Acquisition (Number):\t" ++ frames ++ "\nFrames per Trigger (Number):\t"
      ++ columns ++ "\nEnd\t").toList }


/-- A stream over the lines of an acquisition header that has no line for the number of
frames per trigger. -/
def example_header_no_trigger : ifstream :=
  { data := ("HDR,\nFrames in Acquisition (Number):\t100\nEnd\t").toList }


/-! ## Section 7: the annular detector (merlinio.cpp, lines 147-298)

The functions read the global object `prm`, which is their second argument here, after the
operations of `double`.  An array behind a pointer is a function on the indices, a null
pointer is `none`.  A finite value of type `double` is the rational number it denotes.
`prepare_annular_detector` computes with the rounded operations of a `double_ops`; the
sums of `sum_annular_range` and `com_annular_range` are sums of rational numbers, and a
division is `none` when the divisor is 0. -/

/-- The operations of the type `double` that `prepare_annular_detector` uses, each with the
rounding of the target.  Comparisons of `double` values and the conversion of an `int` to
`double` are exact. -/
structure double_ops where
  add : ℚ → ℚ → ℚ
  sub : ℚ → ℚ → ℚ
  mul : ℚ → ℚ → ℚ
  sqrt : ℚ → ℚ

/-- The integer nearest to `t`, the even one of two that are equally near. -/
def round_half_even (t : ℚ) : Int :=
  let f := ⌊t⌋
  if t - f < 1 / 2 then f
  else if 1 / 2 < t - f then f + 1
  else if f % 2 = 0 then f else f + 1

/-- The `double` nearest to `q` in the IEEE 754 binary64 format, ties to even, without the
limits of the exponent: for `2^e <= |q| < 2^(e+1)` a multiple of `2^(e-52)`. -/
def round_double (q : ℚ) : ℚ :=
  if q = 0 then 0
  else
    let u := (2 : ℚ) ^ (Int.log 2 |q| - 52)
    if q < 0 then -((round_half_even (|q| / u) : ℚ) * u)
    else (round_half_even (|q| / u) : ℚ) * u

/-- The `double` nearest to the square root of `q`, the result of `sqrt` in IEEE 754
arithmetic, without the limits of the exponent: for `4^e <= q < 4^(e+1)` the root lies in
`[2^e, 2^(e+1))` and the result is `m * 2^(e-52)` or `(m + 1) * 2^(e-52)` for the integer
part `m` of the root of `n = q * 4^(52-e)`, the second when `(m + 1/2)^2 < n`.  The root of
a `double` is never half-way between two `double` values.  The root of 0 is 0; a negative
`q`, whose root is no number, does not occur as the rounded sum of two squares and is given
the value 0 here. -/
def sqrt_double (q : ℚ) : ℚ :=
  if q ≤ 0 then 0
  else
    let e := Int.log 4 q
    let n := q * (4 : ℚ) ^ (52 - e)
    let m := Nat.sqrt ⌊n⌋₊
    let u := (2 : ℚ) ^ (e - 52)
    if (m : ℚ) * m + m + 1 / 4 < n then ((m : ℚ) + 1) * u else (m : ℚ) * u

/-- The operations of `double` in IEEE 754 arithmetic with rounding to nearest: the exact
result of an operation, rounded. -/
def ieee_ops : double_ops :=
  { add := fun a b => round_double (a + b)
    sub := fun a b => round_double (a - b)
    mul := fun a b => round_double (a * b)
    sqrt := sqrt_double }

/-- The function `merlin_params::get_calib_pos` for a pixel `(x, y)` and an output pointer
that is not null (merlin_prm.cpp, lines 319-330). -/
def get_calib_pos (ops : double_ops) (prm : merlin_params) (x y : Int) : merlin_pos :=
  let dx : ℚ := ops.sub (x : ℚ) prm.frame_calib.offset.x
  let dy : ℚ := ops.sub (y : ℚ) prm.frame_calib.offset.y
  { x := ops.add (ops.mul dx prm.frame_calib.a0.x) (ops.mul dy prm.frame_calib.a1.x)
    y := ops.add (ops.mul dx prm.frame_calib.a0.y) (ops.mul dy prm.frame_calib.a1.y) }

/-- The value `qm = sqrt(q.x*q.x + q.y*q.y)` of line 175. -/
def annular_radius (ops : double_ops) (q : merlin_pos) : ℚ :=
  ops.sqrt (ops.add (ops.mul q.x q.x) (ops.mul q.y q.y))

/-- The test `qm >= range.min && qm < range.max` of line 176 for
`qm = sqrt(q.x*q.x + q.y*q.y)`. -/
def in_annular_range (ops : double_ops) (range : merlin_range) (q : merlin_pos) : Bool :=
  decide (range.min ≤ annular_radius ops q) && decide (annular_radius ops q < range.max)

/-- The memory that `prepare_annular_detector` writes: the mask, the hash and the length of
the hash. -/
structure annular_detector where
  detbuf : Nat → ℚ
  dethash : Nat → Int
  nhash : Nat

/-- The loop of lines 167-188 from the index `i` on, for `k` more indices.  The result is
`none` when `get_frame_pixel` divides by zero, and the code 10 when it returns an error. -/
def annular_loop (ops : double_ops) (prm : merlin_params) (bhash : Bool) :
    Nat → Nat → annular_detector → Option (Int × annular_detector)
  | 0, _, det => some (0, det)
  | k + 1, i, det =>
    match get_frame_pixel prm (int_of_size_t i) with
    | none => none
    | some none => some (10, det)
    | some (some (px, py)) =>
      if in_annular_range ops prm.range_annular (get_calib_pos ops prm px py) then
        annular_loop ops prm bhash k (i + 1)
          { detbuf := Function.update det.detbuf i 1
            dethash := if bhash then Function.update det.dethash det.nhash (int_of_size_t i)
              else det.dethash
            nhash := if bhash then det.nhash + 1 else det.nhash }
      else
        annular_loop ops prm bhash k (i + 1)
          { det with detbuf := Function.update det.detbuf i 0 }

/-- The function `prepare_annular_detector(nlen, detbuf, dethash, nhash, pfhdr)`: the
return code and the contents of `detbuf`, `dethash` and `*nhash` after the call. -/
def prepare_annular_detector (ops : double_ops) (prm : merlin_params) (nlen : Nat)
    (detbuf : Option (Nat → ℚ)) (dethash : Option (Nat → Int)) (nhash : Option Nat)
    (pfhdr : Option merlin_frame_hdr) :
    Option (Int × Option (Nat → ℚ) × Option (Nat → Int) × Option Nat) :=
  if nlen = 0 then some (1, detbuf, dethash, nhash)
  else
    match detbuf, pfhdr with
    | none, _ => some (2, detbuf, dethash, nhash)
    | some _, none => some (5, detbuf, dethash, nhash)
    | some buf, some _ =>
      match dethash, nhash with
      | some hash, some _ =>
        (annular_loop ops prm true nlen 0 { detbuf := buf, dethash := hash, nhash := 0 }).map
          (fun r => (r.1, some r.2.detbuf, some r.2.dethash, some r.2.nhash))
      | _, _ =>
        (annular_loop ops prm false nlen 0
          { detbuf := buf, dethash := fun _ => 0, nhash := 0 }).map
          (fun r => (r.1, some r.2.detbuf, dethash, nhash))

/-- The function `sum_annular_range(nlen, buf, detbuf, dethash, nhash, res)`: the return
code and the value behind `res` after the call. -/
def sum_annular_range (nlen : Nat) (buf detbuf : Option (Nat → ℚ))
    (dethash : Option (Nat → Int)) (nhash : Nat) (res : Option ℚ) : Int × Option ℚ :=
  match buf, detbuf, res with
  | none, _, _ => (2, res)
  | some _, none, _ => (3, res)
  | some _, some _, none => (6, res)
  | some b, some m, some _ =>
    if 0 < nlen then
      match dethash with
      | some hash =>
        if 0 < nhash then
          (0, some ((List.range nhash).foldl (fun lres i =>
            lres + b (size_t_of_int (hash i)) * m (size_t_of_int (hash i))) 0))
        else (0, some ((List.range nlen).foldl (fun lres i => lres + b i * m i) 0))
      | none => (0, some ((List.range nlen).foldl (fun lres i => lres + b i * m i) 0))
    else (0, some 0)

/-- A division of `double` values as far as it has a divisor other than 0. -/
def checked_div (a b : ℚ) : Option ℚ := if b = 0 then none else some (a / b)

/-- The function `com_annular_range(nlen, buf, detbuf, x, y, dethash, nhash, ref0, resx,
resy)`: the return code and the values behind `resx` and `resy` after the call; `none` when
it divides by 0.  The list `idx` holds the indices `j` that the loop visits, in its order,
and the two sums of the loop are two folds over it. -/
def com_annular_range (nlen : Nat) (buf detbuf x y : Option (Nat → ℚ))
    (dethash : Option (Nat → Int)) (nhash : Nat) (ref0 : ℚ) (resx resy : Option ℚ) :
    Option (Int × Option ℚ × Option ℚ) :=
  match buf, detbuf, x, y, resx, resy with
  | none, _, _, _, _, _ => some (2, resx, resy)
  | some _, none, _, _, _, _ => some (3, resx, resy)
  | some _, some _, none, _, _, _ => some (4, resx, resy)
  | some _, some _, some _, none, _, _ => some (5, resx, resy)
  | some _, some _, some _, some _, none, _ => some (9, resx, resy)
  | some _, some _, some _, some _, some _, none => some (10, resx, resy)
  | some b, some m, some xs, some ys, some _, some _ =>
    if 0 < nlen ∧ 0 < ref0 then
      let idx : List Nat :=
        match dethash with
        | some hash =>
          if 0 < nhash then (List.range nhash).map (fun i => size_t_of_int (hash i))
          else List.range nlen
        | none => List.range nlen
      let lresx := idx.foldl (fun l j => l + xs j * b j * m j) 0
      let lresy := idx.foldl (fun l j => l + ys j * b j * m j) 0
      (checked_div lresx ref0).bind (fun rx =>
        (checked_div lresy ref0).map (fun ry => (0, some rx, some ry)))
    else some (0, some 0, some 0)

/-- The frame of 10 x 10 pixels with the calibration of the constructor, offset (0, 0),
a0 = (1, 0) and a1 = (0, 1), and the annular range from 2 to 5. -/
def example_annular : merlin_params :=
  { hdr_frm := { n_columns := 10, n_rows := 10 }
    range_annular := { min := 2, max := 5 } }


/-- The frame of 3 x 3 pixels with the calibration of the constructor and the annular range
from 6369051672525773 / 2^52, the `double` next above the root of 2, to 3. -/
def example_annular_edge : merlin_params :=
  { hdr_frm := { n_columns := 3, n_rows := 3 }
    range_annular := { min := 6369051672525773 / 2 ^ 52, max := 3 } }

/-- Whether the pixel with the frame index `i`, the pixel `(i mod columns, i div columns)`,
has a calibrated position inside the annular range. -/
def inside_pixel (ops : double_ops) (prm : merlin_params) (i : Nat) : Bool :=
  in_annular_range ops prm.range_annular
    (get_calib_pos ops prm ((i : Int) % prm.hdr_frm.n_columns)
      ((i : Int) / prm.hdr_frm.n_columns))


/-- The hash `dethash` of length `nhash` belongs to the mask `detbuf` on `nlen` pixels: no
hash at all, or the mask has the values 0 and 1 only and the hash lists the indices with
the mask value 1 in increasing order. -/
def hash_of_mask (nlen : Nat) (detbuf : Nat → ℚ) (dethash : Option (Nat → Int))
    (nhash : Nat) : Prop :=
  match dethash with
  | none => True
  | some hash =>
    (∀ i, i < nlen → detbuf i = 0 ∨ detbuf i = 1) ∧
      (List.range nhash).map (fun i => size_t_of_int (hash i)) =
        (List.range nlen).filter (fun i => decide (detbuf i = 1))


/-! ## Section 8: the frame header on a stream (merlin_hdr.cpp, lines 93-188)

The stream functions follow the C++ standard: an input function on a stream that is not
`good` sets `failbit` and does nothing else; `seekg` clears `eofbit` first; a position
behind the end of the content is a valid position to seek to. -/

/-- The character with the code 0 that ends a C string. -/
def nul_char : Char := Char.ofNat 0

/-- The member `tellg()`: the stream after the call and the position, -1 when `fail()`. -/
def ifstream.tellg (fin : ifstream) : ifstream × Int :=
  if fin.good then (fin, (fin.pos : Int)) else ({ fin with failbit := true }, -1)

/-- The member `read(cbuf, n)`: the stream after the call and the characters stored.  When
fewer than `n` characters are left they are all stored and `eofbit` and `failbit` are
set. -/
def ifstream.read (fin : ifstream) (n : Nat) : ifstream × List Char :=
  if fin.good then
    if fin.pos + n ≤ fin.data.length then
      ({ fin with pos := fin.pos + n }, (fin.data.drop fin.pos).take n)
    else
      ({ fin with pos := max fin.pos fin.data.length, eofbit := true, failbit := true },
        fin.data.drop fin.pos)
  else ({ fin with failbit := true }, [])

/-- The member `seekg(pos)`. -/
def ifstream.seekg (fin : ifstream) (pos : Int) : ifstream :=
  if fin.failbit then { fin with eofbit := false }
  else if pos < 0 then { fin with eofbit := false, failbit := true }
  else { fin with eofbit := false, pos := pos.toNat }

/-- The buffer `cbuf` after `read` has stored the characters `bytes` at its start. -/
def store (cbuf bytes : List Char) : List Char := bytes ++ cbuf.drop bytes.length

/-- The assignment `str_tmp = cbuf`: the characters before the first character 0 of the
buffer; `none` when the buffer holds no character 0, where the assignment reads beyond the
end of the buffer. -/
def c_string (cbuf : List Char) : Option (List Char) :=
  if cbuf.all (fun c => c != nul_char) then none
  else some (cbuf.takeWhile (fun c => c != nul_char))

/-- The conversion of a value to `__int8`. -/
def to_int8 (i : Int) : Int := if i % 2 ^ 8 < 2 ^ 7 then i % 2 ^ 8 else i % 2 ^ 8 - 2 ^ 8

/-- The conversion of a value to `__int16`. -/
def to_int16 (i : Int) : Int := if i % 2 ^ 16 < 2 ^ 15 then i % 2 ^ 16 else i % 2 ^ 16 - 2 ^ 16

/-- The conversion of a value to `__int32`. -/
def to_int32 (i : Int) : Int := if i % 2 ^ 32 < 2 ^ 31 then i % 2 ^ 32 else i % 2 ^ 32 - 2 ^ 32

/-- The value of a hexadecimal digit. -/
def hex_digit (c : Char) : Option Nat :=
  if isdigit c then some (c.toNat - 48)
  else if 97 ≤ c.toNat ∧ c.toNat ≤ 102 then some (c.toNat - 87)
  else if 65 ≤ c.toNat ∧ c.toNat ≤ 70 then some (c.toNat - 55)
  else none

/-- The value of the leading hexadecimal digits of a string, after the value `acc`. -/
def hex_value : Nat → List Char → Nat
  | acc, [] => acc
  | acc, c :: s =>
    match hex_digit c with
    | some d => hex_value (16 * acc + d) s
    | none => acc

/-- The call `strtoul(s, 0, 16)` with `unsigned long` of 32 bits: white space, an optional
sign, an optional prefix `0x`, hexadecimal digits; a value beyond the range is returned as
the largest value, and a minus sign negates within the type. -/
def strtoul16 (s : List Char) : Nat :=
  let s1 := s.dropWhile isspace
  let neg := s1.head? = some '-'
  let s2 := if s1.head? = some '-' ∨ s1.head? = some '+' then s1.drop 1 else s1
  let s3 := if s2.take 2 = ['0', 'x'] ∨ s2.take 2 = ['0', 'X'] then s2.drop 2 else s2
  let v := hex_value 0 s3
  if 2 ^ 32 ≤ v then 2 ^ 32 - 1 else if neg then (2 ^ 32 - v) % 2 ^ 32 else v

/-- One call `ihpos = merlin_read_frame_header_param(ihpos, &str_tmp, &str_num)` with the
test `ihpos < 0 || ihpos >= nmax` behind it: `none` when the scanner throws, `some none`
when the test holds, and otherwise the new values of `ihpos` and `str_num`. -/
def read_param (nmax : Int) (str_tmp : List Char) (ihpos : Int) (str_num : List Char) :
    Option (Option (Int × List Char)) :=
  (merlin_read_frame_header_param ihpos str_tmp str_num).map
    (fun r => if r.1 < 0 ∨ nmax ≤ r.1 then none else some r)

/-- The values that the first three fields leave behind (lines 113-126). -/
structure pre_parsed where
  ihpos : Int
  str_num : List Char
  nhdr : Int
  hdr : Option merlin_frame_hdr
deriving DecidableEq

/-- Lines 113-126 of `merlin_read_frame_header` on the string `str_tmp` of the first 128
characters: the three fields header ID, sequence number and header length.  The error is
the return code 3 with the header as it is then. -/
def pre_parse (str_tmp : List Char) (pfhdr : Option merlin_frame_hdr) :
    Option (Except (Int × Option merlin_frame_hdr) pre_parsed) :=
  match read_param 128 str_tmp 0 [] with
  | none => none
  | some none => some (Except.error (3, pfhdr))
  | some (some (p1, s1)) =>
    match read_param 128 str_tmp p1 s1 with
    | none => none
    | some none => some (Except.error (3, pfhdr.map (fun h => { h with s_hid := s1 })))
    | some (some (p2, s2)) =>
      match read_param 128 str_tmp p2 s2 with
      | none => none
      | some none =>
        some (Except.error (3, pfhdr.map (fun h =>
          { h with s_hid := s1, i_seq := to_int32 (atoi s2 - 1) })))
      | some (some (p3, s3)) =>
        some (Except.ok
          { ihpos := p3, str_num := s3, nhdr := atoi s3
            hdr := pfhdr.map (fun h =>
              { h with s_hid := s1, i_seq := to_int32 (atoi s2 - 1),
                       n_size := to_int16 (atoi s3) }) })


/-- The function `atof` on a string in decimal notation: white space, an optional sign,
digits with an optional point, an optional exponent; the value is the rational number that
the string denotes, and 0 when there is no digit.  The notations `0x`, `inf` and `nan` have
no counterpart here and are read as decimal notation. -/
def atof (s : List Char) : ℚ :=
  let s1 := s.dropWhile isspace
  let s2 := if s1.head? = some '-' ∨ s1.head? = some '+' then s1.drop 1 else s1
  let ip := s2.takeWhile isdigit
  let s3 := s2.dropWhile isdigit
  let fp := if s3.head? = some '.' then (s3.drop 1).takeWhile isdigit else []
  let s4 := if s3.head? = some '.' then (s3.drop 1).dropWhile isdigit else s3
  let s5 := if s4.head? = some 'e' ∨ s4.head? = some 'E' then s4.drop 1 else []
  let s6 := if s5.head? = some '-' ∨ s5.head? = some '+' then s5.drop 1 else s5
  let ex : Int :=
    if s5.head? = some '-' then -(digits_value 0 s6 : Int) else (digits_value 0 s6 : Int)
  let m : ℚ := (digits_value 0 ip : ℚ) + (digits_value 0 fp : ℚ) / 10 ^ fp.length
  if ip.length = 0 ∧ fp.length = 0 then 0
  else if s1.head? = some '-' then -(m * 10 ^ ex) else m * 10 ^ ex

/-- Lines 141-174 of `merlin_read_frame_header` on the string `str_tmp` of the full header:
the fields 4 to 11.  The error is the return code 5 with the header as it is then; `none`
when the scanner or `substr` throws. -/
def parse_fields (str_tmp : List Char) (ihpos : Int) (str_num : List Char) (nhdr : Int)
    (hdr : merlin_frame_hdr) : Option (Except merlin_frame_hdr merlin_frame_hdr) :=
  match read_param nhdr str_tmp ihpos str_num with
  | none => none
  | some none => some (Except.error hdr)
  | some (some (p4, s4)) =>
    match read_param nhdr str_tmp p4 s4 with
    | none => none
    | some none => some (Except.error { hdr with n_chips := to_int8 (atoi s4) })
    | some (some (p5, s5)) =>
      match read_param nhdr str_tmp p5 s5 with
      | none => none
      | some none =>
        some (Except.error
          { hdr with n_chips := to_int8 (atoi s4), n_columns := to_int32 (atoi s5) })
      | some (some (p6, s6)) =>
        let h6 : merlin_frame_hdr :=
          { hdr with n_chips := to_int8 (atoi s4), n_columns := to_int32 (atoi s5),
                     n_rows := to_int32 (atoi s6) }
        match read_param nhdr str_tmp p6 s6 with
        | none => none
        | some none => some (Except.error h6)
        | some (some (p7, s7)) =>
          match substr s7 1 2 with
          | none => none
          | some s7b =>
            match read_param nhdr str_tmp p7 s7 with
            | none => none
            | some none => some (Except.error { h6 with n_bpi := to_int8 (atoi s7b) })
            | some (some (p8, s8)) =>
              match read_param nhdr str_tmp p8 s8 with
              | none => none
              | some none =>
                some (Except.error
                  { h6 with n_bpi := to_int8 (atoi s7b), s_sensor_layout := s8 })
              | some (some (p9, s9)) =>
                let h9 : merlin_frame_hdr :=
                  { h6 with n_bpi := to_int8 (atoi s7b), s_sensor_layout := s8,
                            n_chip_select := to_int8 (strtoul16 s9) }
                match read_param nhdr str_tmp p9 s9 with
                | none => none
                | some none => some (Except.error h9)
                | some (some (p10, s10)) =>
                  match read_param nhdr str_tmp p10 s10 with
                  | none => none
                  | some none => some (Except.error { h9 with s_time := s10 })
                  | some (some (_, s11)) =>
                    some (Except.ok { h9 with s_time := s10, d_dwell := atof s11 })

/-- Lines 98-112 of `merlin_read_frame_header` for an open stream: the position `ipos`, the
first 128 characters in the zeroed buffer of 2048 characters, and the string in the buffer.
The error is a return code with the stream as it is then. -/
def read_header_start (fin : ifstream) :
    Option (Except (Int × ifstream) (ifstream × Int × List Char × List Char)) :=
  if (fin.tellg).1.failbit then some (Except.error (12, (fin.tellg).1))
  else if (((fin.tellg).1.read 128).1).failbit then
    some (Except.error (13, ((fin.tellg).1.read 128).1))
  else
    (c_string (store (List.replicate 2048 nul_char) ((fin.tellg).1.read 128).2)).map
      (fun str_tmp => Except.ok (((fin.tellg).1.read 128).1, (fin.tellg).2,
        store (List.replicate 2048 nul_char) ((fin.tellg).1.read 128).2, str_tmp))

/-- Lines 129-139 of `merlin_read_frame_header`: the full header is read from the position
`ipos` into the buffer.  The error is a return code with the stream as it is then. -/
def read_header_full (fin : ifstream) (ipos : Int) (cbuf : List Char) (nhdr : Int) :
    Option (Except (Int × ifstream) (ifstream × List Char)) :=
  if 0 < nhdr ∧ nhdr ≤ 2048 then
    if (fin.seekg ipos).failbit then some (Except.error (14, fin.seekg ipos))
    else if (((fin.seekg ipos).read nhdr.toNat).1).failbit then
      some (Except.error (15, ((fin.seekg ipos).read nhdr.toNat).1))
    else
      (c_string (store cbuf ((fin.seekg ipos).read nhdr.toNat).2)).map
        (fun str_tmp => Except.ok (((fin.seekg ipos).read nhdr.toNat).1, str_tmp))
  else some (Except.error (4, fin))

/-- Lines 186-188 of `merlin_read_frame_header`: the stream is moved behind the header. -/
def seek_header_end (fin : ifstream) (ipos nhdr : Int) (hdr : Option merlin_frame_hdr) :
    Int × Option ifstream × Option merlin_frame_hdr :=
  if (fin.seekg (ipos + nhdr)).failbit then (16, some (fin.seekg (ipos + nhdr)), hdr)
  else (0, some (fin.seekg (ipos + nhdr)), hdr)

/-- The function `merlin_read_frame_header(pfin, pfhdr)`: the return code, the stream and
the header behind `pfhdr` after the call; a null pointer is `none`.  The result is `none`
when an exception is thrown or the buffer is read beyond its end. -/
def merlin_read_frame_header (pfin : Option ifstream) (pfhdr : Option merlin_frame_hdr) :
    Option (Int × Option ifstream × Option merlin_frame_hdr) :=
  match pfin with
  | none => some (1, none, pfhdr)
  | some fin =>
    if fin.is_open then
      match read_header_start fin with
      | none => none
      | some (Except.error (code, fin1)) => some (code, some fin1, pfhdr)
      | some (Except.ok (fin1, ipos, cbuf, str_tmp)) =>
        match pre_parse str_tmp pfhdr with
        | none => none
        | some (Except.error (code, hdr)) => some (code, some fin1, hdr)
        | some (Except.ok pp) =>
          match read_header_full fin1 ipos cbuf pp.nhdr with
          | none => none
          | some (Except.error (code, fin2)) => some (code, some fin2, pp.hdr)
          | some (Except.ok (fin2, str_full)) =>
            match pp.hdr with
            | none => some (seek_header_end fin2 ipos pp.nhdr none)
            | some hdr =>
              match parse_fields str_full pp.ihpos pp.str_num pp.nhdr hdr with
              | none => none
              | some (Except.error h) => some (5, some fin2, some h)
              | some (Except.ok h) => some (seek_header_end fin2 ipos pp.nhdr (some h))
    else some (2, some fin, pfhdr)

/-- A stream over a file with one frame header that declares the length `len`, padded to
`size` characters. -/
def example_frame_file (len : String) (size : Nat) : ifstream :=
  { data := ("MQ1,000001," ++ len
      ++ ",01,0256,0256,U16,   2x2,0F,2020-01-02 10:11:12.123456,0.001000,0,0,0,").toList
      ++ List.replicate (size - 81 - len.length) ' ' }


/-- What the first three fields of the header at the position of the stream declare, when
the first 128 characters can be read and the three fields pre-parse (lines 98-126). -/
def pre_parsed_header (fin : ifstream) (pfhdr : Option merlin_frame_hdr) : Option pre_parsed :=
  match read_header_start fin with
  | some (Except.ok (_, _, _, str_tmp)) =>
    match pre_parse str_tmp pfhdr with
    | some (Except.ok pp) => some pp
    | _ => none
  | _ => none


/-- The position at which field `i` starts in the fields `toks` joined with single commas. -/
def field_start (toks : List (List Char)) (i : Nat) : Nat :=
  ((toks.take i).map (fun t => t.length + 1)).sum


/-- A stream over a file of 256 characters with one frame header of declared length 128
whose chip select field is `FF`. -/
def example_frame_file_ff : ifstream :=
  { data := ("MQ1,000001,00128,04,0256,0256,U16,   2x2,FF,2020-01-02 10:11:12.123456,"
      ++ "0.001000,0,0,0,").toList ++ List.replicate 170 ' ' }


/-! ## Section 9: scan lookups, the scan ROI and the header load (merlin_prm.cpp) -/

/-- The function `imod(i, n)` on the 32-bit `int` of the target: the sum `i%n + n` is
reduced to 32 bits (two's complement) before the second remainder is taken.  `imod` of
section 3 is the same expression on the integers; the two agree for `0 < n <= 2^30`, where
the sum stays below `2^31` (`imod_int32_eq`). -/
def imod_int32 (i n : Int) : Int := (to_int32 (i.tmod n + n)).tmod n

/-- A call `imod(i, n)` on 32-bit operands as the processor evaluates it: the remainder
`i%n` has no value for `n = 0`, nor for `i = -2^31` with `n = -1`. -/
def imod_int32_eval (i n : Int) : Option Int :=
  if n = 0 ∨ (n = -1 ∧ i = -(2 ^ 31)) then none else some (imod_int32 i n)

/-- The function `merlin_params::get_scan_pixel(idx, x, y)` (lines 332-340), with the
32-bit arithmetic of `int`.  The outer `none` stands for a remainder without value inside
the second `imod` (for `hdr.n_rows = 0`, the division by zero); the inner `none` for the
return code 1, which leaves `x` and `y` as they were; `some (x, y)` for the return code
0. -/
def get_scan_pixel (prm : merlin_params) (idx : Int) : Option (Option (Int × Int)) :=
  if prm.hdr.n_columns ≤ 0 then some none
  else
    let x := imod_int32 idx prm.hdr.n_columns
    (imod_int32_eval ((to_int32 (idx - x)).tdiv prm.hdr.n_columns) prm.hdr.n_rows).map
      (fun y => some (x, y))

/-- The function `merlin_params::get_frame_idx(x, y)` (lines 342-354), with the 32-bit
arithmetic of `int`: the sum and the product of the last line are reduced to 32 bits.  In
the last line `hdr.n_columns` and `hdr.n_rows` are positive, so both remainders have a
value. -/
def get_frame_idx (prm : merlin_params) (x y : Int) : Int :=
  if prm.hdr.n_columns ≤ 0 then -1
  else if x < 0 ∨ prm.hdr.n_columns ≤ x then -2
  else if y < 0 ∨ prm.hdr.n_rows ≤ y then -3
  else to_int32 (imod_int32 x prm.hdr.n_columns
    + imod_int32 y prm.hdr.n_rows * prm.hdr.n_columns)

/-- The function `merlin_params::get_frame_filepos(idx, ifile, ipos)` (lines 374-382): the
return code and, for the code 0, the values assigned to `ifile` and `ipos`; the outputs
are not touched with the code 1.  The result is `none` when `operator[]` reads behind the
end of a vector. -/
def get_frame_filepos (prm : merlin_params) (idx : Int) : Option (Int × Option (Int × Int)) :=
  if idx < 0 ∨ prm.hdr.n_frames ≤ idx then some (1, none)
  else
    match prm.v_frm_file[idx.toNat]?, prm.v_frm_pos[idx.toNat]? with
    | some ifile, some ipos => some (0, some (ifile, ipos))
    | _, _ => none

/-- The function `merlin_params::in_scan_roi(pos, roi)` (lines 298-315). -/
def in_scan_roi (pos : merlin_pix) (roi : merlin_roi) : Bool :=
  decide (roi.x0 ≤ pos.x) && decide (pos.x ≤ roi.x1) &&
    decide (roi.y0 ≤ pos.y) && decide (pos.y ≤ roi.y1)

/-- The function `merlin_params::get_scan_rect_roi_size` (lines 385-390): the differences
are converted to `size_t` and multiplied there. -/
def get_scan_rect_roi_size (prm : merlin_params) : Nat :=
  let dx := size_t_of_int
    (if prm.scan_rect_roi.x0 < prm.scan_rect_roi.x1 then
      prm.scan_rect_roi.x1 - prm.scan_rect_roi.x0 else 0)
  let dy := size_t_of_int
    (if prm.scan_rect_roi.y0 < prm.scan_rect_roi.y1 then
      prm.scan_rect_roi.y1 - prm.scan_rect_roi.y0 else 0)
  (dx * dy) % 2 ^ 64

/-- The pixels `(x, y)` with `0 <= x < nx` and `0 <= y < ny` that `in_scan_roi` accepts. -/
def roi_pixels (roi : merlin_roi) (nx ny : Nat) : List merlin_pix :=
  ((List.range ny).flatMap (fun (y : Nat) =>
    (List.range nx).map (fun (x : Nat) =>
      ({ x := (x : Int), y := (y : Int) } : merlin_pix)))).filter
        (fun p => in_scan_roi p roi)

/-- The function `merlin_params::read_header` (lines 66-91); `fin` is the stream after
`fin.open(str_header)`, not open when the file is missing.  The code that
`merlin_read_header` returns is assigned to `nerr`, and line 90 is `return 0`. -/
def read_header (prm : merlin_params) (fin : ifstream) : Option (merlin_params × Int) :=
  (merlin_read_header (some fin) (some prm.hdr)).map
    (fun r => ({ prm with hdr := r.2.getD prm.hdr }, 0))

/-- A stream for a header file that does not exist: it is not open. -/
def example_missing_header : ifstream := { is_open := false }


/-- A scan of 4 columns and 3 rows. -/
def example_scan : merlin_params := { hdr := { n_frames := 12, n_columns := 4, n_rows := 3 } }


/-- The number of files and every file index of the frame index are not negative. -/
def files_nonneg (st : index_builder) : Prop :=
  0 ≤ st.prm.hdr.n_files ∧ ∀ f ∈ st.prm.v_frm_file, 0 ≤ f


/-! ## Section 10: the gain correction (merlin_prm.cpp, lines 805-880) -/

/-- A file of gain factors as `load_gain_correction` sees it: whether it can be opened, the
values of the 32 bit floating point numbers that it holds, and whether reading ends with
`fin.fail() && !fin.eof()`. -/
structure gain_file where
  opens : Bool := true
  floats : List ℚ := []
  read_error : Bool := false

/-- The number of frame pixels `(size_t)hdr_frm.n_rows * (size_t)hdr_frm.n_columns`. -/
def frame_npix (prm : merlin_params) : Nat :=
  (size_t_of_int prm.hdr_frm.n_rows * size_t_of_int prm.hdr_frm.n_columns) % 2 ^ 64

/-- The function `merlin_params::unset_gain_correction` (lines 861-866): the array is
freed and the pointer keeps its value. -/
def unset_gain_correction (prm : merlin_params) : merlin_params × Int :=
  ({ prm with gaincorrect := false }, 0)

/-- The function `merlin_params::load_gain_correction` (lines 805-859) on the file of the
given name, `none` when the file does not exist.  The array of `npix` factors starts with
the numbers of the file and is zero behind them. -/
def load_gain_correction (prm : merlin_params) (file : Option gain_file) :
    merlin_params × Int :=
  if frame_npix prm = 0 then (prm, 1)
  else
    match file with
    | none => (prm, 2)
    | some f =>
      if f.opens then
        let prm1 := if prm.gaincorrect then (unset_gain_correction prm).1 else prm
        if f.read_error then ({ prm1 with gaincorrect := false }, 4)
        else
          ({ prm1 with
              img_gaincorrect := some (f.floats.take (frame_npix prm) ++
                List.replicate (frame_npix prm - f.floats.length) 0)
              gaincorrect := true }, 0)
      else (prm, 3)

/-- The function `merlin_params::gain_correction(buf)` (lines 868-880): the return code and
the buffer after the call; the buffer is a list, a null pointer is `none`.  The result is
`none` when the loop reads or writes behind the end of the buffer or of the array of gain
factors. -/
def gain_correction (prm : merlin_params) (buf : Option (List ℚ)) :
    Option (Int × Option (List ℚ)) :=
  if prm.gaincorrect then
    match buf, prm.img_gaincorrect with
    | some b, some m =>
      if frame_npix prm = 0 then some (2, buf)
      else if frame_npix prm ≤ b.length ∧ frame_npix prm ≤ m.length then
        some (0, some (List.zipWith (fun v g => v * g) (b.take (frame_npix prm))
          (m.take (frame_npix prm)) ++ b.drop (frame_npix prm)))
      else none
    | _, _ => some (1, buf)
  else some (0, buf)

/-- The object after `load_gain_correction` of four factors 2 under a template of 2 x 2
pixels, with the template replaced by one of 2 x 1 pixels afterwards. -/
def example_gain : merlin_params :=
  { (load_gain_correction { hdr_frm := { n_columns := 2, n_rows := 2 } }
      (some { floats := [2, 2, 2, 2] })).1 with
    hdr_frm := { n_columns := 2, n_rows := 1 } }


/-! ## Section 11: defect pixels from a parameter string (merlin_prm.cpp, lines 253-294 and
599-625) -/

/-- A separator of `merlin_params::read_param`, a character of the string `", "`. -/
def is_separator (c : Char) : Bool := c = ',' || c = ' '

/-- The function `merlin_params::read_param(ipos, pstr, prm)` for non-null string pointers:
the returned position and the content of `*prm` after the call.  `find_first_of` from
`lipos` ends behind the longest run of characters that are no separators, and
`find_first_not_of` behind the run of separators that follows. -/
def merlin_params.read_param (ipos : Int) (pstr prm : List Char) : Int × List Char :=
  let lipos := size_t_of_int (if 0 ≤ ipos then ipos else 0)
  let lmpos := pstr.length
  if lmpos ≤ lipos then (int_of_size_t lipos, [])
  else
    let tok := (pstr.drop lipos).takeWhile (fun c => !is_separator c)
    let lcpos := lipos + tok.length
    let prm1 := if 0 < lcpos - lipos then tok else prm
    if lcpos < lmpos then
      (int_of_size_t (lcpos + ((pstr.drop lcpos).takeWhile is_separator).length), prm1)
    else (int_of_size_t lcpos, prm1)

/-- The function `merlin_params::set_defect_pixel(std::string str_pos)` (lines 599-625): the
two passes of the loop, each with `read_param`, the test `i_pos < 0` and `atoi`, and the
call `set_defect_pixel(x, y)`. -/
def set_defect_pixel_str (prm : merlin_params) (str_pos : List Char) :
    Option (merlin_params × Int) :=
  let r1 := merlin_params.read_param 0 str_pos []
  if r1.1 < 0 then some (prm, 1)
  else
    let x := atoi r1.2
    let r2 := merlin_params.read_param r1.1 str_pos r1.2
    if r2.1 < 0 then some (prm, 2)
    else set_defect_pixel prm x (atoi r2.2)


/-! # Theorems -/

/-! ## Theorems of section 1 -/

theorem scan_to_separator_token (lmpos : Nat) (t r : List Char) (p : Nat)
    (ht : ',' ∉ t) (hb : p + t.length < lmpos) :
    scan_to_separator lmpos (t ++ ',' :: r) p = some (p + t.length) := by
  induction t generalizing p with
  | nil => simp [scan_to_separator]
  | cons a t ih =>
    have ha : a ≠ ',' := fun h => ht (by simp [h])
    have ht1 : ',' ∉ t := fun h => ht (by simp [h])
    simp only [List.length_cons] at hb
    have hp : p < lmpos := by omega
    have hstep : scan_to_separator lmpos ((a :: t) ++ ',' :: r) p
        = scan_to_separator lmpos (t ++ ',' :: r) (p + 1) := by
      show scan_to_separator lmpos (a :: (t ++ ',' :: r)) p = _
      simp only [scan_to_separator, ne_eq, ha, not_false_eq_true, hp, and_self, if_true]
    rw [hstep, ih (p + 1) ht1 (by omega)]
    simp only [List.length_cons]
    congr 1
    omega

theorem skip_separators_stop (lmpos : Nat) (c : Char) (r : List Char) (p : Nat) (hc : c ≠ ',') :
    skip_separators lmpos (c :: r) p = some p := by
  simp [skip_separators, hc]

/-- One call of the scanner on a token of at least two characters that is followed by a
single comma and a further character that is not a comma. -/
theorem read_param_token (pre t : List Char) (c : Char) (r prm : List Char)
    (hlen : 2 ≤ t.length) (ht : ',' ∉ t) (hc : c ≠ ',') :
    merlin_read_frame_header_param (pre.length : Int) (pre ++ t ++ ',' :: c :: r) prm
      = some (((pre.length + t.length + 1 : Nat) : Int), t) := by
  unfold merlin_read_frame_header_param
  simp only [Int.toNat_ofNat, List.append_assoc, List.drop_left]
  rw [scan_to_separator_token _ t (c :: r) pre.length ht (by simp)]
  have h1 : pre.length + t.length - pre.length > 1 := by omega
  simp only [h1, if_true]
  have hd : List.drop (pre.length + t.length + 1) (pre ++ (t ++ ',' :: c :: r)) = c :: r := by
    have : pre ++ (t ++ ',' :: c :: r) = (pre ++ t ++ [',']) ++ (c :: r) := by simp
    rw [this]
    have hl : pre.length + t.length + 1 = (pre ++ t ++ [',']).length := by
      simp only [List.length_append, List.length_singleton]
    rw [hl, List.drop_left]
  rw [hd, skip_separators_stop _ c r _ hc]
  simp

theorem scan_fields_tokens (toks : List (List Char)) (pre : List Char) (c : Char)
    (r prm : List Char) (hne : toks ≠ [])
    (htok : ∀ t ∈ toks, 2 ≤ t.length ∧ ',' ∉ t) (hc : c ≠ ',') :
    scan_fields (pre ++ join_fields toks ++ ',' :: c :: r) toks.length (pre.length : Int) prm
      = some (toks, ((pre.length + (join_fields toks).length + 1 : Nat) : Int)) := by
  induction toks generalizing pre prm with
  | nil => exact absurd rfl hne
  | cons t ts ih =>
    obtain ⟨hlen, hcomma⟩ := htok t (by simp)
    cases ts with
    | nil =>
      simp only [join_fields, List.length_singleton, scan_fields]
      rw [read_param_token pre t c r prm hlen hcomma hc]
    | cons u us =>
      obtain ⟨hlenu, hcommau⟩ := htok u (by simp)
      obtain ⟨d, u1, hu⟩ : ∃ d u1, u = d :: u1 := by
        cases u with
        | nil => simp at hlenu
        | cons d u1 => exact ⟨d, u1, rfl⟩
      have hd : d ≠ ',' := fun h => hcommau (by simp [hu, h])
      obtain ⟨w, hw⟩ : ∃ w, join_fields (u :: us) ++ ',' :: c :: r = d :: w := by
        cases us with
        | nil => exact ⟨u1 ++ ',' :: c :: r, by simp [join_fields, hu]⟩
        | cons v vs => exact ⟨u1 ++ ',' :: join_fields (v :: vs) ++ ',' :: c :: r, by
            simp [join_fields, hu]⟩
      have hstr : pre ++ join_fields (t :: u :: us) ++ ',' :: c :: r
          = pre ++ t ++ ',' :: d :: w := by
        simp only [join_fields, List.append_assoc, List.cons_append, ← hw]
      have hstr2 : pre ++ join_fields (t :: u :: us) ++ ',' :: c :: r
          = (pre ++ t ++ [',']) ++ join_fields (u :: us) ++ ',' :: c :: r := by
        simp only [join_fields, List.append_assoc, List.cons_append, List.nil_append,
          List.singleton_append]
      have hcall := read_param_token pre t d w prm hlen hcomma hd
      have hrec := ih (pre ++ t ++ [',']) t (by simp) (fun x hx => htok x (by simp [hx]))
      rw [← hstr2] at hrec
      rw [← hstr] at hcall
      have hpl : (pre ++ t ++ [',']).length = pre.length + t.length + 1 := by
        simp only [List.length_append, List.length_singleton]
      rw [hpl] at hrec
      show scan_fields _ ((u :: us).length + 1) _ _ = _
      rw [scan_fields, hcall]
      simp only []
      rw [hrec]
      simp only [join_fields, List.length_append, List.length_cons, Option.some.injEq,
        Prod.mk.injEq, true_and]
      congr 1
      omega

/-- Claim C1, amended: for every list of N >= 1 tokens that have at least two characters
and no comma, on a string in which the comma-joined tokens are followed by one more comma
and a character that is not a comma (a further field), N successive calls of the scanner
from position 0 capture the N tokens in order, and the last call returns the position of
the further field, one past the length of the joined tokens. -/
theorem scan_fields_round_trip (toks : List (List Char)) (c : Char) (rest prm : List Char)
    (hne : toks ≠ []) (htok : ∀ t ∈ toks, 2 ≤ t.length ∧ ',' ∉ t) (hc : c ≠ ',') :
    scan_fields (join_fields toks ++ ',' :: c :: rest) toks.length 0 prm
      = some (toks, (((join_fields toks).length + 1 : Nat) : Int)) := by
  have h := scan_fields_tokens toks [] c rest prm hne htok hc
  simpa using h

theorem scan_fields_round_trip_witness :
    scan_fields (join_fields ["MQ1".toList, "000001".toList, "00384".toList] ++ ',' :: '0' :: "1,".toList)
        3 0 []
      = some (["MQ1".toList, "000001".toList, "00384".toList], 17) := by
  have h := scan_fields_round_trip ["MQ1".toList, "000001".toList, "00384".toList] '0'
    "1,".toList [] (by decide) (by decide) (by decide)
  simpa [join_fields] using h

/-- Claim C1 as stated fails: on the string "ab,c,de" (tokens "ab", "c", "de") the second
call leaves the captured value at "ab" because the token "c" has a single character, the
third call runs into the end of the string where `at` throws, and so three calls do not
return the three tokens with the end position 7. -/
theorem scan_fields_round_trip_counterexample :
    join_fields ["ab".toList, "c".toList, "de".toList] = "ab,c,de".toList ∧
    scan_fields "ab,c,de".toList 2 0 [] = some (["ab".toList, "ab".toList], 5) ∧
    merlin_read_frame_header_param 5 "ab,c,de".toList "ab".toList = none ∧
    ¬ (scan_fields (join_fields ["ab".toList, "c".toList, "de".toList]) 3 0 []
        = some (["ab".toList, "c".toList, "de".toList],
            ((join_fields ["ab".toList, "c".toList, "de".toList]).length : Int))) := by
  decide


/-! ## Theorems of section 2 -/

theorem extrapolated_succ (lfpos dpos : Int) (k : Nat) :
    (List.range (k + 1)).map (fun (i : Nat) => lfpos + ((i : Int) + 1) * dpos)
      = (lfpos + dpos) ::
          (List.range k).map (fun (i : Nat) => lfpos + dpos + ((i : Int) + 1) * dpos) := by
  rw [List.range_succ_eq_map, List.map_cons, List.map_map]
  congr 1
  · simp
  · apply List.map_congr_left
    intro i _
    simp only [Function.comp_apply, Nat.succ_eq_add_one, Nat.cast_add, Nat.cast_one]
    ring

theorem add_frames_eq (lfile : Int) (k : Nat) (lfpos : Int) (st : index_builder) :
    add_frames lfile k lfpos st =
      { st with
        prm := { st.prm with
          v_frm_pos := st.prm.v_frm_pos ++
            (List.range k).map (fun (i : Nat) => lfpos + ((i : Int) + 1) * st.dpos)
          v_frm_file := st.prm.v_frm_file ++ List.replicate k lfile }
        n_frm := st.n_frm + k } := by
  induction k generalizing lfpos st with
  | zero => simp [add_frames]
  | succ k ih =>
    rw [add_frames, ih, extrapolated_succ]
    simp only [push_frame, List.append_assoc, List.singleton_append, List.replicate_succ,
      Nat.cast_add, Nat.cast_one]
    congr 1
    ring

theorem size_t_of_int_of_nonneg (i : Int) (h0 : 0 ≤ i) (h1 : i < 2 ^ 64) :
    ((size_t_of_int i : Nat) : Int) = i := by
  unfold size_t_of_int
  rw [Int.toNat_of_nonneg (Int.emod_nonneg _ (by norm_num))]
  exact Int.emod_eq_of_lt h0 h1

theorem frame_data_bytes_lt (fhdr : merlin_frame_hdr) : frame_data_bytes fhdr < 2 ^ 61 := by
  unfold frame_data_bytes
  have h : size_t_of_int fhdr.n_columns * size_t_of_int fhdr.n_rows % 2 ^ 64
      * size_t_of_int fhdr.n_bpi % 2 ^ 64 < 2 ^ 64 := Nat.mod_lt _ (by norm_num)
  omega

@[simp]
theorem seed_template_n_frm (st : index_builder) (fhdr : merlin_frame_hdr) :
    (seed_template st fhdr).n_frm = st.n_frm := by
  unfold seed_template; split <;> rfl

@[simp]
theorem seed_template_decoded (st : index_builder) (fhdr : merlin_frame_hdr) :
    (seed_template st fhdr).decoded = st.decoded := by
  unfold seed_template; split <;> rfl

@[simp]
theorem seed_template_v_frm_pos (st : index_builder) (fhdr : merlin_frame_hdr) :
    (seed_template st fhdr).prm.v_frm_pos = st.prm.v_frm_pos := by
  unfold seed_template; split <;> rfl

@[simp]
theorem seed_template_v_frm_file (st : index_builder) (fhdr : merlin_frame_hdr) :
    (seed_template st fhdr).prm.v_frm_file = st.prm.v_frm_file := by
  unfold seed_template; split <;> rfl

@[simp]
theorem seed_template_bscan (st : index_builder) (fhdr : merlin_frame_hdr) :
    (seed_template st fhdr).prm.bscanframeheaders = st.prm.bscanframeheaders := by
  unfold seed_template; split <;> rfl

@[simp]
theorem seed_template_n_files (st : index_builder) (fhdr : merlin_frame_hdr) :
    (seed_template st fhdr).prm.hdr.n_files = st.prm.hdr.n_files := by
  unfold seed_template; split <;> rfl

@[simp]
theorem seed_template_n_frames (st : index_builder) (fhdr : merlin_frame_hdr) :
    (seed_template st fhdr).prm.hdr.n_frames = st.prm.hdr.n_frames := by
  unfold seed_template; split <;> rfl

@[simp]
theorem seed_template_entries (st : index_builder) (fhdr : merlin_frame_hdr) :
    index_entries (seed_template st fhdr).prm = index_entries st.prm := by
  simp [index_entries]

theorem seed_template_of_pos (st : index_builder) (fhdr : merlin_frame_hdr) (h : st.n_frm ≠ 0) :
    seed_template st fhdr = st := by
  unfold seed_template; simp [h]

theorem seed_template_hdr_frm (st : index_builder) (fhdr : merlin_frame_hdr) (h : st.n_frm = 0) :
    (seed_template st fhdr).prm.hdr_frm = fhdr := by
  unfold seed_template; simp [h]

theorem seed_template_ok (st : index_builder) (fhdr : merlin_frame_hdr) (h0 : st.n_frm = 0)
    (hp : 0 < fhdr.n_size) (hm : fhdr.n_size ≤ 2048) : template_ok (seed_template st fhdr) := by
  have hs := size_t_of_int_of_nonneg fhdr.n_size (le_of_lt hp) (by omega)
  have hd := frame_data_bytes_lt fhdr
  unfold seed_template template_ok
  simp only [h0, if_true]
  refine ⟨hp, hm, hs, trivial, ?_⟩
  have hlt : size_t_of_int fhdr.n_size + frame_data_bytes fhdr < 2 ^ 63 := by
    have : (size_t_of_int fhdr.n_size : Int) ≤ 2048 := by omega
    omega
  rw [Nat.mod_eq_of_lt (by omega)]
  unfold streamoff_of_size_t
  rw [if_pos hlt]
  push_cast
  rfl

/-- After line 136 the template is in place, whether it was seeded by this header or by
an earlier one. -/
theorem template_ok_after_seed (st : index_builder) (fhdr : merlin_frame_hdr)
    (hn : 0 ≤ st.n_frm) (ht : 1 ≤ st.n_frm → template_ok st)
    (hp : 0 < fhdr.n_size) (hm : fhdr.n_size ≤ 2048) : template_ok (seed_template st fhdr) := by
  by_cases h0 : st.n_frm = 0
  · exact seed_template_ok st fhdr h0 hp hm
  · rw [seed_template_of_pos st fhdr h0]
    exact ht (by omega)

theorem template_ok_dpos_pos (st : index_builder) (h : template_ok st) : 0 < st.dpos := by
  obtain ⟨h1, _, h3, _, h5⟩ := h
  omega

theorem zip_replicate_map_range (a : Int) (g : Nat → Int) (m : Nat) :
    List.zip (List.replicate m a) ((List.range m).map g) = (List.range m).map (fun i => (a, g i)) := by
  induction m with
  | zero => simp
  | succ m ih =>
    rw [List.replicate_succ', List.range_succ, List.map_append, List.map_append,
      List.zip_append (by simp), ih]
    simp

theorem entry_lt_trans {a b c : Int × Int} (h1 : entry_lt a b) (h2 : entry_lt b c) :
    entry_lt a c := by
  unfold entry_lt at *
  omega

/-- The entries that `fill_frames` appends after the last entry `(lfile, lfpos)`. -/
theorem fill_entries_sorted (init : List (Int × Int)) (lfile lfpos dpos : Int) (m : Nat)
    (hs : (init ++ [(lfile, lfpos)]).Pairwise entry_lt) (hd : 0 < dpos) :
    ((init ++ [(lfile, lfpos)]) ++
      (List.range m).map (fun (i : Nat) => (lfile, lfpos + ((i : Int) + 1) * dpos))).Pairwise
        entry_lt := by
  rw [List.pairwise_append]
  refine ⟨hs, ?_, ?_⟩
  · rw [List.pairwise_map]
    refine List.Pairwise.imp ?_ (List.pairwise_lt_range m)
    intro i j hij
    right
    refine ⟨rfl, ?_⟩
    have hlt : (i : Int) < (j : Int) := by exact_mod_cast hij
    show lfpos + ((i : Int) + 1) * dpos < lfpos + ((j : Int) + 1) * dpos
    have : ((i : Int) + 1) * dpos < ((j : Int) + 1) * dpos :=
      mul_lt_mul_of_pos_right (by omega) hd
    omega
  · intro a ha b hb
    rw [List.mem_map] at hb
    obtain ⟨i, _, rfl⟩ := hb
    have hlast : entry_lt (lfile, lfpos) (lfile, lfpos + ((i : Int) + 1) * dpos) := by
      right
      refine ⟨rfl, ?_⟩
      have h0 : (0 : Int) < (i : Int) + 1 := by
        have : (0 : Int) ≤ (i : Int) := Int.natCast_nonneg i
        omega
      show lfpos < lfpos + ((i : Int) + 1) * dpos
      have : 0 < ((i : Int) + 1) * dpos := mul_pos h0 hd
      omega
    rw [List.pairwise_append] at hs
    rw [List.mem_append] at ha
    rcases ha with ha | ha
    · exact entry_lt_trans (hs.2.2 a ha (lfile, lfpos) (by simp)) hlast
    · rw [List.mem_singleton] at ha
      rw [ha]
      exact hlast

/-- With `n_frm` at least one and equal to the common length of the index vectors, the
entry that lines 171-172 and 230-231 read is the last entry of the index. -/
theorem entries_last (st : index_builder) (hn : st.n_frm = (st.prm.v_frm_pos.length : Int))
    (hl : st.prm.v_frm_file.length = st.prm.v_frm_pos.length) (h1 : 1 ≤ st.n_frm) :
    ∃ init, index_entries st.prm = init ++
      [(st.prm.v_frm_file.getD (st.n_frm - 1).toNat 0,
        st.prm.v_frm_pos.getD (st.n_frm - 1).toNat 0)] := by
  have hp : st.prm.v_frm_pos ≠ [] := by
    intro h
    rw [h] at hn
    simp at hn
    omega
  have hf : st.prm.v_frm_file ≠ [] := by
    intro h
    rw [h] at hl
    simp at hl
    exact hp (List.eq_nil_of_length_eq_zero hl.symm)
  obtain ⟨pi, lp, hpe⟩ := (List.eq_nil_or_concat st.prm.v_frm_pos).resolve_left hp
  obtain ⟨fi, lf, hfe⟩ := (List.eq_nil_or_concat st.prm.v_frm_file).resolve_left hf
  have hlen : fi.length = pi.length := by
    rw [hpe, hfe] at hl
    simpa using hl
  have hidx : (st.n_frm - 1).toNat = pi.length := by
    rw [hn, hpe]
    simp
  refine ⟨List.zip fi pi, ?_⟩
  rw [hidx]
  unfold index_entries
  rw [hpe, hfe, List.concat_eq_append, List.concat_eq_append, List.zip_append hlen]
  simp [← hlen]

theorem fill_frames_eq (st : index_builder) (bound : Int) :
    fill_frames st bound =
      { st with
        prm := { st.prm with
          v_frm_pos := st.prm.v_frm_pos ++
            (List.range (bound - st.n_frm).toNat).map (fun (i : Nat) =>
              st.prm.v_frm_pos.getD (st.n_frm - 1).toNat 0 + ((i : Int) + 1) * st.dpos)
          v_frm_file := st.prm.v_frm_file ++
            List.replicate (bound - st.n_frm).toNat
              (st.prm.v_frm_file.getD (st.n_frm - 1).toNat 0) }
        n_frm := st.n_frm + ((bound - st.n_frm).toNat : Int) } := by
  unfold fill_frames
  simp only []
  rw [add_frames_eq]

theorem fill_frames_entries (st : index_builder) (bound : Int)
    (hl : st.prm.v_frm_file.length = st.prm.v_frm_pos.length) :
    index_entries (fill_frames st bound).prm = index_entries st.prm ++
      (List.range (bound - st.n_frm).toNat).map (fun (i : Nat) =>
        (st.prm.v_frm_file.getD (st.n_frm - 1).toNat 0,
          st.prm.v_frm_pos.getD (st.n_frm - 1).toNat 0 + ((i : Int) + 1) * st.dpos)) := by
  rw [fill_frames_eq]
  unfold index_entries
  simp only []
  rw [List.zip_append hl, zip_replicate_map_range]

theorem fill_frames_inv (files : List data_file) (st : index_builder) (bound : Int)
    (inv : index_inv files st) (hfast : st.prm.bscanframeheaders = false)
    (h1 : 1 ≤ st.n_frm) : index_inv files (fill_frames st bound) := by
  have hent := fill_frames_entries st bound inv.len_eq
  obtain ⟨init, hinit⟩ := entries_last st inv.n_frm_eq inv.len_eq h1
  have ht := inv.tmpl h1
  have hsorted := inv.sorted
  rw [hinit] at hsorted
  have hs := fill_entries_sorted init _ _ st.dpos (bound - st.n_frm).toNat hsorted
    (template_ok_dpos_pos st ht)
  rw [← hinit, ← hent] at hs
  rw [fill_frames_eq] at hs ⊢
  constructor
  · simp only [List.length_append, List.length_map, List.length_range, Nat.cast_add]
    rw [inv.n_frm_eq]
  · simp only [List.length_append, List.length_map, List.length_range, List.length_replicate]
    rw [inv.len_eq]
  · intro _
    exact ht
  · exact hs
  · intro h
    simp only [hfast] at h
    exact absurd h (by decide)

theorem bconsistent_iff (st : index_builder) (fhdr : merlin_frame_hdr) :
    bconsistent st fhdr = true ↔ record_ok st.prm.hdr_frm (st.n_frm, fhdr) := by
  simp [bconsistent, record_ok, same_geometry, and_assoc]

theorem push_frame_entries (st : index_builder) (fpos ifile : Int)
    (hl : st.prm.v_frm_file.length = st.prm.v_frm_pos.length) :
    index_entries (push_frame st fpos ifile).prm = index_entries st.prm ++ [(ifile, fpos)] := by
  unfold index_entries push_frame
  simp only []
  rw [List.zip_append hl]
  rfl

theorem entries_length (st : index_builder) (hn : st.n_frm = (st.prm.v_frm_pos.length : Int))
    (hl : st.prm.v_frm_file.length = st.prm.v_frm_pos.length) :
    ((index_entries st.prm).length : Int) = st.n_frm := by
  unfold index_entries
  rw [List.length_zip, hl, hn]
  simp

theorem push_frame_inv (files : List data_file) (st : index_builder) (fpos ifile : Int)
    (inv : index_inv files st) (ht : template_ok st)
    (hlt : ∀ e ∈ index_entries st.prm, entry_lt e (ifile, fpos))
    (hdec : st.prm.bscanframeheaders = true →
      entry_decoded files st.prm.hdr_frm (index_entries st.prm).length (ifile, fpos)) :
    index_inv files (push_frame st fpos ifile) := by
  have hent := push_frame_entries st fpos ifile inv.len_eq
  constructor
  · simp only [push_frame, List.length_append, List.length_singleton, Nat.cast_add, Nat.cast_one]
    rw [inv.n_frm_eq]
  · simp only [push_frame, List.length_append, List.length_singleton]
    rw [inv.len_eq]
  · intro _
    exact ht
  · rw [hent, List.pairwise_append]
    refine ⟨inv.sorted, List.pairwise_singleton _ _, ?_⟩
    intro a ha b hb
    rw [List.mem_singleton] at hb
    rw [hb]
    exact hlt a ha
  · intro hscan j e hj
    rw [hent] at hj
    have hscan0 : st.prm.bscanframeheaders = true := hscan
    by_cases hjl : j < (index_entries st.prm).length
    · rw [List.getElem?_append_left hjl] at hj
      exact inv.scan hscan0 j e hj
    · have hjge : (index_entries st.prm).length ≤ j := Nat.le_of_not_lt hjl
      rw [List.getElem?_append_right hjge] at hj
      have hj0 : j - (index_entries st.prm).length = 0 := by
        by_contra hne
        have : [(ifile, fpos)][j - (index_entries st.prm).length]? = none := by
          apply List.getElem?_eq_none
          simp only [List.length_singleton]
          omega
        rw [this] at hj
        exact absurd hj (by simp)
      rw [hj0] at hj
      simp only [List.getElem?_cons_zero, Option.some.injEq] at hj
      have hje : j = (index_entries st.prm).length := by omega
      rw [hje, ← hj]
      exact hdec hscan0

theorem seed_inv (files : List data_file) (st : index_builder) (fhdr : merlin_frame_hdr)
    (d : List (Int × merlin_frame_hdr)) (inv : index_inv files st)
    (hp : 0 < fhdr.n_size) (hm : fhdr.n_size ≤ 2048) :
    index_inv files (seed_template { st with decoded := d } fhdr) ∧
    template_ok (seed_template { st with decoded := d } fhdr) := by
  have hn0 : 0 ≤ st.n_frm := by rw [inv.n_frm_eq]; exact Int.natCast_nonneg _
  have htok : template_ok (seed_template { st with decoded := d } fhdr) := by
    exact template_ok_after_seed { st with decoded := d } fhdr hn0 (fun h => inv.tmpl h) hp hm
  refine ⟨?_, htok⟩
  constructor
  · simp only [seed_template_n_frm, seed_template_v_frm_pos]
    exact inv.n_frm_eq
  · simp only [seed_template_v_frm_pos, seed_template_v_frm_file]
    exact inv.len_eq
  · intro _
    exact htok
  · rw [seed_template_entries]
    exact inv.sorted
  · intro hscan j e hj
    rw [seed_template_entries] at hj
    rw [seed_template_bscan] at hscan
    by_cases h0 : st.n_frm = 0
    · have hlen := entries_length st inv.n_frm_eq inv.len_eq
      rw [h0] at hlen
      have hnil : index_entries st.prm = [] := by
        apply List.eq_nil_of_length_eq_zero
        exact_mod_cast hlen
      have hnil2 : index_entries ({ st with decoded := d } : index_builder).prm = [] := hnil
      rw [hnil2] at hj
      simp at hj
    · rw [seed_template_of_pos _ _ (by simpa using h0)]
      exact inv.scan hscan j e hj

theorem fill_frames_bound (st : index_builder) (bound c : Int)
    (hn : st.n_frm = (st.prm.v_frm_pos.length : Int))
    (hl : st.prm.v_frm_file.length = st.prm.v_frm_pos.length) (h1 : 1 ≤ st.n_frm)
    (hb : ∀ e ∈ index_entries st.prm, e.1 < c) :
    ∀ e ∈ index_entries (fill_frames st bound).prm, e.1 < c := by
  intro e he
  rw [fill_frames_entries st bound hl, List.mem_append] at he
  rcases he with he | he
  · exact hb e he
  · rw [List.mem_map] at he
    obtain ⟨i, _, rfl⟩ := he
    obtain ⟨init, hinit⟩ := entries_last st hn hl h1
    exact hb (st.prm.v_frm_file.getD (st.n_frm - 1).toNat 0,
      st.prm.v_frm_pos.getD (st.n_frm - 1).toNat 0) (by rw [hinit]; simp)

theorem fill_frames_template_ok (st : index_builder) (bound : Int) (h : template_ok st) :
    template_ok (fill_frames st bound) := by
  rw [fill_frames_eq]
  exact h

theorem header_step_spec (files : List data_file) (f : data_file) (k : Nat)
    (st st' : index_builder) (pos : Int) (x : loop_exit)
    (hk : files[k]? = some f) (hnf : st.prm.hdr.n_files = (k : Int)) (hc : decoder_contract f)
    (inv : index_inv files st) (fb : file_bound st pos)
    (hfast : st.prm.bscanframeheaders = false →
      ∀ e ∈ index_entries st.prm, e.1 < st.prm.hdr.n_files)
    (hlog : log_ok st)
    (hstep : header_step f st pos = (st', x)) :
    index_inv files st' ∧
    st'.prm.bscanframeheaders = st.prm.bscanframeheaders ∧
    st'.prm.hdr.n_files = st.prm.hdr.n_files ∧
    st'.prm.hdr.n_frames = st.prm.hdr.n_frames ∧
    (∀ e ∈ index_entries st'.prm, e.1 ≤ st'.prm.hdr.n_files) ∧
    (x ≠ loop_exit.cancel 3 → log_ok st') ∧
    (∀ e, x = loop_exit.cancel e → e = 2 ∨ (e = 3 ∧ st.prm.bscanframeheaders = true ∧
        ∃ r ∈ st'.decoded, ¬ record_ok st'.prm.hdr_frm r)) ∧
    (∀ pos', x = loop_exit.again pos' → st.prm.bscanframeheaders = true ∧ pos < pos' ∧
        pos < (f.size : Int) ∧ file_bound st' pos') := by
  have hle : ∀ e ∈ index_entries st.prm, e.1 ≤ st.prm.hdr.n_files := by
    intro e he
    rcases fb e he with h | h <;> omega
  unfold header_step at hstep
  simp only [] at hstep
  by_cases hierr : (f.read_frame_header pos).ierr = 0
  · rw [if_pos hierr] at hstep
    have hsp := hc.size_pos pos hierr
    have hsm := hc.size_max pos hierr
    have hin := hc.in_file pos hierr
    have htell := hc.tellg_eq pos hierr
    obtain ⟨inv1, tok1⟩ := seed_inv files st (f.read_frame_header pos).fhdr
      (st.decoded ++ [(st.n_frm, (f.read_frame_header pos).fhdr)]) inv hsp hsm
    generalize hst1 : seed_template { st with decoded :=
      st.decoded ++ [(st.n_frm, (f.read_frame_header pos).fhdr)] }
      (f.read_frame_header pos).fhdr = st1 at hstep inv1 tok1
    have h1n : st1.n_frm = st.n_frm := by rw [← hst1]; simp
    have h1e : index_entries st1.prm = index_entries st.prm := by
      rw [← hst1, seed_template_entries]
    have h1b : st1.prm.bscanframeheaders = st.prm.bscanframeheaders := by rw [← hst1]; simp
    have h1f : st1.prm.hdr.n_files = st.prm.hdr.n_files := by rw [← hst1]; simp
    have h1r : st1.prm.hdr.n_frames = st.prm.hdr.n_frames := by rw [← hst1]; simp
    have h1d : st1.decoded = st.decoded ++ [(st.n_frm, (f.read_frame_header pos).fhdr)] := by
      rw [← hst1]; simp
    have h1len : ((index_entries st1.prm).length : Int) = st.n_frm := by
      rw [h1e]
      exact entries_length st inv.n_frm_eq inv.len_eq
    have htl : pos < (f.read_frame_header pos).tellg := by omega
    have hps : pos < (f.size : Int) := by omega
    by_cases hscan : st.prm.bscanframeheaders = true
    · have hscan1 : st1.prm.bscanframeheaders = true := by rw [h1b]; exact hscan
      rw [if_pos hscan1] at hstep
      obtain ⟨hloglen, hlogrec⟩ := hlog hscan
      have hold : ∀ r ∈ st.decoded, record_ok st1.prm.hdr_frm r := by
        intro r hr
        by_cases h0 : st.n_frm = 0
        · rw [h0] at hloglen
          have : st.decoded = [] := List.eq_nil_of_length_eq_zero (by exact_mod_cast hloglen)
          rw [this] at hr
          simp at hr
        · rw [← hst1, seed_template_of_pos _ _ (by simpa using h0)]
          exact hlogrec r hr
      by_cases hcons : bconsistent st1 (f.read_frame_header pos).fhdr = true
      · rw [if_pos hcons] at hstep
        have hrec := (bconsistent_iff st1 _).mp hcons
        simp only [Prod.mk.injEq] at hstep
        obtain ⟨hst', hx⟩ := hstep
        have hinv' : index_inv files
            (push_frame st1 (f.read_frame_header pos).tellg st1.prm.hdr.n_files) := by
          apply push_frame_inv files st1 _ _ inv1 tok1
          · intro e he
            rw [h1e] at he
            rw [h1f]
            rcases fb e he with h | h
            · left; exact h
            · right; exact ⟨h.1, by show e.2 < (f.read_frame_header pos).tellg; omega⟩
          · intro _
            refine ⟨k, f, pos, ?_, hk, hierr, rfl, ?_, hrec.1⟩
            · show st1.prm.hdr.n_files = (k : Int)
              rw [h1f, hnf]
            · rw [h1len, ← h1n]
              exact hrec.2
        have hent' := push_frame_entries st1 (f.read_frame_header pos).tellg
          st1.prm.hdr.n_files inv1.len_eq
        rw [hst'] at hinv' hent'
        have hf' : st'.prm.hdr.n_files = st.prm.hdr.n_files := by rw [← hst', ← h1f]; rfl
        have hd' : st'.decoded = st1.decoded := by rw [← hst']; rfl
        have hh' : st'.prm.hdr_frm = st1.prm.hdr_frm := by rw [← hst']; rfl
        have hn' : st'.n_frm = st1.n_frm + 1 := by rw [← hst']; rfl
        have hdb' : st'.prm.hdr.n_data_bytes = st1.prm.hdr.n_data_bytes := by rw [← hst']; rfl
        refine ⟨hinv', by rw [← hst', ← h1b]; rfl, hf', by rw [← hst', ← h1r]; rfl, ?_, ?_, ?_, ?_⟩
        · intro e he
          rw [hent', h1e, List.mem_append] at he
          rw [hf']
          rcases he with he | he
          · exact hle e he
          · rw [List.mem_singleton] at he
            rw [he, h1f]
        · intro _ _
          rw [hd', h1d, hh', hn', h1n]
          refine ⟨by simp only [List.length_append, List.length_singleton]; push_cast; omega, ?_⟩
          intro r hr
          rw [List.mem_append] at hr
          rcases hr with hr | hr
          · exact hold r hr
          · rw [List.mem_singleton] at hr
            rw [hr, ← h1n]
            exact hrec
        · intro e he
          rw [he] at hx
          split at hx <;> exact absurd hx (by simp)
        · intro pos' hp
          rw [hp] at hx
          split at hx
          · simp only [loop_exit.again.injEq] at hx
            rw [hst'] at hx
            refine ⟨hscan, ?_, hps, ?_⟩
            · have : (0 : Int) ≤ (st'.prm.hdr.n_data_bytes : Int) := Int.natCast_nonneg _
              omega
            · intro e he
              rw [hent', h1e, List.mem_append] at he
              rw [hf']
              have hnn : (0 : Int) ≤ (st'.prm.hdr.n_data_bytes : Int) := Int.natCast_nonneg _
              rcases he with he | he
              · rcases fb e he with h | h
                · left; exact h
                · right; exact ⟨h.1, by omega⟩
              · rw [List.mem_singleton] at he
                right
                rw [he, h1f]
                exact ⟨rfl, by show (f.read_frame_header pos).tellg ≤ pos'; omega⟩
          · exact absurd hx (by simp)
      · rw [if_neg hcons] at hstep
        simp only [Prod.mk.injEq] at hstep
        obtain ⟨hst', hx⟩ := hstep
        subst hst'
        refine ⟨inv1, h1b, h1f, h1r, ?_, ?_, ?_, ?_⟩
        · intro e he
          rw [h1e] at he
          rw [h1f]
          exact hle e he
        · intro hne
          exact absurd hx.symm hne
        · intro e he
          rw [he] at hx
          simp only [loop_exit.cancel.injEq] at hx
          right
          refine ⟨hx.symm, hscan, (st.n_frm, (f.read_frame_header pos).fhdr), ?_, ?_⟩
          · rw [h1d]; simp
          · intro hok
            apply hcons
            rw [bconsistent_iff, h1n]
            exact hok
        · intro pos' hp
          rw [hp] at hx
          exact absurd hx (by simp)
    · have hscanF : st.prm.bscanframeheaders = false := by simpa using hscan
      have hscan1 : ¬ st1.prm.bscanframeheaders = true := by rw [h1b]; exact hscan
      rw [if_neg hscan1] at hstep
      have hlt1 : ∀ e ∈ index_entries st1.prm, e.1 < st1.prm.hdr.n_files := by
        intro e he
        rw [h1e] at he
        rw [h1f]
        exact hfast hscanF e he
      have hfin : ∀ st2 : index_builder, index_inv files st2 → template_ok st2 →
          (∀ e ∈ index_entries st2.prm, e.1 < st2.prm.hdr.n_files) →
          st2.prm.bscanframeheaders = st.prm.bscanframeheaders →
          st2.prm.hdr.n_files = st.prm.hdr.n_files →
          st2.prm.hdr.n_frames = st.prm.hdr.n_frames →
          (push_frame st2 (f.read_frame_header pos).tellg st2.prm.hdr.n_files, loop_exit.done)
            = (st', x) →
          index_inv files st' ∧
          st'.prm.bscanframeheaders = st.prm.bscanframeheaders ∧
          st'.prm.hdr.n_files = st.prm.hdr.n_files ∧
          st'.prm.hdr.n_frames = st.prm.hdr.n_frames ∧
          (∀ e ∈ index_entries st'.prm, e.1 ≤ st'.prm.hdr.n_files) ∧
          (x ≠ loop_exit.cancel 3 → log_ok st') ∧
          (∀ e, x = loop_exit.cancel e → e = 2 ∨ (e = 3 ∧ st.prm.bscanframeheaders = true ∧
              ∃ r ∈ st'.decoded, ¬ record_ok st'.prm.hdr_frm r)) ∧
          (∀ pos', x = loop_exit.again pos' → st.prm.bscanframeheaders = true ∧ pos < pos' ∧
              pos < (f.size : Int) ∧ file_bound st' pos') := by
        intro st2 inv2 tok2 hlt2 hb2 hf2 hr2 heq
        simp only [Prod.mk.injEq] at heq
        obtain ⟨hst', hx⟩ := heq
        have hb2F : st2.prm.bscanframeheaders = false := by rw [hb2]; exact hscanF
        have hinv' : index_inv files
            (push_frame st2 (f.read_frame_header pos).tellg st2.prm.hdr.n_files) := by
          apply push_frame_inv files st2 _ _ inv2 tok2
          · intro e he
            left
            exact hlt2 e he
          · intro h
            rw [hb2F] at h
            exact absurd h (by decide)
        have hent' := push_frame_entries st2 (f.read_frame_header pos).tellg
          st2.prm.hdr.n_files inv2.len_eq
        rw [hst'] at hinv' hent'
        have hf' : st'.prm.hdr.n_files = st2.prm.hdr.n_files := by rw [← hst']; rfl
        have hb' : st'.prm.bscanframeheaders = st2.prm.bscanframeheaders := by rw [← hst']; rfl
        refine ⟨hinv', by rw [hb', hb2], by rw [hf', hf2], by rw [← hst', ← hr2]; rfl,
          ?_, ?_, ?_, ?_⟩
        · intro e he
          rw [hent', List.mem_append] at he
          rw [hf']
          rcases he with he | he
          · exact le_of_lt (hlt2 e he)
          · rw [List.mem_singleton] at he
            rw [he]
        · intro _ h
          rw [hb', hb2F] at h
          exact absurd h (by decide)
        · intro e he
          rw [he] at hx
          exact absurd hx (by simp)
        · intro pos' hp
          rw [hp] at hx
          exact absurd hx (by simp)
      by_cases h0 : st1.n_frm = 0
      · rw [if_pos h0] at hstep
        exact hfin st1 inv1 tok1 hlt1 h1b h1f h1r hstep
      · rw [if_neg h0] at hstep
        have h1ge : 1 ≤ st1.n_frm := by
          have : (0 : Int) ≤ st1.n_frm := by rw [inv1.n_frm_eq]; exact Int.natCast_nonneg _
          omega
        by_cases hgap : (f.read_frame_header pos).fhdr.i_seq > st1.n_frm
        · simp only [if_pos hgap] at hstep
          refine hfin _ (fill_frames_inv files st1 _ inv1 (by rw [h1b]; exact hscanF) h1ge)
            (fill_frames_template_ok st1 _ tok1) ?_ ?_ ?_ ?_ hstep
          · have := fill_frames_bound st1 (f.read_frame_header pos).fhdr.i_seq
              st1.prm.hdr.n_files inv1.n_frm_eq inv1.len_eq h1ge hlt1
            rw [fill_frames_eq] at this ⊢
            exact this
          · rw [fill_frames_eq]; exact h1b
          · rw [fill_frames_eq]; exact h1f
          · rw [fill_frames_eq]; exact h1r
        · simp only [if_neg hgap] at hstep
          exact hfin st1 inv1 tok1 hlt1 h1b h1f h1r hstep
  · rw [if_neg hierr] at hstep
    have hst : st' = st := by
      split at hstep <;> simp only [Prod.mk.injEq] at hstep <;> exact hstep.1.symm
    subst hst
    refine ⟨inv, rfl, rfl, rfl, hle, fun _ => hlog, ?_, ?_⟩
    · intro e he
      left
      split at hstep <;> simp only [Prod.mk.injEq] at hstep <;> rw [he] at hstep
      · exact absurd hstep.2 (by simp)
      · have := hstep.2
        simp only [loop_exit.cancel.injEq] at this
        exact this.symm
    · intro pos' hp
      split at hstep <;> simp only [Prod.mk.injEq] at hstep <;> rw [hp] at hstep <;>
        exact absurd hstep.2 (by simp)

theorem header_step_log_head (f : data_file) (st st' : index_builder) (pos : Int)
    (x : loop_exit) (hscan : st.prm.bscanframeheaders = true) (hlog : log_ok st)
    (hhead : log_head st) (hstep : header_step f st pos = (st', x)) : log_head st' := by
  obtain ⟨hlen, _⟩ := hlog hscan
  unfold header_step at hstep
  simp only [] at hstep
  by_cases hierr : (f.read_frame_header pos).ierr = 0
  · rw [if_pos hierr] at hstep
    have key : log_head (seed_template { st with decoded :=
        st.decoded ++ [(st.n_frm, (f.read_frame_header pos).fhdr)] }
        (f.read_frame_header pos).fhdr) := by
      intro r rest hr
      rw [seed_template_decoded] at hr
      by_cases h0 : st.n_frm = 0
      · rw [h0] at hlen
        have hnil : st.decoded = [] := List.eq_nil_of_length_eq_zero (by exact_mod_cast hlen)
        simp only [hnil, List.nil_append, List.cons.injEq] at hr
        have h0' : ({ st with decoded :=
            st.decoded ++ [(st.n_frm, (f.read_frame_header pos).fhdr)] } : index_builder).n_frm
            = 0 := h0
        rw [seed_template_hdr_frm _ _ h0', ← hr.1]
      · rw [seed_template_of_pos _ _ (by simpa using h0)]
        cases hd : st.decoded with
        | nil =>
          rw [hd] at hlen
          simp only [List.length_nil, Nat.cast_zero] at hlen
          exact absurd hlen.symm h0
        | cons r0 rest0 =>
          simp only [hd, List.cons_append, List.cons.injEq] at hr
          rw [← hr.1]
          exact hhead r0 rest0 hd
    have hscan1 : (seed_template { st with decoded :=
        st.decoded ++ [(st.n_frm, (f.read_frame_header pos).fhdr)] }
        (f.read_frame_header pos).fhdr).prm.bscanframeheaders = true := by
      rw [seed_template_bscan]; exact hscan
    rw [if_pos hscan1] at hstep
    split at hstep <;> simp only [Prod.mk.injEq] at hstep <;> rw [← hstep.1]
    · exact key
    · exact key
  · rw [if_neg hierr] at hstep
    have hst : st' = st := by
      split at hstep <;> simp only [Prod.mk.injEq] at hstep <;> exact hstep.1.symm
    rw [hst]
    exact hhead

theorem read_file_headers_spec (files : List data_file) (f : data_file) (k : Nat)
    (hk : files[k]? = some f) (hc : decoder_contract f) :
    ∀ (fuel : Nat) (st : index_builder) (pos : Int),
      st.prm.hdr.n_files = (k : Int) → index_inv files st → file_bound st pos →
      (st.prm.bscanframeheaders = false →
        ∀ e ∈ index_entries st.prm, e.1 < st.prm.hdr.n_files) →
      log_ok st → (st.prm.bscanframeheaders = true → log_head st) →
      1 ≤ fuel → (f.size : Int) + 1 ≤ (fuel : Int) + pos →
      ∃ st1 e, read_file_headers f fuel st pos = some (st1, e) ∧ exit_ok files st st1 e ∧
        st1.prm.hdr.n_files = st.prm.hdr.n_files ∧ (e = 0 ∨ e = 2 ∨ e = 3) := by
  intro fuel
  induction fuel with
  | zero => intro st pos _ _ _ _ _ _ h; exact absurd h (by decide)
  | succ fuel ih =>
    intro st pos hnf inv fb hfast hlog hhead _ hfuel
    rw [read_file_headers]
    cases hstep : header_step f st pos with
    | mk st1 x =>
      obtain ⟨inv1, hb1, hf1, hr1, hle1, hlog1, hcan1, hag1⟩ :=
        header_step_spec files f k st st1 pos x hk hnf hc inv fb hfast hlog hstep
      have hhead1 : st.prm.bscanframeheaders = true → log_head st1 := fun hs =>
        header_step_log_head f st st1 pos x hs hlog (hhead hs) hstep
      cases x with
      | again pos1 =>
        obtain ⟨hs, hlt, hsz, fb1⟩ := hag1 pos1 rfl
        have hs1 : st1.prm.bscanframeheaders = true := by rw [hb1]; exact hs
        simp only []
        obtain ⟨st2, e, hrun, hex, hf2, he⟩ := ih st1 pos1 (by rw [hf1]; exact hnf) inv1 fb1
          (fun h => by rw [hs1] at h; exact absurd h (by decide))
          (hlog1 (by simp)) (fun _ => hhead1 hs) (by omega) (by push_cast at hfuel ⊢; omega)
        refine ⟨st2, e, hrun, ?_, by rw [hf2, hf1], he⟩
        exact ⟨hex.inv, by rw [hex.bscan_eq, hb1], by rw [hex.n_frames_eq, hr1], hex.files_le,
          hex.log, fun h3 => ⟨hs, (hex.bad h3).2⟩, fun _ => hex.head hs1⟩
      | done =>
        simp only []
        refine ⟨st1, 0, rfl, ?_, hf1, Or.inl rfl⟩
        exact ⟨inv1, hb1, hr1, hle1, fun _ => hlog1 (by simp), fun h => absurd h (by decide),
          hhead1⟩
      | cancel e =>
        simp only []
        refine ⟨st1, e, rfl, ?_, hf1, ?_⟩
        · refine ⟨inv1, hb1, hr1, hle1, ?_, ?_, hhead1⟩
          · intro h3
            exact hlog1 (by simpa using h3)
          · intro h3
            rcases hcan1 e rfl with h | h
            · omega
            · exact h.2
        · rcases hcan1 e rfl with h | h
          · exact Or.inr (Or.inl h)
          · exact Or.inr (Or.inr h.1)

theorem exit_ok_refl (files : List data_file) (st : index_builder) (e : Int)
    (inv : index_inv files st) (hlt : ∀ en ∈ index_entries st.prm, en.1 < st.prm.hdr.n_files)
    (hlog : log_ok st) (hhead : st.prm.bscanframeheaders = true → log_head st) (he : e ≠ 3) :
    exit_ok files st st e :=
  ⟨inv, rfl, rfl, fun en h => le_of_lt (hlt en h), fun _ => hlog, fun h => absurd h he, hhead⟩

theorem browse_files_spec (files : List data_file) :
    ∀ (fs pre : List data_file) (st : index_builder),
      files = pre ++ fs → st.prm.hdr.n_files = (pre.length : Int) →
      (∀ g ∈ fs, decoder_contract g) → index_inv files st →
      (∀ e ∈ index_entries st.prm, e.1 < st.prm.hdr.n_files) →
      log_ok st → (st.prm.bscanframeheaders = true → log_head st) →
      ∃ st1 e, browse_files fs st = some (st1, e) ∧ exit_ok files st st1 e ∧
        (e = 0 ∨ e = 1 ∨ e = 2 ∨ e = 3) ∧
        (e = 0 → st1.prm.hdr.n_files = (files.length : Int) ∧
          ∀ en ∈ index_entries st1.prm, en.1 < st1.prm.hdr.n_files) := by
  intro fs
  induction fs with
  | nil =>
    intro pre st hfiles hnf _ inv hlt hlog hhead
    refine ⟨st, 0, rfl, exit_ok_refl files st 0 inv hlt hlog hhead (by decide), Or.inl rfl, ?_⟩
    intro _
    refine ⟨?_, hlt⟩
    rw [hnf, hfiles]
    simp
  | cons f fs ih =>
    intro pre st hfiles hnf hc inv hlt hlog hhead
    rw [browse_files]
    by_cases hopen : f.is_open = true
    · rw [if_pos hopen]
      have hk : files[pre.length]? = some f := by
        rw [hfiles, List.getElem?_append_right (le_refl _)]
        simp
      have fb : file_bound st 0 := fun e he => Or.inl (hlt e he)
      obtain ⟨st1, e, hrun, hex, hf1, he⟩ := read_file_headers_spec files f pre.length hk
        (hc f (by simp)) (f.size + 1) st 0 hnf inv fb (fun _ => hlt) hlog hhead (by omega)
        (by push_cast; omega)
      rw [hrun]
      simp only []
      by_cases he0 : e = 0
      · have hne : ¬ (e ≠ 0) := by simpa using he0
        rw [if_neg hne]
        have hlog1 := hex.log (by omega)
        obtain ⟨st2, e2, hrun2, hex2, he2, hfin2⟩ := ih (pre ++ [f])
          { st1 with prm := { st1.prm with hdr := { st1.prm.hdr with
              n_files := st1.prm.hdr.n_files + 1 } } }
          (by rw [hfiles]; simp)
          (by simp only [List.length_append, List.length_singleton]; push_cast; rw [hf1, hnf])
          (fun g hg => hc g (by simp [hg]))
          ⟨hex.inv.n_frm_eq, hex.inv.len_eq, hex.inv.tmpl, hex.inv.sorted, hex.inv.scan⟩
          (fun en hen => by
            have := hex.files_le en hen
            show en.1 < st1.prm.hdr.n_files + 1
            omega)
          hlog1
          (fun hs => hex.head (by rw [← hex.bscan_eq]; exact hs))
        refine ⟨st2, e2, hrun2, ?_, he2, hfin2⟩
        exact ⟨hex2.inv, by rw [hex2.bscan_eq]; exact hex.bscan_eq,
          by rw [hex2.n_frames_eq]; exact hex.n_frames_eq, hex2.files_le, hex2.log,
          fun h3 => ⟨by rw [← hex.bscan_eq]; exact (hex2.bad h3).1, (hex2.bad h3).2⟩,
          fun hs => hex2.head (by rw [← hex.bscan_eq] at hs; exact hs)⟩
      · rw [if_pos he0]
        refine ⟨st1, e, rfl, hex, ?_, fun h => absurd h he0⟩
        rcases he with h | h | h
        · exact absurd h he0
        · exact Or.inr (Or.inr (Or.inl h))
        · exact Or.inr (Or.inr (Or.inr h))
    · rw [if_neg hopen]
      exact ⟨st, 1, rfl, exit_ok_refl files st 1 inv hlt hlog hhead (by decide),
        Or.inr (Or.inl rfl), fun h => absurd h (by decide)⟩

theorem reset_index_inv (files : List data_file) (prm : merlin_params) :
    index_inv files (reset_index prm) := by
  constructor
  · rfl
  · rfl
  · intro h
    have h0 : (reset_index prm).n_frm = 0 := rfl
    omega
  · exact List.Pairwise.nil
  · intro _ j e hj
    simp [reset_index, index_entries] at hj

theorem reset_index_log_ok (prm : merlin_params) : log_ok (reset_index prm) := by
  intro _
  exact ⟨rfl, fun r hr => by simp [reset_index] at hr⟩

theorem reset_index_log_head (prm : merlin_params) : log_head (reset_index prm) := by
  intro r rest h
  simp [reset_index] at h

/-- The file loop of `read_frame_headers` ends on every list of data files whose header
decoder keeps its contract, and leaves the builder in a state that satisfies the index
invariant. -/
theorem browse_files_total (prm : merlin_params) (files : List data_file)
    (hc : ∀ g ∈ files, decoder_contract g) :
    ∃ st e, browse_files files (reset_index prm) = some (st, e) ∧
      exit_ok files (reset_index prm) st e ∧ (e = 0 ∨ e = 1 ∨ e = 2 ∨ e = 3) ∧
      (e = 0 → st.prm.hdr.n_files = (files.length : Int) ∧
        ∀ en ∈ index_entries st.prm, en.1 < st.prm.hdr.n_files) :=
  browse_files_spec files files [] (reset_index prm) rfl rfl hc (reset_index_inv files prm)
    (fun e he => by simp [reset_index, index_entries] at he) (reset_index_log_ok prm)
    (fun _ => reset_index_log_head prm)

theorem browse_files_append (pre post : List data_file) (st st1 : index_builder)
    (h : browse_files pre st = some (st1, 0)) :
    browse_files (pre ++ post) st = browse_files post st1 := by
  induction pre generalizing st with
  | nil =>
    simp only [browse_files, Option.some.injEq, Prod.mk.injEq, and_true] at h
    rw [h]
    rfl
  | cons g gs ih =>
    rw [browse_files] at h
    rw [List.cons_append, browse_files]
    by_cases hopen : g.is_open = true
    · rw [if_pos hopen] at h ⊢
      cases hr : read_file_headers g (g.size + 1) st 0 with
      | none => rw [hr] at h; exact absurd h (by simp)
      | some r =>
        obtain ⟨st2, e⟩ := r
        rw [hr] at h
        simp only [] at h ⊢
        by_cases he : e ≠ 0
        · rw [if_pos he] at h
          simp only [Option.some.injEq, Prod.mk.injEq] at h
          exact absurd h.2 he
        · rw [if_neg he] at h ⊢
          exact ih _ h
    · rw [if_neg hopen] at h
      simp only [Option.some.injEq, Prod.mk.injEq] at h
      exact absurd h.2 (by decide)

/-- Claim C2: in fast mode, when `n >= 1` entries are indexed after the files `pre` and the
first header of the next file `f` decodes with a 0-based sequence number `s > n`, the builder
appends `s - n` entries, the k-th of them (file of entry n-1, offset of entry n-1 + k*stride)
with stride = template header bytes + template data bytes, and then the entry (index of the
new file, payload offset of its first frame); the index then has `s + 1` entries. -/
theorem fast_mode_gap_fill (prm : merlin_params) (pre : List data_file) (f : data_file)
    (st : index_builder) (hfast : prm.bscanframeheaders = false)
    (hc : ∀ g ∈ pre, decoder_contract g)
    (hpre : browse_files pre (reset_index prm) = some (st, 0))
    (hopen : f.is_open = true) (hok : (f.read_frame_header 0).ierr = 0)
    (hn : 1 ≤ st.n_frm) (hs : st.n_frm < (f.read_frame_header 0).fhdr.i_seq) :
    ∃ st1, browse_files (pre ++ [f]) (reset_index prm) = some (st1, 0) ∧
      st.n_frm = (st.prm.v_frm_pos.length : Int) ∧
      st.prm.v_frm_file.length = st.prm.v_frm_pos.length ∧
      st1.prm.v_frm_file = st.prm.v_frm_file ++
        List.replicate ((f.read_frame_header 0).fhdr.i_seq - st.n_frm).toNat
          (st.prm.v_frm_file.getD (st.n_frm - 1).toNat 0) ++ [(pre.length : Int)] ∧
      st1.prm.v_frm_pos = st.prm.v_frm_pos ++
        (List.range ((f.read_frame_header 0).fhdr.i_seq - st.n_frm).toNat).map
          (fun (k : Nat) => st.prm.v_frm_pos.getD (st.n_frm - 1).toNat 0 + ((k : Int) + 1) *
            ((st.prm.hdr.n_fhdr_bytes : Int) + (st.prm.hdr.n_data_bytes : Int))) ++
        [(f.read_frame_header 0).tellg] ∧
      (st1.prm.v_frm_pos.length : Int) = (f.read_frame_header 0).fhdr.i_seq + 1 ∧
      (st.prm.hdr.n_fhdr_bytes : Int) = st.prm.hdr_frm.n_size ∧
      st.prm.hdr.n_data_bytes = frame_data_bytes st.prm.hdr_frm := by
  obtain ⟨st0, e0, hrun0, hex0, _, hfin0⟩ := browse_files_total prm pre hc
  rw [hpre] at hrun0
  simp only [Option.some.injEq, Prod.mk.injEq] at hrun0
  obtain ⟨hst0, he0⟩ := hrun0
  subst hst0
  subst he0
  have inv := hex0.inv
  have hnf := (hfin0 rfl).1
  have hb : st.prm.bscanframeheaders = false := by
    rw [hex0.bscan_eq]
    exact hfast
  obtain ⟨_, _, hfb, hdb, hdp⟩ := inv.tmpl hn
  have hn0 : st.n_frm ≠ 0 := by omega
  have hstep : header_step f st 0 =
      (push_frame (fill_frames { st with decoded :=
          st.decoded ++ [(st.n_frm, (f.read_frame_header 0).fhdr)] }
          (f.read_frame_header 0).fhdr.i_seq) (f.read_frame_header 0).tellg
          st.prm.hdr.n_files, loop_exit.done) := by
    unfold header_step
    simp only []
    rw [if_pos hok, seed_template_of_pos _ _ (by simpa using hn0)]
    simp only [hb, Bool.false_eq_true, if_false, hn0, gt_iff_lt, hs, if_true]
    rw [fill_frames_eq]
  generalize hstp : push_frame (fill_frames { st with decoded :=
      st.decoded ++ [(st.n_frm, (f.read_frame_header 0).fhdr)] }
      (f.read_frame_header 0).fhdr.i_seq) (f.read_frame_header 0).tellg
      st.prm.hdr.n_files = stp at hstep
  refine ⟨{ stp with prm := { stp.prm with hdr := { stp.prm.hdr with
      n_files := stp.prm.hdr.n_files + 1 } } }, ?_, inv.n_frm_eq, inv.len_eq, ?_, ?_, ?_,
      hfb, hdb⟩ <;> subst hstp
  · rw [browse_files_append pre [f] _ st hpre, browse_files, if_pos hopen, read_file_headers,
      hstep]
    simp only [ne_eq, not_true_eq_false, if_false, browse_files]
  · simp only [push_frame]
    rw [fill_frames_eq]
    simp only [hnf]
  · simp only [push_frame]
    rw [fill_frames_eq]
    simp only [hdp]
  · simp only [push_frame]
    rw [fill_frames_eq]
    simp only [List.length_append, List.length_map, List.length_range, List.length_singleton]
    push_cast
    rw [← inv.n_frm_eq, Int.toNat_of_nonneg (by omega)]
    ring

theorem example_file_contract (i_seq : Int) : decoder_contract (example_file i_seq) := by
  constructor <;> intro pos h <;> by_cases hp : pos = 0 <;>
    simp [example_file, hp] at h ⊢

theorem fast_mode_gap_fill_witness :
    (browse_files ([example_file 0] ++ [example_file 7])
        (reset_index { hdr := { n_frames := 8 } })).map
        (fun r => (r.1.prm.v_frm_file, r.1.prm.v_frm_pos, r.2))
      = some ([0, 0, 0, 0, 0, 0, 0, 1],
          [384, 131840, 263296, 394752, 526208, 657664, 789120, 384], 0) := by
  obtain ⟨st1, h1, _, _, hf, hp, _⟩ := fast_mode_gap_fill { hdr := { n_frames := 8 } }
    [example_file 0] (example_file 7) example_state rfl
    (fun g hg => by
      rw [List.mem_singleton] at hg
      rw [hg]
      exact example_file_contract 0)
    (by decide) rfl rfl (by decide) (by decide)
  rw [h1, Option.map_some']
  simp only [hf, hp]
  decide

theorem frame_data_bytes_exact (fhdr : merlin_frame_hdr) (hc : 0 ≤ fhdr.n_columns)
    (hr : 0 ≤ fhdr.n_rows) (hb : 0 ≤ fhdr.n_bpi)
    (hlt : fhdr.n_columns * fhdr.n_rows * fhdr.n_bpi < 2 ^ 64) :
    (frame_data_bytes fhdr : Int) = fhdr.n_columns * fhdr.n_rows * fhdr.n_bpi / 8 := by
  obtain ⟨c, hc'⟩ := Int.eq_ofNat_of_zero_le hc
  obtain ⟨r, hr'⟩ := Int.eq_ofNat_of_zero_le hr
  obtain ⟨b, hb'⟩ := Int.eq_ofNat_of_zero_le hb
  rw [hc', hr', hb'] at hlt ⊢
  have hlt' : c * r * b < 2 ^ 64 := by exact_mod_cast hlt
  unfold frame_data_bytes size_t_of_int
  rw [hc', hr', hb']
  have e1 : ∀ n : Nat, ((n : Int) % 2 ^ 64).toNat = n % 2 ^ 64 := by
    intro n
    have : ((n : Int) % 2 ^ 64) = ((n % 2 ^ 64 : Nat) : Int) := by push_cast; rfl
    rw [this, Int.toNat_ofNat]
  rw [e1, e1, e1]
  have e2 : c % 2 ^ 64 * (r % 2 ^ 64) % 2 ^ 64 * (b % 2 ^ 64) % 2 ^ 64 = c * r * b := by
    rw [← Nat.mul_mod c r, ← Nat.mul_mod (c * r) b, Nat.mod_eq_of_lt hlt']
  rw [e2]
  push_cast
  rfl

theorem single_file_first_entry (prm : merlin_params) (f : data_file) (st : index_builder)
    (hfast : prm.bscanframeheaders = false) (hc : decoder_contract f)
    (hbrowse : browse_files [f] (reset_index prm) = some (st, 0)) (hn : 1 ≤ st.n_frm) :
    st.prm.hdr_frm = (f.read_frame_header 0).fhdr ∧ st.prm.v_frm_file = [0] ∧
    st.prm.v_frm_pos = [(f.read_frame_header 0).fhdr.n_size] ∧ st.n_frm = 1 := by
  have hr0 : (reset_index prm).n_frm = 0 := rfl
  have hrb : (reset_index prm).prm.bscanframeheaders = false := hfast
  rw [browse_files] at hbrowse
  by_cases hopen : f.is_open = true
  · rw [if_pos hopen, read_file_headers] at hbrowse
    by_cases hierr : (f.read_frame_header 0).ierr = 0
    · have htell := hc.tellg_eq 0 hierr
      have hstep : header_step f (reset_index prm) 0 =
          (push_frame (seed_template { reset_index prm with decoded :=
            [(0, (f.read_frame_header 0).fhdr)] } (f.read_frame_header 0).fhdr)
            (f.read_frame_header 0).tellg 0, loop_exit.done) := by
        unfold header_step
        simp only []
        rw [if_pos hierr]
        simp only [seed_template_bscan, seed_template_n_frm, seed_template_n_files, hrb, hr0,
          Bool.false_eq_true, if_false, if_true]
        rfl
      rw [hstep] at hbrowse
      simp only [ne_eq, not_true_eq_false, if_false, browse_files, Option.some.injEq,
        Prod.mk.injEq, and_true] at hbrowse
      rw [← hbrowse]
      simp only [push_frame, seed_template_v_frm_file, seed_template_v_frm_pos,
        seed_template_n_frm]
      refine ⟨seed_template_hdr_frm _ _ rfl, rfl, ?_, rfl⟩
      rw [htell]
      simp [reset_index]
    · have hstep : (header_step f (reset_index prm) 0).1 = reset_index prm := by
        unfold header_step
        simp only []
        rw [if_neg hierr]
        split <;> rfl
      cases hs : header_step f (reset_index prm) 0 with
      | mk st1 x =>
        rw [hs] at hstep hbrowse
        simp only [] at hstep
        subst hstep
        cases x with
        | again pos1 =>
          exfalso
          unfold header_step at hs
          simp only [] at hs
          rw [if_neg hierr] at hs
          split at hs <;> simp at hs
        | done =>
          simp only [ne_eq, not_true_eq_false, if_false, browse_files, Option.some.injEq,
            Prod.mk.injEq, and_true] at hbrowse
          rw [← hbrowse] at hn
          simp only [hr0] at hn
          omega
        | cancel e =>
          exfalso
          unfold header_step at hs
          simp only [] at hs
          rw [if_neg hierr] at hs
          split at hs
          · simp at hs
          · simp only [Prod.mk.injEq, loop_exit.cancel.injEq, true_and] at hs
            rw [← hs] at hbrowse
            simp at hbrowse
  · rw [if_neg hopen] at hbrowse
    simp at hbrowse

/-- Claim C6: in fast mode, when the file loop ends with `n >= 1` entries and `n` is less
than the declared frame count, `read_frame_headers` returns 0 with exactly `n_frames`
entries; entry n-1+k is (file of entry n-1, offset of entry n-1 + k*stride) for
k = 1 .. n_frames-n, where stride is the template header size plus the template data size,
which is columns*rows*bits/8 for a non-negative geometry within the range of `size_t`.  For
a single data file with a first header of size `h`, entry `k` is (0, h + k*stride) for every
`k < n_frames`. -/
theorem fast_mode_tail_padding (prm : merlin_params) (files : List data_file)
    (st : index_builder) (hfast : prm.bscanframeheaders = false)
    (hc : ∀ g ∈ files, decoder_contract g)
    (hbrowse : browse_files files (reset_index prm) = some (st, 0))
    (hn : 1 ≤ st.n_frm) (hlt : st.n_frm < prm.hdr.n_frames) :
    ∃ prm1, read_frame_headers prm files = some (prm1, 0) ∧
      (prm1.v_frm_pos.length : Int) = prm.hdr.n_frames ∧
      prm1.v_frm_file.length = prm1.v_frm_pos.length ∧
      st.n_frm = (st.prm.v_frm_pos.length : Int) ∧
      prm1.v_frm_file = st.prm.v_frm_file ++
        List.replicate (prm.hdr.n_frames - st.n_frm).toNat
          (st.prm.v_frm_file.getD (st.n_frm - 1).toNat 0) ∧
      prm1.v_frm_pos = st.prm.v_frm_pos ++
        (List.range (prm.hdr.n_frames - st.n_frm).toNat).map
          (fun (k : Nat) => st.prm.v_frm_pos.getD (st.n_frm - 1).toNat 0 + ((k : Int) + 1) *
            (prm1.hdr_frm.n_size + (frame_data_bytes prm1.hdr_frm : Int))) ∧
      (0 ≤ prm1.hdr_frm.n_columns → 0 ≤ prm1.hdr_frm.n_rows → 0 ≤ prm1.hdr_frm.n_bpi →
        prm1.hdr_frm.n_columns * prm1.hdr_frm.n_rows * prm1.hdr_frm.n_bpi < 2 ^ 64 →
        (frame_data_bytes prm1.hdr_frm : Int) =
          prm1.hdr_frm.n_columns * prm1.hdr_frm.n_rows * prm1.hdr_frm.n_bpi / 8) ∧
      (∀ f, files = [f] → ∀ k : Nat, (k : Int) < prm.hdr.n_frames →
        prm1.hdr_frm = (f.read_frame_header 0).fhdr ∧
        prm1.v_frm_file[k]? = some 0 ∧
        prm1.v_frm_pos[k]? = some ((f.read_frame_header 0).fhdr.n_size + (k : Int) *
          ((f.read_frame_header 0).fhdr.n_size +
            (frame_data_bytes (f.read_frame_header 0).fhdr : Int)))) := by
  obtain ⟨st0, e0, hrun0, hex0, _, hfin0⟩ := browse_files_total prm files hc
  rw [hbrowse] at hrun0
  simp only [Option.some.injEq, Prod.mk.injEq] at hrun0
  obtain ⟨hst0, he0⟩ := hrun0
  subst hst0
  subst he0
  have inv := hex0.inv
  have hnf := (hfin0 rfl).1
  have hb : st.prm.bscanframeheaders = false := by
    rw [hex0.bscan_eq]
    exact hfast
  have hnfr : st.prm.hdr.n_frames = prm.hdr.n_frames := hex0.n_frames_eq
  obtain ⟨_, _, hfb, hdb, hdp⟩ := inv.tmpl hn
  have hfne : files ≠ [] := by
    intro h
    rw [h] at hbrowse
    simp only [browse_files, Option.some.injEq, Prod.mk.injEq, and_true] at hbrowse
    rw [← hbrowse] at hn
    have h0 : (reset_index prm).n_frm = 0 := rfl
    omega
  have hlen : 1 ≤ files.length := by
    cases files with
    | nil => exact absurd rfl hfne
    | cons a l => simp
  have hfin : finish_index st = (fill_frames st prm.hdr.n_frames, 0) := by
    unfold finish_index
    have h1 : ¬ (st.prm.hdr.n_files = 0 ∨ st.n_frm = 0) := by
      rw [hnf]
      omega
    have h2 : 0 < st.prm.hdr.n_files ∧ st.n_frm < st.prm.hdr.n_frames := by
      rw [hnf, hnfr]
      omega
    rw [if_neg h1, if_pos h2, hb, hnfr]
    simp
  have hrun : read_frame_headers prm files = some ((fill_frames st prm.hdr.n_frames).prm, 0) := by
    unfold read_frame_headers read_frame_headers_run
    rw [hbrowse]
    simp [hfin]
  have hpos : (fill_frames st prm.hdr.n_frames).prm.v_frm_pos = st.prm.v_frm_pos ++
        (List.range (prm.hdr.n_frames - st.n_frm).toNat).map
          (fun (k : Nat) => st.prm.v_frm_pos.getD (st.n_frm - 1).toNat 0 + ((k : Int) + 1) *
            (st.prm.hdr_frm.n_size + (frame_data_bytes st.prm.hdr_frm : Int))) := by
    rw [fill_frames_eq]
    simp only [hdp, hfb, hdb]
  have hfile : (fill_frames st prm.hdr.n_frames).prm.v_frm_file = st.prm.v_frm_file ++
        List.replicate (prm.hdr.n_frames - st.n_frm).toNat
          (st.prm.v_frm_file.getD (st.n_frm - 1).toNat 0) := by
    rw [fill_frames_eq]
  have hfrm : (fill_frames st prm.hdr.n_frames).prm.hdr_frm = st.prm.hdr_frm := by
    rw [fill_frames_eq]
  refine ⟨_, hrun, ?_, ?_, inv.n_frm_eq, hfile, ?_, ?_, ?_⟩
  · rw [hpos]
    simp only [List.length_append, List.length_map, List.length_range]
    push_cast
    rw [← inv.n_frm_eq, Int.toNat_of_nonneg (by omega)]
    ring
  · rw [hpos, hfile]
    simp only [List.length_append, List.length_map, List.length_range, List.length_replicate]
    rw [inv.len_eq]
  · rw [hfrm]
    exact hpos
  · intro h1 h2 h3 h4
    exact frame_data_bytes_exact _ h1 h2 h3 h4
  · intro f hf k hk
    subst hf
    obtain ⟨h1, h2, h3, h4⟩ := single_file_first_entry prm f st hfast (hc f (by simp))
      hbrowse hn
    rw [hfrm, hfile, hpos, h1, h2, h3, h4]
    simp only [sub_self, Int.toNat_zero, List.getD_cons_zero, List.singleton_append]
    refine ⟨trivial, ?_, ?_⟩
    · cases k with
      | zero => simp
      | succ k =>
        simp only [List.getElem?_cons_succ]
        rw [List.getElem?_replicate]
        have hk' : k < (prm.hdr.n_frames - 1).toNat := by push_cast at hk; omega
        rw [if_pos hk']
    · cases k with
      | zero => simp
      | succ k =>
        simp only [List.getElem?_cons_succ]
        have hk' : k < (prm.hdr.n_frames - 1).toNat := by push_cast at hk; omega
        rw [List.getElem?_map, List.getElem?_range hk']
        simp

theorem fast_mode_tail_padding_witness :
    (read_frame_headers { hdr := { n_frames := 8 } } [example_file 0]).map
        (fun r => (r.1.v_frm_file, r.1.v_frm_pos, r.2))
      = some ([0, 0, 0, 0, 0, 0, 0, 0],
          [384, 131840, 263296, 394752, 526208, 657664, 789120, 920576], 0) := by
  obtain ⟨prm1, h1, _, _, _, hf, hp, _, hsingle⟩ := fast_mode_tail_padding
    { hdr := { n_frames := 8 } } [example_file 0] example_state rfl
    (fun g hg => by
      rw [List.mem_singleton] at hg
      rw [hg]
      exact example_file_contract 0)
    (by decide) (by decide) (by decide)
  have hfrm := (hsingle (example_file 0) rfl 0 (by decide)).1
  rw [hfrm] at hp
  rw [h1, Option.map_some']
  simp only [hf, hp]
  decide

/-- The outcome of `read_frame_headers` on data files whose header decoder keeps its
contract: the call returns, the final state satisfies the index invariant, and a return code
0 comes with at least one and at least `n_frames` entries. -/
theorem read_frame_headers_run_spec (prm : merlin_params) (files : List data_file)
    (hc : ∀ g ∈ files, decoder_contract g) :
    ∃ st e, read_frame_headers_run prm files = some (st, e) ∧ index_inv files st ∧
      st.prm.bscanframeheaders = prm.bscanframeheaders ∧
      st.prm.hdr.n_frames = prm.hdr.n_frames ∧
      (e ≠ 3 → log_ok st) ∧ (prm.bscanframeheaders = true → log_head st) ∧
      (e = 0 → 1 ≤ st.n_frm ∧ prm.hdr.n_frames ≤ st.n_frm ∧
        ∃ st0, browse_files files (reset_index prm) = some (st0, 0) ∧
          (st0.n_frm ≤ prm.hdr.n_frames → st.n_frm = prm.hdr.n_frames) ∧
          (prm.hdr.n_frames ≤ st0.n_frm → st = st0)) := by
  obtain ⟨st0, e0, hrun0, hex0, _, hfin0⟩ := browse_files_total prm files hc
  have hb0 : st0.prm.bscanframeheaders = prm.bscanframeheaders := hex0.bscan_eq
  have hr0 : st0.prm.hdr.n_frames = prm.hdr.n_frames := hex0.n_frames_eq
  have hn0 : 0 ≤ st0.n_frm := by rw [hex0.inv.n_frm_eq]; exact Int.natCast_nonneg _
  unfold read_frame_headers_run
  rw [hrun0]
  simp only []
  by_cases he0 : e0 = 0
  · subst he0
    simp only [ne_eq, not_true_eq_false, if_false]
    have hnf := (hfin0 rfl).1
    have hlog0 := hex0.log (by decide)
    unfold finish_index
    by_cases h1 : st0.prm.hdr.n_files = 0 ∨ st0.n_frm = 0
    · rw [if_pos h1]
      exact ⟨st0, 4, rfl, hex0.inv, hb0, hr0, fun _ => hlog0, hex0.head,
        fun h => absurd h (by decide)⟩
    · rw [if_neg h1]
      have hn1 : 1 ≤ st0.n_frm := by omega
      have hf1 : 0 < st0.prm.hdr.n_files := by
        rw [hnf] at h1 ⊢
        omega
      by_cases h2 : 0 < st0.prm.hdr.n_files ∧ st0.n_frm < st0.prm.hdr.n_frames
      · rw [if_pos h2]
        by_cases hs : st0.prm.bscanframeheaders = true
        · rw [if_pos hs]
          exact ⟨st0, 5, rfl, hex0.inv, hb0, hr0, fun _ => hlog0, hex0.head,
            fun h => absurd h (by decide)⟩
        · rw [if_neg hs]
          have hsF : st0.prm.bscanframeheaders = false := by simpa using hs
          refine ⟨fill_frames st0 st0.prm.hdr.n_frames, 0, rfl,
            fill_frames_inv files st0 _ hex0.inv hsF hn1, ?_, ?_, ?_, ?_, ?_⟩
          · rw [fill_frames_eq]; exact hb0
          · rw [fill_frames_eq]; exact hr0
          · intro _ h
            rw [fill_frames_eq] at h
            exact absurd h hs
          · intro h
            rw [← hb0] at h
            exact absurd h hs
          · intro _
            have hnn : (fill_frames st0 st0.prm.hdr.n_frames).n_frm = st0.prm.hdr.n_frames := by
              rw [fill_frames_eq]
              simp only []
              rw [Int.toNat_of_nonneg (by omega)]
              ring
            refine ⟨by rw [hnn]; omega, by rw [hnn, hr0], st0, rfl, ?_, ?_⟩
            · intro _
              rw [hnn, hr0]
            · intro h
              rw [← hr0] at h
              omega
      · rw [if_neg h2]
        have hge : st0.prm.hdr.n_frames ≤ st0.n_frm := by
          by_contra hlt
          exact h2 ⟨hf1, by omega⟩
        refine ⟨st0, 0, rfl, hex0.inv, hb0, hr0, fun _ => hlog0, hex0.head, ?_⟩
        intro _
        refine ⟨hn1, by rw [← hr0]; exact hge, st0, rfl, ?_, fun _ => rfl⟩
        intro h
        rw [← hr0] at h ⊢
        omega
  · rw [if_pos he0]
    exact ⟨st0, e0, rfl, hex0.inv, hb0, hr0, hex0.log, hex0.head, fun h => absurd h he0⟩

theorem example_scan_file_contract (n_columns : Int) :
    decoder_contract (example_scan_file n_columns) := by
  constructor <;> intro pos h <;> by_cases hp : pos = 0 <;>
    by_cases hq : pos = 131456 <;> simp [example_scan_file, hp, hq] at h ⊢

/-- Claim C3: in scan mode, on every list of data files, `read_frame_headers` returns; if
any header that it decoded differs from the template (the first decoded header) in header
size, bits per pixel, pixel columns or pixel rows, or carries a sequence number other than
the number of frames indexed before it, the return code is 3; and every entry of the index
is the payload position of a decoded header with the sequence number of the entry, so that
no entry is extrapolated. -/
theorem scan_mode_strict (prm : merlin_params) (files : List data_file)
    (hscan : prm.bscanframeheaders = true) (hc : ∀ g ∈ files, decoder_contract g) :
    ∃ st e, read_frame_headers_run prm files = some (st, e) ∧
      ((∃ r ∈ st.decoded, ¬ (same_geometry st.prm.hdr_frm r.2 ∧ r.2.i_seq = r.1)) → e = 3) ∧
      (∀ r rest, st.decoded = r :: rest → st.prm.hdr_frm = r.2) ∧
      st.prm.v_frm_file.length = st.prm.v_frm_pos.length ∧
      (∀ (j : Nat) (en : Int × Int), (index_entries st.prm)[j]? = some en →
        entry_decoded files st.prm.hdr_frm j en) := by
  obtain ⟨st, e, hrun, inv, hb, _, hlog, hhead, _⟩ := read_frame_headers_run_spec prm files hc
  have hs : st.prm.bscanframeheaders = true := by rw [hb]; exact hscan
  refine ⟨st, e, hrun, ?_, hhead hscan, inv.len_eq, inv.scan hs⟩
  rintro ⟨r, hr, hbad⟩
  by_contra he
  exact hbad ((hlog he hs).2 r hr)

theorem scan_mode_strict_witness :
    (read_frame_headers_run { bscanframeheaders := true, hdr := { n_frames := 2 } }
        [example_scan_file 128]).map (fun r => (r.1.prm.v_frm_file, r.1.prm.v_frm_pos, r.2))
      = some ([0], [384], 3) := by
  obtain ⟨st, e, hrun, hbad, _⟩ := scan_mode_strict
    { bscanframeheaders := true, hdr := { n_frames := 2 } } [example_scan_file 128] rfl
    (fun g hg => by
      rw [List.mem_singleton] at hg
      rw [hg]
      exact example_scan_file_contract 128)
  have hev : read_frame_headers_run { bscanframeheaders := true, hdr := { n_frames := 2 } }
      [example_scan_file 128] = some
      ({ prm := { bscanframeheaders := true
                  hdr := { n_frames := 2, n_fhdr_bytes := 384, n_data_bytes := 131072 }
                  hdr_frm := { n_size := 384, n_columns := 256, n_rows := 256, n_bpi := 16 }
                  v_frm_file := [0], v_frm_pos := [384] }
         n_frm := 1
         dpos := 131456
         decoded := [(0, { n_size := 384, n_columns := 256, n_rows := 256, n_bpi := 16 }),
           (1, { n_size := 384, n_columns := 128, n_rows := 256, n_bpi := 16, i_seq := 1 })] },
        3) := by decide
  rw [hev] at hrun
  simp only [Option.some.injEq, Prod.mk.injEq] at hrun
  obtain ⟨hst, he⟩ := hrun
  have he3 : e = 3 := by
    apply hbad
    rw [← hst]
    exact ⟨(1, { n_size := 384, n_columns := 128, n_rows := 256, n_bpi := 16, i_seq := 1 }),
      by simp, by simp [same_geometry]⟩
  rw [hev]
  rfl

/-- Claim C4 as stated fails: with one frame declared in the acquisition header and two
data files that start with the frames 0 and 1, the fast mode returns 0 with two index
entries. -/
theorem index_density_counterexample :
    (read_frame_headers { hdr := { n_frames := 1 } } [example_file 0, example_file 1]).map
        (fun r => (r.1.v_frm_file, r.1.v_frm_pos, r.1.hdr.n_frames, r.2))
      = some ([0, 1], [384, 384], 1, 0) := by
  decide

/-- Claim C4, amended: after every run of `read_frame_headers` that returns 0, in either
mode, the two index vectors have the same length, which is at least 1 and at least
`hdr.n_frames`; it is exactly `hdr.n_frames` when the file loop indexed no more than
`hdr.n_frames` frames, and otherwise the index is the one that the file loop produced. -/
theorem index_density (prm prm1 : merlin_params) (files : List data_file)
    (hc : ∀ g ∈ files, decoder_contract g)
    (hrun : read_frame_headers prm files = some (prm1, 0)) :
    prm1.v_frm_file.length = prm1.v_frm_pos.length ∧
    prm1.hdr.n_frames = prm.hdr.n_frames ∧
    1 ≤ prm1.v_frm_pos.length ∧
    prm1.hdr.n_frames ≤ (prm1.v_frm_pos.length : Int) ∧
    ∃ st0, browse_files files (reset_index prm) = some (st0, 0) ∧
      st0.n_frm = (st0.prm.v_frm_pos.length : Int) ∧
      (st0.n_frm ≤ prm.hdr.n_frames → (prm1.v_frm_pos.length : Int) = prm.hdr.n_frames) ∧
      (prm.hdr.n_frames ≤ st0.n_frm → prm1.v_frm_file = st0.prm.v_frm_file ∧
        prm1.v_frm_pos = st0.prm.v_frm_pos) := by
  obtain ⟨st, e, hrun1, inv, _, hr, _, _, hfin⟩ := read_frame_headers_run_spec prm files hc
  unfold read_frame_headers at hrun
  rw [hrun1] at hrun
  simp only [Option.map_some', Option.some.injEq, Prod.mk.injEq] at hrun
  obtain ⟨hp, he⟩ := hrun
  subst hp
  obtain ⟨h1, h2, st0, hb0, h3, h4⟩ := hfin he
  obtain ⟨st0', e0, hrun0, hex0, _, _⟩ := browse_files_total prm files hc
  rw [hb0] at hrun0
  simp only [Option.some.injEq, Prod.mk.injEq] at hrun0
  have hn := inv.n_frm_eq
  refine ⟨inv.len_eq, hr, by omega, by rw [hr]; omega, st0, hb0, ?_, ?_, ?_⟩
  · rw [hrun0.1]
    exact hex0.inv.n_frm_eq
  · intro h
    rw [← hn]
    exact h3 h
  · intro h
    rw [h4 h]
    exact ⟨rfl, rfl⟩

theorem index_density_witness :
    ((read_frame_headers { hdr := { n_frames := 8 } } [example_file 0]).map
        (fun r => (r.1.v_frm_pos.length, r.2))) = some (8, 0) := by
  have hrun : read_frame_headers { hdr := { n_frames := 8 } } [example_file 0] = some
      ({ hdr := { n_frames := 8, n_files := 1, n_fhdr_bytes := 384, n_data_bytes := 131072 }
         hdr_frm := { n_size := 384, n_columns := 256, n_rows := 256, n_bpi := 16 }
         v_frm_file := [0, 0, 0, 0, 0, 0, 0, 0]
         v_frm_pos := [384, 131840, 263296, 394752, 526208, 657664, 789120, 920576] }, 0) := by
    decide
  obtain ⟨_, _, _, _, st0, hb0, hn0, hlen, _⟩ := index_density _ _ [example_file 0]
    (fun g hg => by
      rw [List.mem_singleton] at hg
      rw [hg]
      exact example_file_contract 0) hrun
  rw [hrun]
  rfl

/-- Claim C5: after every run of `read_frame_headers` that returns 0, in either mode, for
all global frame numbers i < j of the index the file index of i is at most that of j, and
when the two are equal the offset of i is below the offset of j.  (The geometry of the
headers need not be non-negative for this.) -/
theorem index_ordered (prm prm1 : merlin_params) (files : List data_file)
    (hc : ∀ g ∈ files, decoder_contract g)
    (hrun : read_frame_headers prm files = some (prm1, 0)) :
    ∀ i j : Nat, i < j → j < prm1.v_frm_pos.length →
      prm1.v_frm_file.getD i 0 ≤ prm1.v_frm_file.getD j 0 ∧
      (prm1.v_frm_file.getD i 0 = prm1.v_frm_file.getD j 0 →
        prm1.v_frm_pos.getD i 0 < prm1.v_frm_pos.getD j 0) := by
  obtain ⟨st, e, hrun1, inv, _, _, _, _, _⟩ := read_frame_headers_run_spec prm files hc
  unfold read_frame_headers at hrun
  rw [hrun1] at hrun
  simp only [Option.map_some', Option.some.injEq, Prod.mk.injEq] at hrun
  obtain ⟨hp, _⟩ := hrun
  subst hp
  intro i j hij hj
  have hlen := inv.len_eq
  have hsorted := inv.sorted
  unfold index_entries at hsorted
  rw [List.pairwise_iff_getElem] at hsorted
  have hzl : (List.zip st.prm.v_frm_file st.prm.v_frm_pos).length = st.prm.v_frm_pos.length := by
    rw [List.length_zip, hlen]
    simp
  have h := hsorted i j (by omega) (by omega) hij
  rw [List.getElem_zip, List.getElem_zip] at h
  rw [List.getD_eq_getElem _ _ (by omega : i < st.prm.v_frm_file.length),
    List.getD_eq_getElem _ _ (by omega : j < st.prm.v_frm_file.length),
    List.getD_eq_getElem _ _ (by omega : i < st.prm.v_frm_pos.length),
    List.getD_eq_getElem _ _ hj]
  unfold entry_lt at h
  simp only [] at h
  omega

theorem index_ordered_witness :
    (read_frame_headers { hdr := { n_frames := 10 } } [example_file 0, example_file 7]).map
        (fun r => r.2) = some 0 ∧
    ∀ i j : Nat, i < j → j < 10 →
      ([0, 0, 0, 0, 0, 0, 0, 1, 1, 1] : List Int).getD i 0 ≤
        ([0, 0, 0, 0, 0, 0, 0, 1, 1, 1] : List Int).getD j 0 ∧
      (([0, 0, 0, 0, 0, 0, 0, 1, 1, 1] : List Int).getD i 0 =
          ([0, 0, 0, 0, 0, 0, 0, 1, 1, 1] : List Int).getD j 0 →
        ([384, 131840, 263296, 394752, 526208, 657664, 789120, 384, 131840, 263296] :
            List Int).getD i 0 <
          ([384, 131840, 263296, 394752, 526208, 657664, 789120, 384, 131840, 263296] :
            List Int).getD j 0) := by
  have hrun : read_frame_headers { hdr := { n_frames := 10 } } [example_file 0, example_file 7]
      = some
      ({ hdr := { n_frames := 10, n_files := 2, n_fhdr_bytes := 384, n_data_bytes := 131072 }
         hdr_frm := { n_size := 384, n_columns := 256, n_rows := 256, n_bpi := 16 }
         v_frm_file := [0, 0, 0, 0, 0, 0, 0, 1, 1, 1]
         v_frm_pos := [384, 131840, 263296, 394752, 526208, 657664, 789120, 384, 131840,
           263296] }, 0) := by
    decide
  refine ⟨by rw [hrun]; rfl, ?_⟩
  exact index_ordered _ _ [example_file 0, example_file 7]
    (fun g hg => by
      simp only [List.mem_cons, List.mem_singleton, List.not_mem_nil, or_false] at hg
      rcases hg with hg | hg <;> rw [hg] <;> exact example_file_contract _) hrun

/-! ## Theorems of section 3 -/

theorem size_t_of_nat (n : Nat) (h : n < 2 ^ 64) : size_t_of_int (n : Int) = n := by
  have := size_t_of_int_of_nonneg (n : Int) (Int.natCast_nonneg n) (by exact_mod_cast h)
  exact_mod_cast this

theorem swap_groups_length (g : Nat) (inbuf : List (Fin 256)) :
    (swap_groups g inbuf).length = inbuf.length := by
  simp [swap_groups]

theorem foldl_add_congr (l : List Nat) (b1 b2 : Nat → ℚ) (a : ℚ)
    (h : ∀ i ∈ l, b1 i = b2 i) :
    l.foldl (fun snc idx2 => snc + b1 idx2) a = l.foldl (fun snc idx2 => snc + b2 idx2) a := by
  induction l generalizing a with
  | nil => rfl
  | cons i l ih =>
    simp only [List.foldl_cons]
    rw [h i (by simp)]
    exact ih _ (fun k hk => h k (by simp [hk]))

theorem foldl_add_eq_sum (l : List Nat) (b : Nat → ℚ) (a : ℚ) :
    l.foldl (fun snc idx2 => snc + b idx2) a = a + (l.map b).sum := by
  induction l generalizing a with
  | nil => simp
  | cons i l ih =>
    simp only [List.foldl_cons, List.map_cons, List.sum_cons]
    rw [ih]
    ring

theorem correction_value_congr (d : defect_pixel_corr) (b1 b2 : Nat → ℚ)
    (h : ∀ i ∈ d.v_idx_corr, b1 i = b2 i) : correction_value b1 d = correction_value b2 d := by
  unfold correction_value
  rw [foldl_add_congr d.v_idx_corr b1 b2 0 h]

theorem defect_step_eq (buf : Nat → ℚ) (d : defect_pixel_corr) :
    defect_step buf d =
      if 0 < d.v_idx_corr.length then Function.update buf d.idx (correction_value buf d)
      else buf := by
  unfold defect_step correction_value
  simp only [gt_iff_lt, Int.natCast_pos]

theorem last_writer_append (l : List defect_pixel_corr) (a : defect_pixel_corr) (j : Nat) :
    last_writer (l ++ [a]) j =
      if 0 < a.v_idx_corr.length ∧ a.idx = j then some a else last_writer l j := by
  unfold last_writer
  rw [List.filter_append]
  by_cases h : 0 < a.v_idx_corr.length ∧ a.idx = j
  · rw [if_pos h]
    have : List.filter (fun d => decide (0 < d.v_idx_corr.length) && decide (d.idx = j)) [a]
        = [a] := by
      simp [List.filter, h.1, h.2]
    rw [this, List.getLast?_concat]
  · rw [if_neg h]
    have : List.filter (fun d => decide (0 < d.v_idx_corr.length) && decide (d.idx = j)) [a]
        = [] := by
      rw [List.filter_eq_nil_iff]
      intro x hx
      rw [List.mem_singleton] at hx
      rw [hx]
      simpa using h
    rw [this, List.append_nil]

theorem last_writer_none (l : List defect_pixel_corr) (j : Nat)
    (h : ∀ d ∈ l, d.idx = j → d.v_idx_corr = []) : last_writer l j = none := by
  unfold last_writer
  have : List.filter (fun d => decide (0 < d.v_idx_corr.length) && decide (d.idx = j)) l
      = [] := by
    rw [List.filter_eq_nil_iff]
    intro d hd hc
    simp only [Bool.and_eq_true, decide_eq_true_eq] at hc
    have := h d hd hc.2
    rw [this] at hc
    simp at hc
  rw [this]
  rfl

theorem last_writer_some (l : List defect_pixel_corr) (j : Nat) (d : defect_pixel_corr)
    (h : last_writer l j = some d) : d ∈ l ∧ 0 < d.v_idx_corr.length ∧ d.idx = j := by
  unfold last_writer at h
  have hm := List.mem_of_getLast?_eq_some h
  rw [List.mem_filter] at hm
  simpa using hm

theorem cache_sound_of_append (l : List defect_pixel_corr) (a : defect_pixel_corr)
    (h : cache_sound (l ++ [a])) : cache_sound l := by
  intro d hd i hi d1 hd1 he
  exact h d (by simp [hd]) i hi d1 (by simp [hd1]) he

/-- The value that the loop over the defects leaves at the index `j`: the correction value,
taken on the input buffer, of the last defect with a non-empty table and the index `j`, or
the input value when there is no such defect. -/
theorem defect_fold_spec (ds : List defect_pixel_corr) (b : Nat → ℚ) (hs : cache_sound ds)
    (j : Nat) :
    (ds.foldl defect_step b) j =
      match last_writer ds j with
      | some d => correction_value b d
      | none => b j := by
  induction ds using List.reverseRecOn generalizing j with
  | nil => rfl
  | append_singleton l a ih =>
    have hl := cache_sound_of_append l a hs
    rw [List.foldl_append, List.foldl_cons, List.foldl_nil, last_writer_append, defect_step_eq]
    by_cases hne : 0 < a.v_idx_corr.length
    · rw [if_pos hne]
      have hcv : correction_value (l.foldl defect_step b) a = correction_value b a := by
        apply correction_value_congr
        intro i hi
        rw [ih hl i, last_writer_none l i]
        intro d hd he
        exact hs a (by simp) i hi d (by simp [hd]) he
      by_cases hj : a.idx = j
      · rw [if_pos ⟨hne, hj⟩, ← hj, Function.update_same, hcv]
      · rw [if_neg (fun h => hj h.2), Function.update_noteq (Ne.symm hj)]
        exact ih hl j
    · rw [if_neg hne, if_neg (fun h => hne h.1)]
      exact ih hl j

theorem is_defect_pixel_iff (prm : merlin_params) (i : Nat) :
    is_defect_pixel prm i = true ↔ ∃ d ∈ prm.v_defect_corr, d.idx = i := by
  simp [is_defect_pixel]

theorem is_defect_pixel_update (q : merlin_params) (i : Nat) :
    is_defect_pixel (update_defect_correction_list q).1 i = is_defect_pixel q i := by
  simp [is_defect_pixel, update_defect_correction_list, List.any_map, Function.comp_def]

theorem update_table_mem (q : merlin_params) (d : defect_pixel_corr)
    (hd : d ∈ (update_defect_correction_list q).1.v_defect_corr) (i : Nat)
    (hi : i ∈ d.v_idx_corr) : is_defect_pixel q i = false := by
  simp only [update_defect_correction_list, List.mem_map] at hd
  obtain ⟨d0, _, rfl⟩ := hd
  simp only [correction_table, List.mem_filter, Bool.not_eq_true'] at hi
  exact hi.2

theorem cache_sound_update (q : merlin_params) :
    cache_sound (update_defect_correction_list q).1.v_defect_corr := by
  intro d hd i hi d1 hd1 he
  have hnot := update_table_mem q d hd i hi
  have hdef : is_defect_pixel (update_defect_correction_list q).1 i = true :=
    (is_defect_pixel_iff _ i).mpr ⟨d1, hd1, he⟩
  rw [is_defect_pixel_update, hnot] at hdef
  exact absurd hdef (by decide)

theorem last_writer_nodup (ds : List defect_pixel_corr)
    (hnd : (ds.map (fun d => d.idx)).Nodup) (d : defect_pixel_corr) (hd : d ∈ ds) :
    last_writer ds d.idx = if 0 < d.v_idx_corr.length then some d else none := by
  have huniq : ∀ e, last_writer ds d.idx = some e → e = d := by
    intro e he
    obtain ⟨hm, _, hidx⟩ := last_writer_some ds d.idx e he
    exact List.inj_on_of_nodup_map hnd hm hd hidx
  by_cases hne : 0 < d.v_idx_corr.length
  · rw [if_pos hne]
    cases hlw : last_writer ds d.idx with
    | some e => rw [huniq e hlw]
    | none =>
      exfalso
      unfold last_writer at hlw
      rw [List.getLast?_eq_none_iff, List.filter_eq_nil_iff] at hlw
      exact hlw d hd (by simp [hne])
  · rw [if_neg hne]
    cases hlw : last_writer ds d.idx with
    | none => rfl
    | some e =>
      exfalso
      have := huniq e hlw
      obtain ⟨_, hlen, _⟩ := last_writer_some ds d.idx e hlw
      rw [this] at hlen
      exact hne hlen

/-- Claim C8: let the correction tables be those that `update_defect_correction_list`
computes for the registered defects (which have distinct indices), on a frame with at least
one pixel.  After `defect_correction`, which returns 0, every defect with a non-empty table
holds the arithmetic mean of the input values at the indices of its table, every defect with
an empty table holds its input value, every pixel that is no registered defect is unchanged,
and with an empty defect list the buffer is unchanged and the return code is 0. -/
theorem defect_correction_post (q : merlin_params) (buf : Nat → ℚ)
    (hnd : (q.v_defect_corr.map (fun d => d.idx)).Nodup)
    (hpix : size_t_of_int q.hdr_frm.n_rows * size_t_of_int q.hdr_frm.n_columns % 2 ^ 64 ≠ 0) :
    (defect_correction (update_defect_correction_list q).1 buf).1 = 0 ∧
    (∀ d ∈ (update_defect_correction_list q).1.v_defect_corr, d.v_idx_corr ≠ [] →
      (defect_correction (update_defect_correction_list q).1 buf).2 d.idx
        = (d.v_idx_corr.map buf).sum / (d.v_idx_corr.length : ℚ)) ∧
    (∀ d ∈ (update_defect_correction_list q).1.v_defect_corr, d.v_idx_corr = [] →
      (defect_correction (update_defect_correction_list q).1 buf).2 d.idx = buf d.idx) ∧
    (∀ i, is_defect_pixel (update_defect_correction_list q).1 i = false →
      (defect_correction (update_defect_correction_list q).1 buf).2 i = buf i) ∧
    ((update_defect_correction_list q).1.v_defect_corr = [] →
      defect_correction (update_defect_correction_list q).1 buf = (0, buf)) := by
  have hsound := cache_sound_update q
  have hnd1 : ((update_defect_correction_list q).1.v_defect_corr.map (fun d => d.idx)).Nodup := by
    have : (update_defect_correction_list q).1.v_defect_corr.map (fun d => d.idx)
        = q.v_defect_corr.map (fun d => d.idx) := by
      simp [update_defect_correction_list, List.map_map, Function.comp_def]
    rw [this]
    exact hnd
  have hgeo : (update_defect_correction_list q).1.hdr_frm = q.hdr_frm := rfl
  generalize (update_defect_correction_list q).1 = p at hsound hnd1 hgeo
  have hout : ∀ j, (defect_correction p buf).2 j =
      match last_writer p.v_defect_corr j with
      | some d => correction_value buf d
      | none => buf j := by
    intro j
    unfold defect_correction
    simp only [hgeo]
    by_cases hlen : p.v_defect_corr.length > 0
    · rw [if_pos hlen, if_neg hpix]
      exact defect_fold_spec p.v_defect_corr buf hsound j
    · rw [if_neg hlen]
      have hnil : p.v_defect_corr = [] := List.eq_nil_of_length_eq_zero (by omega)
      rw [hnil]
      rfl
  refine ⟨?_, ?_, ?_, ?_, ?_⟩
  · unfold defect_correction
    simp only [hgeo]
    by_cases hlen : p.v_defect_corr.length > 0
    · rw [if_pos hlen, if_neg hpix]
    · rw [if_neg hlen]
  · intro d hd hne
    have hpos : 0 < d.v_idx_corr.length := List.length_pos.mpr hne
    rw [hout, last_writer_nodup _ hnd1 d hd, if_pos hpos]
    simp only [correction_value]
    rw [foldl_add_eq_sum, zero_add]
    simp [div_eq_mul_inv]
  · intro d hd he
    have hpos : ¬ 0 < d.v_idx_corr.length := by rw [he]; simp
    rw [hout, last_writer_nodup _ hnd1 d hd, if_neg hpos]
  · intro i hi
    rw [hout, last_writer_none]
    intro d hd he
    exfalso
    have := (is_defect_pixel_iff p i).mpr ⟨d, hd, he⟩
    rw [hi] at this
    exact absurd this (by decide)
  · intro hnil
    unfold defect_correction
    rw [hnil]
    rfl

theorem defect_correction_post_witness :
    (defect_correction (update_defect_correction_list example_defects).1
        (fun i => (i : ℚ))).2 0 = 55 / 7 := by
  have h := (defect_correction_post example_defects (fun i => (i : ℚ)) (by decide)
    (by decide)).2.1 { idx := 0, x := 0, y := 0, v_idx_corr := [15, 12, 13, 3, 1, 7, 4] }
    (by decide) (by decide)
  rw [h]
  norm_num

theorem cache_sound_reachable (prm0 p : merlin_params) (h0 : prm0.v_defect_corr = [])
    (hr : defect_reachable prm0 p) : cache_sound p.v_defect_corr := by
  induction hr with
  | start =>
    rw [h0]
    intro d hd
    simp at hd
  | set_pixel p p1 x y r _ hset ih =>
    unfold set_defect_pixel at hset
    by_cases hdef : is_defect_pixel_xy p x y = true
    · rw [if_pos hdef] at hset
      simp only [Option.some.injEq, Prod.mk.injEq] at hset
      rw [← hset.1]
      exact ih
    · rw [if_neg hdef] at hset
      simp only [] at hset
      split at hset
      · simp only [Option.some.injEq, Prod.mk.injEq] at hset
        rw [← hset.1]
        intro d hd i hi d1 hd1 he
        simp only [List.mem_append, List.mem_singleton] at hd hd1
        rcases hd with hd | hd
        · rcases hd1 with hd1 | hd1
          · exact ih d hd i hi d1 hd1 he
          · rw [hd1]
        · rw [hd] at hi
          simp at hi
      · exact absurd hset (by simp)
  | unset_pixel p x y _ ih =>
    unfold unset_defect_pixel
    simp only []
    split
    · intro d hd i hi d1 hd1 he
      exact ih d (List.mem_of_mem_eraseP hd) i hi d1 (List.mem_of_mem_eraseP hd1) he
    · exact ih
  | unset_list p _ _ =>
    intro d hd
    simp [unset_defect_list] at hd
  | update p _ _ => exact cache_sound_update p

/-- Claim C9: in every state that calls of `set_defect_pixel`, `unset_defect_pixel`,
`unset_defect_list` and `update_defect_correction_list` reach from a state without
defects, `defect_correction` applied to its own result gives that result again, with the
same return code. -/
theorem defect_correction_idempotent (prm0 p : merlin_params) (buf : Nat → ℚ)
    (h0 : prm0.v_defect_corr = []) (hr : defect_reachable prm0 p) :
    defect_correction p (defect_correction p buf).2 = defect_correction p buf := by
  have hs := cache_sound_reachable prm0 p h0 hr
  unfold defect_correction
  simp only []
  by_cases hlen : p.v_defect_corr.length > 0
  · simp only [if_pos hlen]
    by_cases hpix : size_t_of_int p.hdr_frm.n_rows * size_t_of_int p.hdr_frm.n_columns
        % 2 ^ 64 = 0
    · simp only [if_pos hpix]
    · simp only [if_neg hpix]
      congr 1
      funext j
      rw [defect_fold_spec _ _ hs j, defect_fold_spec _ _ hs j]
      cases hlw : last_writer p.v_defect_corr j with
      | none => rfl
      | some d =>
        simp only []
        obtain ⟨hd, _, _⟩ := last_writer_some _ _ _ hlw
        apply correction_value_congr
        intro i hi
        rw [defect_fold_spec _ _ hs i, last_writer_none]
        intro d1 hd1 he
        exact hs d hd i hi d1 hd1 he
  · simp only [if_neg hlen]

theorem defect_correction_idempotent_witness :
    defect_correction (update_defect_correction_list example_defects).1
        (defect_correction (update_defect_correction_list example_defects).1
          (fun i => (i : ℚ))).2
      = defect_correction (update_defect_correction_list example_defects).1
          (fun i => (i : ℚ)) := by
  have hreach : defect_reachable example_frame
      (update_defect_correction_list example_defects).1 := by
    apply defect_reachable.update
    apply defect_reachable.set_pixel
      { hdr_frm := { n_columns := 4, n_rows := 4 }
        defects_modified := true
        v_defect_corr := [{ idx := 0, x := 0, y := 0, v_idx_corr := [] }] } _ 1 1 0
    · exact defect_reachable.set_pixel example_frame _ 0 0 0 defect_reachable.start (by decide)
    · decide
  exact defect_correction_idempotent example_frame _ _ rfl hreach

/-- Claim C10 fails on the code: on a frame of 4 x 4 pixels the correction table of the
single defect at the corner (0, 0) has 8 entries, among them the indices 15, 12, 13, 3 and
7 of pixels on the opposite borders, and the table of a single defect at the edge position
(1, 0) has 8 entries as well; the claim gives them 3 and 5 entries. -/
theorem corner_defect_table :
    (set_defect_pixel example_frame 0 0).map
        (fun r => (update_defect_correction_list r.1).1.v_defect_corr)
      = some [{ idx := 0, x := 0, y := 0, v_idx_corr := [15, 12, 13, 3, 1, 7, 4, 5] }] ∧
    (set_defect_pixel example_frame 1 0).map
        (fun r => (update_defect_correction_list r.1).1.v_defect_corr)
      = some [{ idx := 1, x := 1, y := 0, v_idx_corr := [12, 13, 14, 0, 2, 4, 5, 6] }] := by
  decide

/-! ## Theorems of section 5 -/

theorem neg_lt_tmod (i n : Int) (hn : 0 < n) : -n < i.tmod n := by
  rcases lt_or_le i 0 with hi | hi
  · have h1 : (-i).tmod n < n := Int.tmod_lt_of_pos _ hn
    have h2 : i.tmod n = -((-i).tmod n) := by
      rw [Int.tmod_def, Int.tmod_def, Int.neg_tdiv]
      ring
    omega
  · have := Int.tmod_nonneg n hi
    omega

theorem imod_eq_emod (i n : Int) (hn : 0 < n) : imod i n = i % n := by
  unfold imod
  have h1 := neg_lt_tmod i n hn
  rw [Int.tmod_eq_emod (by omega) (le_of_lt hn), Int.tmod_def]
  have : i - n * i.tdiv n + n = i + n * (1 - i.tdiv n) := by ring
  rw [this, Int.add_mul_emod_self_left]

theorem imod_of_lt (i n : Int) (h0 : 0 ≤ i) (h1 : i < n) : imod i n = i := by
  rw [imod_eq_emod i n (by omega), Int.emod_eq_of_lt h0 h1]

theorem to_int32_of_range (i : Int) (h0 : -(2 ^ 31) ≤ i) (h1 : i < 2 ^ 31) :
    to_int32 i = i := by
  unfold to_int32
  rcases lt_or_le i 0 with h | h
  · have e : i % 2 ^ 32 = i + 2 ^ 32 := by
      rw [← Int.add_mul_emod_self_left i (2 ^ 32) 1]
      apply Int.emod_eq_of_lt <;> omega
    rw [e, if_neg (by omega)]
    omega
  · have e : i % 2 ^ 32 = i := Int.emod_eq_of_lt h (by omega)
    rw [e, if_pos (by omega)]

theorem imod_int32_eq (i n : Int) (hn : 0 < n) (hb : n ≤ 2 ^ 30) :
    imod_int32 i n = i % n := by
  have h1 := neg_lt_tmod i n hn
  have h2 : i.tmod n < n := Int.tmod_lt_of_pos i hn
  unfold imod_int32
  rw [to_int32_of_range _ (by omega) (by omega)]
  exact imod_eq_emod i n hn

theorem imod_int32_eval_eq (i n : Int) (hn : 0 < n) (hb : n ≤ 2 ^ 30) :
    imod_int32_eval i n = some (i % n) := by
  unfold imod_int32_eval
  rw [if_neg (by omega), imod_int32_eq i n hn hb]

/-- The two calls of `imod` inside `get_frame_pixel` and `get_scan_pixel` on the 32-bit
`int`, for an index inside a grid of `c` columns and `r` rows with `c, r <= 2^30` and
`c * r <= 2^31`: no sum leaves the range of `int`, and the results are `i mod c` and
`i div c`. -/
theorem grid_pixel_int32 (c r i : Int) (hc : 0 < c) (hcb : c ≤ 2 ^ 30) (hr : 0 < r)
    (hrb : r ≤ 2 ^ 30) (hb : c * r ≤ 2 ^ 31) (h0 : 0 ≤ i) (h1 : i < c * r) :
    imod_int32 i c = i % c ∧
      imod_int32_eval ((to_int32 (i - imod_int32 i c)).tdiv c) r = some (i / c) := by
  have hne : c ≠ 0 := by omega
  have hm0 := Int.emod_nonneg i hne
  have hm1 := Int.emod_lt_of_pos i hc
  have hdiv : (i - i % c).tdiv c = i / c := by
    have e : i - i % c = c * (i / c) := by
      have := Int.emod_add_ediv i c
      omega
    rw [e, Int.mul_tdiv_cancel_left _ hne]
  have hq0 : 0 ≤ i / c := Int.ediv_nonneg h0 (le_of_lt hc)
  have hq1 : i / c < r := Int.ediv_lt_of_lt_mul hc (by rw [mul_comm]; exact h1)
  refine ⟨imod_int32_eq i c hc hcb, ?_⟩
  rw [imod_int32_eq i c hc hcb, to_int32_of_range _ (by omega) (by omega), hdiv,
    imod_int32_eval_eq _ _ hr hrb, Int.emod_eq_of_lt hq0 hq1]

theorem get_frame_pixel_idx_in_frame (prm : merlin_params) (x y : Int)
    (hg : frame_geometry_ok prm) (hx0 : 0 ≤ x) (hx1 : x < prm.hdr_frm.n_columns)
    (hy0 : 0 ≤ y) (hy1 : y < prm.hdr_frm.n_rows) :
    get_frame_pixel_idx prm x y = x + y * prm.hdr_frm.n_columns := by
  obtain ⟨hc, hr, _⟩ := hg
  unfold get_frame_pixel_idx
  rw [if_neg (by omega), imod_of_lt x _ hx0 hx1, imod_of_lt y _ hy0 hy1]

theorem pixel_index_bound (c r x y : Int) (hx0 : 0 ≤ x) (hx1 : x < c) (hy0 : 0 ≤ y)
    (hy1 : y < r) : 0 ≤ x + y * c ∧ x + y * c < c * r := by
  have h1 : 0 ≤ y * c := mul_nonneg hy0 (by omega)
  have h2 : (y + 1) * c ≤ r * c := mul_le_mul_of_nonneg_right (by omega) (by omega)
  constructor
  · omega
  · nlinarith

theorem correction_table_update (q : merlin_params) (x y : Int) :
    correction_table (update_defect_correction_list q).1 x y = correction_table q x y := by
  unfold correction_table
  have h1 : ∀ a b, get_frame_pixel_idx (update_defect_correction_list q).1 a b
      = get_frame_pixel_idx q a b := fun _ _ => rfl
  simp only [h1, is_defect_pixel_update]

theorem example_interior_reachable : defect_reachable example_frame example_interior_defect :=
  defect_reachable.set_pixel example_frame _ 1 1 0 defect_reachable.start (by decide)

theorem reachable_cache_current (prm0 p : merlin_params) (h0 : prm0.v_defect_corr = [])
    (hr : defect_reachable prm0 p) :
    p.defects_modified = false →
      ∀ d ∈ p.v_defect_corr, d.v_idx_corr = correction_table p d.x d.y := by
  induction hr with
  | start =>
    intro _ d hd
    rw [h0] at hd
    exact absurd hd (List.not_mem_nil d)
  | set_pixel p p1 x y r _ hset ih =>
    unfold set_defect_pixel at hset
    split at hset
    · simp only [Option.some.injEq, Prod.mk.injEq] at hset
      rw [← hset.1]
      exact ih
    · simp only at hset
      split at hset
      · simp only [Option.some.injEq, Prod.mk.injEq] at hset
        rw [← hset.1]
        intro hm
        exact absurd hm (by simp)
      · exact absurd hset (by simp)
  | unset_pixel p x y _ ih =>
    unfold unset_defect_pixel
    simp only
    split
    · intro hm d hd
      simp only [decide_eq_false_iff_not, not_lt, Nat.le_zero, List.length_eq_zero] at hm
      simp only [hm] at hd
      exact absurd hd (List.not_mem_nil d)
    · exact ih
  | unset_list p _ _ =>
    intro _ d hd
    exact absurd hd (List.not_mem_nil d)
  | update p _ _ =>
    intro _ d hd
    rw [correction_table_update]
    simp only [update_defect_correction_list, List.mem_map] at hd
    obtain ⟨d0, _, rfl⟩ := hd
    rfl

theorem update_fixed_of_current (p : merlin_params)
    (h : ∀ d ∈ p.v_defect_corr, d.v_idx_corr = correction_table p d.x d.y) :
    (update_defect_correction_list p).1.v_defect_corr = p.v_defect_corr := by
  simp only [update_defect_correction_list]
  conv_rhs => rw [← List.map_id p.v_defect_corr]
  apply List.map_congr_left
  intro d hd
  rw [← h d hd]
  rfl

/-- Claim C12: in every state reached from a state without registered defects by calls of
`set_defect_pixel`, `unset_defect_pixel`, `unset_defect_list` and
`update_defect_correction_list` (none of which changes the frame geometry), when
`is_defect_list_modified` returns false the correction table of every registered defect is
the table that `update_defect_correction_list` computes for it, so that a further update
leaves the defect list unchanged. -/
theorem dirty_flag_coherent (prm0 p : merlin_params) (h0 : prm0.v_defect_corr = [])
    (hr : defect_reachable prm0 p) (hm : is_defect_list_modified p = false) :
    (∀ d ∈ p.v_defect_corr, d.v_idx_corr = correction_table p d.x d.y) ∧
    (update_defect_correction_list p).1.v_defect_corr = p.v_defect_corr :=
  ⟨reachable_cache_current prm0 p h0 hr hm,
    update_fixed_of_current p (reachable_cache_current prm0 p h0 hr hm)⟩

theorem dirty_flag_coherent_witness :
    example_frame.v_defect_corr = [] ∧
    is_defect_list_modified (update_defect_correction_list example_interior_defect).1 = false ∧
    (∀ d ∈ (update_defect_correction_list example_interior_defect).1.v_defect_corr,
      d.v_idx_corr =
        correction_table (update_defect_correction_list example_interior_defect).1 d.x d.y) ∧
    (update_defect_correction_list
        (update_defect_correction_list example_interior_defect).1).1.v_defect_corr =
      (update_defect_correction_list example_interior_defect).1.v_defect_corr :=
  ⟨rfl, rfl, dirty_flag_coherent example_frame _ rfl
    (defect_reachable.update _ example_interior_reachable) rfl⟩

/-! ## Theorems of section 6 -/

set_option maxRecDepth 20000

theorem getline_progress (fin fin1 : ifstream) (ln : List Char)
    (h : getline fin = (fin1, some ln)) :
    fin.good = true ∧ fin1.data = fin.data ∧ fin.pos < fin.data.length ∧
      ((fin1.good = true ∧ fin.pos < fin1.pos ∧ fin1.pos ≤ fin.data.length) ∨
        fin1.good = false) := by
  unfold getline at h
  split at h
  · rename_i hgood
    simp only at h
    have hlen : (List.drop fin.pos fin.data).length = fin.data.length - fin.pos :=
      List.length_drop _ _
    split at h
    · rename_i hlt
      simp only [Prod.mk.injEq, Option.some.injEq] at h
      obtain ⟨h1, _⟩ := h
      subst h1
      refine ⟨hgood, rfl, by omega, Or.inl ⟨hgood, ?_, ?_⟩⟩
      · show fin.pos < fin.pos + _ + 1
        omega
      · show fin.pos + _ + 1 ≤ fin.data.length
        omega
    · rename_i hge
      split at h
      · simp at h
      · rename_i hne
        simp only [Prod.mk.injEq, Option.some.injEq] at h
        obtain ⟨h1, _⟩ := h
        subst h1
        have hle := (List.takeWhile_prefix (fun c => c != '\n')
          (l := List.drop fin.pos fin.data)).length_le
        refine ⟨hgood, rfl, by omega, Or.inr ?_⟩
        simp [ifstream.good]
  · simp at h

theorem getline_stop (fin : ifstream) (hgood : fin.good = false) :
    (getline fin).2 = none := by
  unfold getline
  simp [hgood]

theorem read_header_lines_total (n : Nat) : ∀ (fin : ifstream) (acc : List (List Char)),
    (fin.good = true → fin.data.length + 1 < n + fin.pos) → 0 < n →
      ∃ v, read_header_lines n fin acc = some v := by
  induction n with
  | zero => intro _ _ _ h; omega
  | succ n ih =>
    intro fin acc hm _
    unfold read_header_lines
    rcases hgl : getline fin with ⟨fin1, _ | ln⟩
    · exact ⟨acc, rfl⟩
    · simp only
      split
      · exact ⟨_, rfl⟩
      · obtain ⟨hgood, hdata, hpos, hcase⟩ := getline_progress fin fin1 ln hgl
        have hm1 := hm hgood
        rcases hcase with ⟨_, hlt, hle⟩ | hbad
        · apply ih
          · intro _
            rw [hdata]
            omega
          · omega
        · rcases Nat.eq_zero_or_pos n with h0 | hpos1
          · omega
          · apply ih
            · intro hg
              rw [hbad] at hg
              exact absurd hg (by decide)
            · exact hpos1

theorem scan_rows_derived (hdr : merlin_hdr) (h1 : hdr.n_columns < hdr.n_frames)
    (h2 : 0 < hdr.n_columns) :
    scan_rows hdr = some { hdr with
      n_rows := hdr.n_frames / hdr.n_columns +
        (if hdr.n_frames % hdr.n_columns = 0 then 0 else 1) } := by
  have hne : hdr.n_columns ≠ 0 := by omega
  have hmod := imod_eq_emod hdr.n_frames hdr.n_columns h2
  have hm0 := Int.emod_nonneg hdr.n_frames hne
  have hdiv : (hdr.n_frames - hdr.n_frames % hdr.n_columns).tdiv hdr.n_columns
      = hdr.n_frames / hdr.n_columns := by
    have e : hdr.n_frames - hdr.n_frames % hdr.n_columns
        = hdr.n_columns * (hdr.n_frames / hdr.n_columns) := by
      have := Int.emod_add_ediv hdr.n_frames hdr.n_columns
      omega
    rw [e, Int.mul_tdiv_cancel_left _ hne]
  unfold scan_rows imod_eval
  rw [if_pos ⟨by omega, h1, h2⟩, if_neg hne, hmod]
  simp only [Option.map_some', Option.some_bind, if_neg hne, hdiv]
  by_cases hz : hdr.n_frames % hdr.n_columns = 0
  · rw [if_pos hz, if_neg (by omega)]
    simp
  · rw [if_neg hz, if_pos (by omega)]

/-- Claim C17: `merlin_read_header` on an open stream reads the header lines and, when the
numbers of frames and of frames per trigger (columns) that it parses satisfy
frames > columns > 0, returns 0 with `n_rows` equal to the quotient frames / columns plus
one if the remainder of frames by columns is not 0, whatever `n_rows` was before. -/
theorem merlin_read_header_rows (fin : ifstream) (hdr : merlin_hdr)
    (hopen : fin.is_open = true) :
    ∃ v, read_header_lines (fin.data.length + 2) fin [] = some v ∧
      ∀ h1, parse_header_lines v hdr = some h1 → h1.n_columns < h1.n_frames →
        0 < h1.n_columns →
        merlin_read_header (some fin) (some hdr) = some (0, some { h1 with
          n_rows := h1.n_frames / h1.n_columns +
            (if h1.n_frames % h1.n_columns = 0 then 0 else 1) }) := by
  obtain ⟨v, hv⟩ := read_header_lines_total (fin.data.length + 2) fin []
    (fun _ => by omega) (by omega)
  refine ⟨v, hv, ?_⟩
  intro h1 hparse hlt hpos
  unfold merlin_read_header
  simp only [hopen, if_true, hv, hparse, Option.some_bind, scan_rows_derived h1 hlt hpos,
    Option.map_some']

theorem merlin_read_header_rows_witness :
    (example_header "105" "10").is_open = true ∧
    (∃ v, read_header_lines ((example_header "105" "10").data.length + 2)
        (example_header "105" "10") [] = some v ∧
      ∀ h1, parse_header_lines v { n_rows := 7 } = some h1 → h1.n_columns < h1.n_frames →
        0 < h1.n_columns →
        merlin_read_header (some (example_header "105" "10")) (some { n_rows := 7 }) =
          some (0, some { h1 with
            n_rows := h1.n_frames / h1.n_columns +
              (if h1.n_frames % h1.n_columns = 0 then 0 else 1) })) ∧
    (merlin_read_header (some (example_header "105" "10")) (some { n_rows := 7 })).map
      (fun r => (r.1, r.2.map (fun h => (h.n_frames, h.n_columns, h.n_rows))))
        = some (0, some (105, 10, 11)) ∧
    (merlin_read_header (some (example_header "100" "10")) (some { n_rows := 7 })).map
      (fun r => (r.1, r.2.map (fun h => (h.n_frames, h.n_columns, h.n_rows))))
        = some (0, some (100, 10, 10)) :=
  ⟨rfl, merlin_read_header_rows (example_header "105" "10") { n_rows := 7 } rfl,
    by decide, by decide⟩

/-- Claim C18 fails on the code: for a header with 0 frames per trigger, and for a header
without a line for the frames per trigger read into a fresh `merlin_hdr`, the call
`imod(n_frames, n_columns)` of line 60 takes the remainder by 0 and `merlin_read_header`
does not return; the claim has it return 0 without a division or remainder by the
number of columns. -/
theorem zero_columns_remainder :
    merlin_read_header (some (example_header "100" "0")) (some { n_rows := 7 }) = none ∧
    merlin_read_header (some example_header_no_trigger) (some {}) = none ∧
    (parse_header_lines ["Frames in Acquisition (Number):\t100".toList,
        "Frames per Trigger (Number):\t0".toList, "End".toList] { n_rows := 7 }).map
      (fun h => (h.n_frames, h.n_columns, imod_eval h.n_frames h.n_columns))
        = some (100, 0, none) := by
  decide

/-- Claim C19 fails on the code: for a header with 5 frames and 10 frames per trigger
`merlin_read_header` returns 0 with `n_rows` one more than before the call (8 after 7, 1
after 0), because the increment of line 61 is not under the condition of line 57; the claim
has `n_rows` keep its value. -/
theorem short_scan_rows_incremented :
    (merlin_read_header (some (example_header "5" "10")) (some { n_rows := 7 })).map
      (fun r => (r.1, r.2.map (fun h => (h.n_frames, h.n_columns, h.n_rows))))
        = some (0, some (5, 10, 8)) ∧
    (merlin_read_header (some (example_header "5" "10")) (some {})).map
      (fun r => (r.1, r.2.map (fun h => (h.n_frames, h.n_columns, h.n_rows))))
        = some (0, some (5, 10, 1)) := by
  decide

/-! ## Theorems of section 7 -/

theorem int_of_size_t_small (i : Nat) (h : i < 2 ^ 31) : int_of_size_t i = (i : Int) := by
  unfold int_of_size_t
  have hm : i % 2 ^ 32 = i := Nat.mod_eq_of_lt (by omega)
  rw [hm, if_pos h]

theorem frame_pixel_of_index (prm : merlin_params) (hg : frame_geometry_ok prm) (i : Nat)
    (hi : (i : Int) < prm.hdr_frm.n_columns * prm.hdr_frm.n_rows) :
    get_frame_pixel prm (int_of_size_t i) =
      some (some ((i : Int) % prm.hdr_frm.n_columns, (i : Int) / prm.hdr_frm.n_columns)) := by
  obtain ⟨hc, hr, hlt⟩ := hg
  have hi31 : i < 2 ^ 31 := by
    have : (i : Int) < 2 ^ 31 := by omega
    exact_mod_cast this
  have hne : prm.hdr_frm.n_columns ≠ 0 := by omega
  have hdiv : ((i : Int) - (i : Int) % prm.hdr_frm.n_columns).tdiv prm.hdr_frm.n_columns
      = (i : Int) / prm.hdr_frm.n_columns := by
    have e : (i : Int) - (i : Int) % prm.hdr_frm.n_columns
        = prm.hdr_frm.n_columns * ((i : Int) / prm.hdr_frm.n_columns) := by
      have := Int.emod_add_ediv (i : Int) prm.hdr_frm.n_columns
      omega
    rw [e, Int.mul_tdiv_cancel_left _ hne]
  have hq0 : 0 ≤ (i : Int) / prm.hdr_frm.n_columns :=
    Int.ediv_nonneg (Int.ofNat_nonneg i) (le_of_lt hc)
  have hq1 : (i : Int) / prm.hdr_frm.n_columns < prm.hdr_frm.n_rows :=
    Int.ediv_lt_of_lt_mul hc (by rw [mul_comm]; exact hi)
  unfold get_frame_pixel
  rw [if_neg (by omega), if_neg (by omega), int_of_size_t_small i hi31]
  simp only [imod_eq_emod _ _ hc, hdiv, imod_of_lt _ _ hq0 hq1]

theorem annular_loop_spec (ops : double_ops) (prm : merlin_params)
    (bhash : Bool) (hg : frame_geometry_ok prm)
    (k : Nat) : ∀ (i : Nat) (det : annular_detector),
    ((i + k : Nat) : Int) ≤ prm.hdr_frm.n_columns * prm.hdr_frm.n_rows →
    ∃ det1, annular_loop ops prm bhash k i det = some (0, det1) ∧
      (∀ j, det1.detbuf j = if i ≤ j ∧ j < i + k then
        (if inside_pixel ops prm j then 1 else 0) else det.detbuf j) ∧
      (bhash = false → det1.dethash = det.dethash ∧ det1.nhash = det.nhash) ∧
      (bhash = true →
        det1.nhash = det.nhash + ((List.range' i k).filter (inside_pixel ops prm)).length ∧
        (∀ m, m < det.nhash → det1.dethash m = det.dethash m) ∧
        ∀ m, m < ((List.range' i k).filter (inside_pixel ops prm)).length →
          det1.dethash (det.nhash + m) =
            ((((List.range' i k).filter (inside_pixel ops prm)).getD m 0 : Nat) : Int)) := by
  induction k with
  | zero =>
    intro i det _
    refine ⟨det, rfl, ?_, fun _ => ⟨rfl, rfl⟩, fun _ => ⟨?_, fun _ _ => rfl, ?_⟩⟩
    · intro j
      have hj : ¬ (i ≤ j ∧ j < i + 0) := by omega
      rw [if_neg hj]
    · simp
    · intro m hm
      simp at hm
  | succ k ih =>
    intro i det hik
    have hi : (i : Int) < prm.hdr_frm.n_columns * prm.hdr_frm.n_rows := by
      push_cast at hik
      omega
    have hi31 : i < 2 ^ 31 := by
      have := hg.2.2
      have : (i : Int) < 2 ^ 31 := by omega
      exact_mod_cast this
    have hins : in_annular_range ops prm.range_annular
        (get_calib_pos ops prm ((i : Int) % prm.hdr_frm.n_columns)
          ((i : Int) / prm.hdr_frm.n_columns)) = inside_pixel ops prm i := rfl
    unfold annular_loop
    rw [frame_pixel_of_index prm hg i hi]
    simp only [hins]
    have hik1 : ((i + 1 + k : Nat) : Int) ≤ prm.hdr_frm.n_columns * prm.hdr_frm.n_rows := by
      push_cast at hik ⊢
      omega
    by_cases hin : inside_pixel ops prm i = true
    · rw [if_pos hin]
      obtain ⟨det1, hrun, hbuf, hno, hyes⟩ := ih (i + 1)
        { detbuf := Function.update det.detbuf i 1
          dethash := if bhash then Function.update det.dethash det.nhash (int_of_size_t i)
            else det.dethash
          nhash := if bhash then det.nhash + 1 else det.nhash } hik1
      have hfil : (List.range' i (k + 1)).filter (inside_pixel ops prm)
          = i :: (List.range' (i + 1) k).filter (inside_pixel ops prm) := by
        rw [List.range'_succ, List.filter_cons_of_pos hin]
      refine ⟨det1, hrun, ?_, ?_, ?_⟩
      · intro j
        rw [hbuf j]
        by_cases hj : i + 1 ≤ j ∧ j < i + 1 + k
        · have hj1 : i ≤ j ∧ j < i + (k + 1) := by omega
          rw [if_pos hj, if_pos hj1]
        · rw [if_neg hj]
          by_cases hji : j = i
          · subst hji
            have hj1 : j ≤ j ∧ j < j + (k + 1) := by omega
            rw [if_pos hj1, if_pos hin]
            simp
          · have hj1 : ¬ (i ≤ j ∧ j < i + (k + 1)) := by omega
            rw [if_neg hj1]
            simp [Function.update, hji]
      · intro hb
        obtain ⟨h1, h2⟩ := hno hb
        subst hb
        simpa using And.intro h1 h2
      · intro hb
        obtain ⟨h1, h2, h3⟩ := hyes hb
        subst hb
        simp only [if_true] at h1 h2 h3
        rw [hfil]
        refine ⟨by rw [h1, List.length_cons]; omega, ?_, ?_⟩
        · intro m hm
          rw [h2 m (by omega)]
          simp [Function.update, Nat.ne_of_lt hm]
        · intro m hm
          rcases m with _ | m
          · rw [Nat.add_zero, h2 det.nhash (by omega)]
            simp [Function.update, int_of_size_t_small i hi31]
          · rw [List.length_cons] at hm
            have := h3 m (by omega)
            rw [List.getD_cons_succ, ← this]
            congr 1
            omega
    · rw [if_neg hin]
      obtain ⟨det1, hrun, hbuf, hno, hyes⟩ := ih (i + 1)
        { det with detbuf := Function.update det.detbuf i 0 } hik1
      have hfil : (List.range' i (k + 1)).filter (inside_pixel ops prm)
          = (List.range' (i + 1) k).filter (inside_pixel ops prm) := by
        rw [List.range'_succ, List.filter_cons_of_neg hin]
      refine ⟨det1, hrun, ?_, hno, ?_⟩
      · intro j
        rw [hbuf j]
        by_cases hj : i + 1 ≤ j ∧ j < i + 1 + k
        · have hj1 : i ≤ j ∧ j < i + (k + 1) := by omega
          rw [if_pos hj, if_pos hj1]
        · rw [if_neg hj]
          by_cases hji : j = i
          · subst hji
            have hj1 : j ≤ j ∧ j < j + (k + 1) := by omega
            rw [if_pos hj1, if_neg hin]
            simp
          · have hj1 : ¬ (i ≤ j ∧ j < i + (k + 1)) := by omega
            rw [if_neg hj1]
            simp [Function.update, hji]
      · intro hb
        rw [hfil]
        exact hyes hb

/-- What `prepare_annular_detector` produces on a frame: with and without a hash the same
mask, and with a hash the list of the inside pixels in increasing order. -/
theorem prepare_annular_detector_run (ops : double_ops) (prm : merlin_params) (nlen : Nat)
    (buf : Nat → ℚ) (hash : Nat → Int) (n0 : Nat) (fh : merlin_frame_hdr) (hg : frame_geometry_ok prm)
    (h0 : 0 < nlen) (hn : (nlen : Int) ≤ prm.hdr_frm.n_columns * prm.hdr_frm.n_rows) :
    ∃ mask hash1,
      prepare_annular_detector ops prm nlen (some buf) (some hash) (some n0) (some fh) =
        some (0, some mask, some hash1,
          some ((List.range nlen).filter (inside_pixel ops prm)).length) ∧
      prepare_annular_detector ops prm nlen (some buf) none none (some fh) =
        some (0, some mask, none, none) ∧
      (∀ j, mask j = if j < nlen then (if inside_pixel ops prm j then 1 else 0) else buf j) ∧
      ∀ m, m < ((List.range nlen).filter (inside_pixel ops prm)).length →
        hash1 m = ((((List.range nlen).filter (inside_pixel ops prm)).getD m 0 : Nat) : Int) := by
  have hne : nlen ≠ 0 := by omega
  obtain ⟨d1, hrun1, hbuf1, _, hyes⟩ := annular_loop_spec ops prm true hg nlen 0
    { detbuf := buf, dethash := hash, nhash := 0 } (by rw [Nat.zero_add]; exact hn)
  obtain ⟨d2, hrun2, hbuf2, _, _⟩ := annular_loop_spec ops prm false hg nlen 0
    { detbuf := buf, dethash := fun _ => 0, nhash := 0 } (by rw [Nat.zero_add]; exact hn)
  obtain ⟨hcount, _, hlist⟩ := hyes rfl
  rw [← List.range_eq_range'] at hcount hlist
  simp only [Nat.zero_add] at hcount hlist
  have hmask : ∀ j, d1.detbuf j =
      if j < nlen then (if inside_pixel ops prm j then 1 else 0) else buf j := by
    intro j
    rw [hbuf1 j]
    by_cases hj : j < nlen
    · have hj1 : 0 ≤ j ∧ j < 0 + nlen := by omega
      rw [if_pos hj1, if_pos hj]
    · have hj1 : ¬ (0 ≤ j ∧ j < 0 + nlen) := by omega
      rw [if_neg hj1, if_neg hj]
  have hsame : d2.detbuf = d1.detbuf := by
    funext j
    rw [hbuf2 j, hbuf1 j]
  refine ⟨d1.detbuf, d1.dethash, ?_, ?_, hmask, hlist⟩
  · unfold prepare_annular_detector
    rw [if_neg hne]
    simp only [hrun1, Option.map_some', hcount]
  · unfold prepare_annular_detector
    rw [if_neg hne]
    simp only [hrun2, Option.map_some', hsame]

theorem int_log_eq (b : Nat) (hb : 1 < b) (r : ℚ) (e : Int) (h0 : (b : ℚ) ^ e ≤ r)
    (h1 : r < (b : ℚ) ^ (e + 1)) : Int.log b r = e := by
  have hr : 0 < r := lt_of_lt_of_le (zpow_pos (by exact_mod_cast (by omega : 0 < b)) e) h0
  have a := (Int.zpow_le_iff_le_log hb hr).mp h0
  have c := (Int.lt_zpow_iff_log_lt hb hr).mp h1
  omega

theorem round_half_even_int (m : Int) : round_half_even (m : ℚ) = m := by
  unfold round_half_even
  simp

/-- A value `m * 2^(e-52)` with `2^52 <= m < 2^53` is a `double`, and rounding keeps it. -/
theorem round_double_fixed (q : ℚ) (e : Int) (m : Nat) (hq : q = (m : ℚ) * (2 : ℚ) ^ (e - 52))
    (hm0 : 2 ^ 52 ≤ m) (hm1 : m < 2 ^ 53) : round_double q = q := by
  have hu : (0 : ℚ) < (2 : ℚ) ^ (e - 52) := zpow_pos (by norm_num) _
  have hmq0 : ((2 : ℚ) ^ 52) ≤ (m : ℚ) := by exact_mod_cast hm0
  have hmq1 : (m : ℚ) < (2 : ℚ) ^ 53 := by exact_mod_cast hm1
  have hpos : 0 < q := by
    rw [hq]
    exact mul_pos (lt_of_lt_of_le (by norm_num) hmq0) hu
  have habs : |q| = q := abs_of_pos hpos
  have hsplit : (2 : ℚ) ^ e = (2 : ℚ) ^ (52 : Int) * (2 : ℚ) ^ (e - 52) := by
    rw [← zpow_add₀ (by norm_num : (2 : ℚ) ≠ 0)]
    congr 1
    omega
  have hsplit1 : (2 : ℚ) ^ (e + 1) = (2 : ℚ) ^ (53 : Int) * (2 : ℚ) ^ (e - 52) := by
    rw [← zpow_add₀ (by norm_num : (2 : ℚ) ≠ 0)]
    congr 1
    omega
  have hlog : Int.log 2 q = e := by
    apply int_log_eq 2 (by norm_num)
    · rw [hq]
      push_cast
      rw [hsplit]
      apply mul_le_mul_of_nonneg_right _ (le_of_lt hu)
      exact_mod_cast hmq0
    · rw [hq]
      push_cast
      rw [hsplit1]
      apply mul_lt_mul_of_pos_right _ hu
      exact_mod_cast hmq1
  unfold round_double
  rw [if_neg (ne_of_gt hpos)]
  simp only [habs, hlog]
  rw [if_neg (not_lt.mpr (le_of_lt hpos))]
  have hdiv : q / (2 : ℚ) ^ (e - 52) = ((m : Int) : ℚ) := by
    rw [hq]
    field_simp
  rw [hdiv, round_half_even_int, hq]
  simp

theorem round_double_zero : round_double 0 = 0 := by
  unfold round_double
  rw [if_pos rfl]

theorem round_double_one : round_double 1 = 1 :=
  round_double_fixed 1 0 (2 ^ 52) (by norm_num) (by norm_num) (by norm_num)

theorem round_double_two : round_double 2 = 2 :=
  round_double_fixed 2 1 (2 ^ 52) (by norm_num) (by norm_num) (by norm_num)

theorem round_double_three : round_double 3 = 3 :=
  round_double_fixed 3 1 (3 * 2 ^ 51) (by norm_num) (by norm_num) (by norm_num)

theorem round_double_nine : round_double 9 = 9 :=
  round_double_fixed 9 3 (9 * 2 ^ 49) (by norm_num) (by norm_num) (by norm_num)

/-- The value of `sqrt_double` from the binade `4^e <= q < 4^(e+1)` and the integer part `m`
of the root of `n = q * 4^(52-e)`. -/
theorem sqrt_double_eval (q : ℚ) (e : Int) (n m : Nat) (h0 : (4 : ℚ) ^ e ≤ q)
    (h1 : q < (4 : ℚ) ^ (e + 1)) (hn : q * (4 : ℚ) ^ (52 - e) = (n : ℚ))
    (hm0 : m * m ≤ n) (hm1 : n < (m + 1) * (m + 1)) :
    sqrt_double q = if m * m + m < n then ((m : ℚ) + 1) * (2 : ℚ) ^ (e - 52)
      else (m : ℚ) * (2 : ℚ) ^ (e - 52) := by
  have hpos : 0 < q := lt_of_lt_of_le (zpow_pos (by norm_num) e) h0
  have hlog : Int.log 4 q = e := int_log_eq 4 (by norm_num) q e (by exact_mod_cast h0)
    (by exact_mod_cast h1)
  have hsq : Nat.sqrt n = m := (Nat.eq_sqrt.mpr ⟨hm0, hm1⟩).symm
  unfold sqrt_double
  rw [if_neg (not_le.mpr hpos)]
  simp only [hlog, hn, Nat.floor_natCast, hsq]
  by_cases h : m * m + m < n
  · have hq : (m : ℚ) * m + m + 1 / 4 < (n : ℚ) := by
      have : (m : ℚ) * m + m + 1 ≤ (n : ℚ) := by exact_mod_cast h
      linarith
    rw [if_pos hq, if_pos h]
  · have hq : ¬ ((m : ℚ) * m + m + 1 / 4 < (n : ℚ)) := by
      have : (n : ℚ) ≤ (m : ℚ) * m + m := by exact_mod_cast (not_lt.mp h)
      linarith
    rw [if_neg hq, if_neg h]

theorem sqrt_double_one : sqrt_double 1 = 1 := by
  rw [sqrt_double_eval 1 0 (4 ^ 52) (2 ^ 52) (by norm_num) (by norm_num) (by norm_num)
    (by norm_num) (by norm_num)]
  norm_num

theorem sqrt_double_nine : sqrt_double 9 = 3 := by
  rw [sqrt_double_eval 9 1 (9 * 4 ^ 51) (3 * 2 ^ 51) (by norm_num) (by norm_num) (by norm_num)
    (by norm_num) (by norm_num)]
  norm_num

/-- The root of 2 in `double` is 6369051672525773 / 2^52, rounded up from the root. -/
theorem sqrt_double_two : sqrt_double 2 = 6369051672525773 / 2 ^ 52 := by
  rw [sqrt_double_eval 2 0 (2 * 4 ^ 52) 6369051672525772 (by norm_num) (by norm_num)
    (by norm_num) (by norm_num) (by norm_num)]
  norm_num

theorem ieee_ops_add (a b : ℚ) : ieee_ops.add a b = round_double (a + b) := rfl
theorem ieee_ops_sub (a b : ℚ) : ieee_ops.sub a b = round_double (a - b) := rfl
theorem ieee_ops_mul (a b : ℚ) : ieee_ops.mul a b = round_double (a * b) := rfl
theorem ieee_ops_sqrt (a : ℚ) : ieee_ops.sqrt a = sqrt_double a := rfl

/-- With the calibration of the constructor the calibrated position of a pixel is the
pixel itself, as far as its coordinates are `double` values. -/
theorem get_calib_pos_default (prm : merlin_params) (x y : Int)
    (hcal : prm.frame_calib = {}) (hx : round_double (x : ℚ) = x)
    (hy : round_double (y : ℚ) = y) :
    get_calib_pos ieee_ops prm x y = { x := x, y := y } := by
  unfold get_calib_pos
  rw [hcal]
  show ({ x := ieee_ops.add (ieee_ops.mul (ieee_ops.sub (x : ℚ) 0) 1)
            (ieee_ops.mul (ieee_ops.sub (y : ℚ) 0) 0)
          y := ieee_ops.add (ieee_ops.mul (ieee_ops.sub (x : ℚ) 0) 0)
            (ieee_ops.mul (ieee_ops.sub (y : ℚ) 0) 1) } : merlin_pos) = _
  rw [ieee_ops_add, ieee_ops_add, ieee_ops_mul, ieee_ops_mul, ieee_ops_mul, ieee_ops_mul,
    ieee_ops_sub, ieee_ops_sub, sub_zero, sub_zero, hx, hy, mul_one, mul_one, mul_zero,
    mul_zero, round_double_zero, hx, hy, add_zero, zero_add, hx, hy]

theorem annular_radius_ieee (a b : ℚ) :
    annular_radius ieee_ops { x := a, y := b }
      = sqrt_double (round_double (round_double (a * a) + round_double (b * b))) := by
  unfold annular_radius
  rw [ieee_ops_sqrt, ieee_ops_add, ieee_ops_mul, ieee_ops_mul]

theorem inside_pixel_iff (ops : double_ops) (prm : merlin_params) (i : Nat) :
    inside_pixel ops prm i = true ↔
      (prm.range_annular.min ≤ annular_radius ops
          (get_calib_pos ops prm ((i : Int) % prm.hdr_frm.n_columns)
            ((i : Int) / prm.hdr_frm.n_columns)) ∧
        annular_radius ops
          (get_calib_pos ops prm ((i : Int) % prm.hdr_frm.n_columns)
            ((i : Int) / prm.hdr_frm.n_columns)) < prm.range_annular.max) := by
  unfold inside_pixel in_annular_range
  simp only [Bool.and_eq_true, decide_eq_true_eq]

theorem example_annular_radius :
    annular_radius ieee_ops (get_calib_pos ieee_ops example_annular
      (((3 : Nat) : Int) % example_annular.hdr_frm.n_columns)
      (((3 : Nat) : Int) / example_annular.hdr_frm.n_columns)) = 3 ∧
    annular_radius ieee_ops (get_calib_pos ieee_ops example_annular
      (((1 : Nat) : Int) % example_annular.hdr_frm.n_columns)
      (((1 : Nat) : Int) / example_annular.hdr_frm.n_columns)) = 1 := by
  have e3 : ((3 : Nat) : Int) % example_annular.hdr_frm.n_columns = 3 := by decide
  have e1 : ((1 : Nat) : Int) % example_annular.hdr_frm.n_columns = 1 := by decide
  have d3 : ((3 : Nat) : Int) / example_annular.hdr_frm.n_columns = 0 := by decide
  have d1 : ((1 : Nat) : Int) / example_annular.hdr_frm.n_columns = 0 := by decide
  have c0 : ((0 : Int) : ℚ) = 0 := Int.cast_zero
  have c1 : ((1 : Int) : ℚ) = 1 := Int.cast_one
  have c3 : ((3 : Int) : ℚ) = 3 := Int.cast_ofNat 3
  constructor
  · rw [e3, d3, get_calib_pos_default example_annular 3 0 rfl
      (by rw [c3]; exact round_double_three) (by rw [c0]; exact round_double_zero),
      annular_radius_ieee, c3, c0]
    have h9 : (3 : ℚ) * 3 = 9 := by norm_num
    rw [h9, mul_zero, round_double_nine, round_double_zero, add_zero, round_double_nine,
      sqrt_double_nine]
  · rw [e1, d1, get_calib_pos_default example_annular 1 0 rfl
      (by rw [c1]; exact round_double_one) (by rw [c0]; exact round_double_zero),
      annular_radius_ieee, c1, c0]
    rw [mul_one, mul_zero, round_double_one, round_double_zero, add_zero, round_double_one,
      sqrt_double_one]

theorem example_annular_inside :
    inside_pixel ieee_ops example_annular 3 = true ∧
      inside_pixel ieee_ops example_annular 1 = false := by
  have hmin : example_annular.range_annular.min = 2 := rfl
  have hmax : example_annular.range_annular.max = 5 := rfl
  constructor
  · rw [inside_pixel_iff, example_annular_radius.1, hmin, hmax]
    norm_num
  · rw [← Bool.not_eq_true, inside_pixel_iff, example_annular_radius.2, hmin, hmax]
    norm_num

theorem example_annular_edge_inside :
    get_calib_pos ieee_ops example_annular_edge 1 1 = { x := 1, y := 1 } ∧
      annular_radius ieee_ops { x := 1, y := 1 } = 6369051672525773 / 2 ^ 52 ∧
      inside_pixel ieee_ops example_annular_edge 4 = true := by
  have e4 : ((4 : Nat) : Int) % example_annular_edge.hdr_frm.n_columns = 1 := by decide
  have d4 : ((4 : Nat) : Int) / example_annular_edge.hdr_frm.n_columns = 1 := by decide
  have c1 : ((1 : Int) : ℚ) = 1 := Int.cast_one
  have hpos : get_calib_pos ieee_ops example_annular_edge 1 1 = { x := 1, y := 1 } := by
    rw [get_calib_pos_default example_annular_edge 1 1 rfl
      (by rw [c1]; exact round_double_one) (by rw [c1]; exact round_double_one), c1]
  have hrad : annular_radius ieee_ops { x := 1, y := 1 } = 6369051672525773 / 2 ^ 52 := by
    have h2 : (1 : ℚ) + 1 = 2 := by norm_num
    rw [annular_radius_ieee, mul_one, round_double_one, h2, round_double_two, sqrt_double_two]
  have hmin : example_annular_edge.range_annular.min = 6369051672525773 / 2 ^ 52 := rfl
  have hmax : example_annular_edge.range_annular.max = 3 := rfl
  refine ⟨hpos, hrad, ?_⟩
  rw [inside_pixel_iff, e4, d4, hpos, hrad, hmin, hmax]
  norm_num

/-- Claim C13 fails on the code in two ways.  With 3 columns and 0 rows, a geometry with
`columns > 0`, `get_frame_pixel` evaluates `imod(0, 0)` for the first pixel and
`prepare_annular_detector` divides by zero.  On the frame of 3 x 3 pixels with the
calibration of the constructor and the range from 6369051672525773 / 2^52 to 3, the pixel
(1, 1) with the frame index 4 has the position (1, 1) of norm root 2, below `range.min`;
the code compares the `double` root 6369051672525773 / 2^52, which is not below
`range.min`, and sets the mask value 1. -/
theorem annular_mask_spec_counterexample :
    prepare_annular_detector ieee_ops { hdr_frm := { n_columns := 3, n_rows := 0 } } 1
      (some (fun _ => 0)) none none (some {}) = none ∧
    ∃ mask,
      prepare_annular_detector ieee_ops example_annular_edge 9 (some (fun _ => 0)) none none
        (some {}) = some (0, some mask, none, none) ∧
      mask 4 = 1 ∧
      get_calib_pos ieee_ops example_annular_edge 1 1 = { x := 1, y := 1 } ∧
      annular_radius ieee_ops { x := 1, y := 1 } = 6369051672525773 / 2 ^ 52 ∧
      Real.sqrt ((1 : ℝ) * 1 + 1 * 1) < ((example_annular_edge.range_annular.min : ℚ) : ℝ) ∧
      ¬ (((example_annular_edge.range_annular.min : ℚ) : ℝ) ≤ Real.sqrt ((1 : ℝ) * 1 + 1 * 1) ∧
        Real.sqrt ((1 : ℝ) * 1 + 1 * 1) < ((example_annular_edge.range_annular.max : ℚ) : ℝ)) := by
  have hlt : Real.sqrt ((1 : ℝ) * 1 + 1 * 1)
      < ((example_annular_edge.range_annular.min : ℚ) : ℝ) := by
    have hmin : ((example_annular_edge.range_annular.min : ℚ) : ℝ)
        = 6369051672525773 / 2 ^ 52 := by
      simp only [example_annular_edge]
      norm_num
    rw [hmin, Real.sqrt_lt' (by norm_num)]
    norm_num
  refine ⟨rfl, ?_⟩
  obtain ⟨mask, _, _, hrun, hmask, _⟩ :=
    prepare_annular_detector_run ieee_ops example_annular_edge 9 (fun _ => 0) (fun _ => 0) 0 {}
      ⟨by decide, by decide, by decide⟩ (by decide) (by decide)
  refine ⟨mask, hrun, ?_, example_annular_edge_inside.1, example_annular_edge_inside.2.1, hlt,
    fun h => ?_⟩
  · rw [hmask 4, if_pos (by decide), example_annular_edge_inside.2.2]
    rfl
  · exact absurd h.1 (not_le.mpr hlt)

/-- Claim C13, amended: on a frame of columns x rows pixels with `0 < columns <= 2^30`,
`0 < rows <= 2^30` and `columns * rows < 2^31`, for every calibration and annular range and
whatever the rounding of the operations of `double`, `prepare_annular_detector` returns 0
for `0 < nlen <= columns * rows`; the mask value at the frame index i is 1 if
`range.min <= qm < range.max` and 0 otherwise, where qm is the `double` that line 175
computes, `sqrt(q.x*q.x + q.y*q.y)` with each operation rounded, for the calibrated
position q of the pixel (i mod columns, i div columns), itself computed in `double`; the
mask is the same with and without a hash; the hash lists the indices with mask value 1 in
increasing order and `nhash` is their number.  The last part states that for these sizes
the two calls of `imod` inside `get_frame_pixel` give `i mod columns` and `i div columns`
also with the sums of the 32-bit `int`. -/
theorem annular_mask_spec (ops : double_ops) (prm : merlin_params) (nlen : Nat)
    (buf : Nat → ℚ) (hash : Nat → Int) (n0 : Nat) (fh : merlin_frame_hdr)
    (hg : frame_geometry_ok prm) (hcb : prm.hdr_frm.n_columns ≤ 2 ^ 30)
    (hrb : prm.hdr_frm.n_rows ≤ 2 ^ 30) (h0 : 0 < nlen)
    (hn : (nlen : Int) ≤ prm.hdr_frm.n_columns * prm.hdr_frm.n_rows) :
    ∃ mask hash1 nhash,
      prepare_annular_detector ops prm nlen (some buf) (some hash) (some n0) (some fh) =
        some (0, some mask, some hash1, some nhash) ∧
      prepare_annular_detector ops prm nlen (some buf) none none (some fh) =
        some (0, some mask, none, none) ∧
      (∀ i, i < nlen →
        (mask i = 1 ∨ mask i = 0) ∧
        (mask i = 1 ↔
          prm.range_annular.min ≤ annular_radius ops
              (get_calib_pos ops prm ((i : Int) % prm.hdr_frm.n_columns)
                ((i : Int) / prm.hdr_frm.n_columns)) ∧
          annular_radius ops
              (get_calib_pos ops prm ((i : Int) % prm.hdr_frm.n_columns)
                ((i : Int) / prm.hdr_frm.n_columns)) < prm.range_annular.max)) ∧
      (List.range nhash).map hash1 =
        ((List.range nlen).filter (fun i => decide (mask i = 1))).map (fun (i : Nat) => (i : Int)) ∧
      nhash = ((List.range nlen).filter (fun i => decide (mask i = 1))).length ∧
      (∀ i, i < nlen →
        imod_int32 (i : Int) prm.hdr_frm.n_columns = (i : Int) % prm.hdr_frm.n_columns ∧
        imod_int32_eval ((to_int32 ((i : Int) - imod_int32 (i : Int)
          prm.hdr_frm.n_columns)).tdiv prm.hdr_frm.n_columns) prm.hdr_frm.n_rows
            = some ((i : Int) / prm.hdr_frm.n_columns)) := by
  obtain ⟨mask, hash1, hrun1, hrun2, hmask, hlist⟩ :=
    prepare_annular_detector_run ops prm nlen buf hash n0 fh hg h0 hn
  have hfil : (List.range nlen).filter (fun i => decide (mask i = 1))
      = (List.range nlen).filter (inside_pixel ops prm) := by
    apply List.filter_congr
    intro i hi
    rw [List.mem_range] at hi
    rw [hmask i, if_pos hi]
    by_cases hin : inside_pixel ops prm i = true
    · simp [hin]
    · simp [hin]
  refine ⟨mask, hash1, _, hrun1, hrun2, ?_, ?_, ?_, ?_⟩
  rotate_left 3
  · intro i hi
    have hi1 : (i : Int) < nlen := by exact_mod_cast hi
    exact grid_pixel_int32 _ _ (i : Int) hg.1 hcb hg.2.1 hrb (le_of_lt hg.2.2)
      (Int.natCast_nonneg i) (by omega)
  · intro i hi
    have hm := hmask i
    rw [if_pos hi] at hm
    have hins := inside_pixel_iff ops prm i
    rw [← hins]
    by_cases hin : inside_pixel ops prm i = true
    · rw [if_pos hin] at hm
      exact ⟨Or.inl hm, fun _ => hin, fun _ => hm⟩
    · rw [if_neg hin] at hm
      refine ⟨Or.inr hm, fun h => ?_, fun h => absurd h hin⟩
      rw [hm] at h
      exact absurd h (by norm_num)
  · rw [hfil]
    apply List.ext_getElem
    · simp
    · intro m h1 h2
      simp only [List.length_map, List.length_range] at h1
      rw [List.getElem_map, List.getElem_map, List.getElem_range, hlist m h1,
        List.getD_eq_getElem _ _ h1]
  · rw [hfil]

theorem annular_mask_spec_witness :
    frame_geometry_ok example_annular ∧
    ∃ mask hash1 nhash,
      prepare_annular_detector ieee_ops example_annular 100 (some (fun _ => 0))
        (some (fun _ => 0)) (some 0) (some {}) = some (0, some mask, some hash1, some nhash) ∧
      mask 3 = 1 ∧ mask 1 = 0 ∧
      (List.range nhash).map hash1 =
        ((List.range 100).filter (fun i => decide (mask i = 1))).map
          (fun (i : Nat) => (i : Int)) := by
  have hg : frame_geometry_ok example_annular := ⟨by decide, by decide, by decide⟩
  obtain ⟨mask, hash1, nhash, h1, _, h3, h4, _, _⟩ :=
    annular_mask_spec ieee_ops example_annular 100 (fun _ => 0) (fun _ => 0) 0 {} hg
      (by decide) (by decide) (by decide) (by decide)
  refine ⟨hg, mask, hash1, nhash, h1, ?_, ?_, h4⟩
  · exact (h3 3 (by decide)).2.mpr ((inside_pixel_iff _ _ _).mp example_annular_inside.1)
  · rcases (h3 1 (by decide)).1 with h | h
    · have hin := (inside_pixel_iff _ _ _).mpr ((h3 1 (by decide)).2.mp h)
      rw [example_annular_inside.2] at hin
      exact absurd hin (by decide)
    · exact h

theorem filter_sum_mask (l : List Nat) (f m : Nat → ℚ)
    (hm : ∀ j ∈ l, m j = 0 ∨ m j = 1) :
    ((l.filter (fun i => decide (m i = 1))).map (fun j => f j * m j)).sum =
      (l.map (fun j => f j * m j)).sum := by
  induction l with
  | nil => rfl
  | cons j l ih =>
    have ih1 := ih (fun k hk => hm k (List.mem_cons_of_mem j hk))
    rcases hm j (List.mem_cons_self j l) with h | h
    · have hf : (j :: l).filter (fun i => decide (m i = 1))
          = l.filter (fun i => decide (m i = 1)) := by
        simp [List.filter_cons, h]
      rw [hf, List.map_cons, List.sum_cons, ih1, h]
      ring
    · have hf : (j :: l).filter (fun i => decide (m i = 1))
          = j :: l.filter (fun i => decide (m i = 1)) := by
        simp [List.filter_cons, h]
      rw [hf, List.map_cons, List.sum_cons, List.map_cons, List.sum_cons, ih1]

theorem hash_fold_eq_sum (nlen nhash : Nat) (g m : Nat → ℚ) (hash : Nat → Int)
    (hh : hash_of_mask nlen m (some hash) nhash) :
    ((List.range nhash).map (fun i => size_t_of_int (hash i))).foldl
        (fun l j => l + g j * m j) 0 = ((List.range nlen).map (fun i => g i * m i)).sum := by
  obtain ⟨h01, hidx⟩ := hh
  rw [hidx, foldl_add_eq_sum _ (fun j => g j * m j) 0, zero_add]
  exact filter_sum_mask _ g m (fun j hj => h01 j (List.mem_range.mp hj))

theorem sum_annular_range_eq (nlen nhash : Nat) (b m : Nat → ℚ)
    (dethash : Option (Nat → Int)) (r : ℚ) (hh : hash_of_mask nlen m dethash nhash) :
    sum_annular_range nlen (some b) (some m) dethash nhash (some r) =
      (0, some ((List.range nlen).map (fun i => b i * m i)).sum) := by
  have hfull : (List.range nlen).foldl (fun lres i => lres + b i * m i) 0
      = ((List.range nlen).map (fun i => b i * m i)).sum := by
    rw [foldl_add_eq_sum _ (fun i => b i * m i) 0, zero_add]
  unfold sum_annular_range
  simp only
  by_cases h0 : 0 < nlen
  · rw [if_pos h0]
    rcases dethash with _ | hash
    · simp only [hfull]
    · simp only
      by_cases hn : 0 < nhash
      · rw [if_pos hn]
        have := hash_fold_eq_sum nlen nhash b m hash hh
        rw [List.foldl_map] at this
        rw [this]
      · rw [if_neg hn, hfull]
  · rw [if_neg h0]
    have : nlen = 0 := by omega
    subst this
    simp

theorem com_annular_range_eq (nlen nhash : Nat) (b m xs ys : Nat → ℚ)
    (dethash : Option (Nat → Int)) (ref0 rx ry : ℚ)
    (hh : hash_of_mask nlen m dethash nhash) :
    com_annular_range nlen (some b) (some m) (some xs) (some ys) dethash nhash ref0
        (some rx) (some ry) =
      if 0 < nlen ∧ 0 < ref0 then
        some (0, some (((List.range nlen).map (fun i => xs i * b i * m i)).sum / ref0),
          some (((List.range nlen).map (fun i => ys i * b i * m i)).sum / ref0))
      else some (0, some 0, some 0) := by
  unfold com_annular_range
  simp only
  by_cases hc : 0 < nlen ∧ 0 < ref0
  · rw [if_pos hc, if_pos hc]
    have hne : ref0 ≠ 0 := ne_of_gt hc.2
    have hidx : ∀ g : Nat → ℚ,
        (match dethash with
          | some hash =>
            if 0 < nhash then (List.range nhash).map (fun i => size_t_of_int (hash i))
            else List.range nlen
          | none => List.range nlen).foldl (fun l j => l + g j * b j * m j) 0
        = ((List.range nlen).map (fun i => g i * b i * m i)).sum := by
      intro g
      have hfull : (List.range nlen).foldl (fun l j => l + g j * b j * m j) 0
          = ((List.range nlen).map (fun i => g i * b i * m i)).sum := by
        rw [foldl_add_eq_sum _ (fun i => g i * b i * m i) 0, zero_add]
      rcases dethash with _ | hash
      · exact hfull
      · simp only
        by_cases hn : 0 < nhash
        · rw [if_pos hn]
          exact hash_fold_eq_sum nlen nhash (fun j => g j * b j) m hash hh
        · rw [if_neg hn]
          exact hfull
    rw [hidx xs, hidx ys]
    simp [checked_div, hne]
  · rw [if_neg hc, if_neg hc]

theorem mask_sum_count (l : List Nat) (m : Nat → ℚ) (hm : ∀ j ∈ l, m j = 0 ∨ m j = 1) :
    (l.map (fun i => (fun _ => (1 : ℚ)) i * m i)).sum
      = ((l.filter (fun i => decide (m i = 1))).length : ℚ) := by
  rw [← filter_sum_mask l (fun _ => (1 : ℚ)) m hm]
  have hone : ∀ j ∈ l.filter (fun i => decide (m i = 1)),
      (fun _ => (1 : ℚ)) j * m j = 1 := by
    intro j hj
    have := (List.mem_filter.mp hj).2
    rw [decide_eq_true_eq] at this
    rw [this]
    norm_num
  rw [List.map_congr_left hone]
  simp

/-- The mask and the hash that `prepare_annular_detector` produces on a frame belong
together in the sense of `hash_of_mask`. -/
theorem prepare_hash_of_mask (ops : double_ops) (prm : merlin_params) (nlen : Nat)
    (buf : Nat → ℚ) (hash : Nat → Int) (n0 : Nat) (fh : merlin_frame_hdr) (hg : frame_geometry_ok prm)
    (h0 : 0 < nlen) (hn : (nlen : Int) ≤ prm.hdr_frm.n_columns * prm.hdr_frm.n_rows) :
    ∃ mask hash1 nhash,
      prepare_annular_detector ops prm nlen (some buf) (some hash) (some n0) (some fh) =
        some (0, some mask, some hash1, some nhash) ∧
      prepare_annular_detector ops prm nlen (some buf) none none (some fh) =
        some (0, some mask, none, none) ∧
      hash_of_mask nlen mask (some hash1) nhash ∧
      nhash = ((List.range nlen).filter (fun i => decide (mask i = 1))).length := by
  obtain ⟨mask, hash1, hrun1, hrun2, hmask, hlist⟩ :=
    prepare_annular_detector_run ops prm nlen buf hash n0 fh hg h0 hn
  have h01 : ∀ i, i < nlen → mask i = 0 ∨ mask i = 1 := by
    intro i hi
    rw [hmask i, if_pos hi]
    by_cases hin : inside_pixel ops prm i = true
    · rw [if_pos hin]
      exact Or.inr rfl
    · rw [if_neg hin]
      exact Or.inl rfl
  have hfil : (List.range nlen).filter (fun i => decide (mask i = 1))
      = (List.range nlen).filter (inside_pixel ops prm) := by
    apply List.filter_congr
    intro i hi
    rw [List.mem_range] at hi
    rw [hmask i, if_pos hi]
    by_cases hin : inside_pixel ops prm i = true
    · simp [hin]
    · simp [hin]
  refine ⟨mask, hash1, _, hrun1, hrun2, ⟨h01, ?_⟩, by rw [hfil]⟩
  rw [hfil]
  apply List.ext_getElem
  · simp
  · intro k h1 h2
    simp only [List.length_map, List.length_range] at h1
    rw [List.getElem_map, List.getElem_range, hlist k h1, List.getD_eq_getElem _ _ h1]
    apply size_t_of_nat
    have hmem := List.getElem_mem h2
    have hlt := List.mem_range.mp (List.mem_filter.mp hmem).1
    have h31 : (nlen : Int) < 2 ^ 31 := lt_of_le_of_lt hn hg.2.2
    have : nlen < 2 ^ 31 := by exact_mod_cast h31
    omega

/-- Claim C14: for the mask and the hash that `prepare_annular_detector` produces on a frame
of `nlen > 0` pixels, `sum_annular_range` on the buffer with the value 1 at every pixel
returns the number of pixels with the mask value 1, which is `nhash`, with the hash and
without it. -/
theorem sum_all_ones (ops : double_ops) (prm : merlin_params) (nlen : Nat)
    (buf : Nat → ℚ) (hash : Nat → Int) (n0 : Nat) (fh : merlin_frame_hdr) (r : ℚ)
    (hg : frame_geometry_ok prm) (h0 : 0 < nlen)
    (hn : (nlen : Int) ≤ prm.hdr_frm.n_columns * prm.hdr_frm.n_rows) :
    ∃ mask hash1 nhash,
      prepare_annular_detector ops prm nlen (some buf) (some hash) (some n0) (some fh) =
        some (0, some mask, some hash1, some nhash) ∧
      nhash = ((List.range nlen).filter (fun i => decide (mask i = 1))).length ∧
      sum_annular_range nlen (some (fun _ => 1)) (some mask) (some hash1) nhash (some r) =
        (0, some (nhash : ℚ)) ∧
      sum_annular_range nlen (some (fun _ => 1)) (some mask) none 0 (some r) =
        (0, some (nhash : ℚ)) := by
  obtain ⟨mask, hash1, nhash, hrun1, _, hh, hcount⟩ :=
    prepare_hash_of_mask ops prm nlen buf hash n0 fh hg h0 hn
  have hsum := mask_sum_count (List.range nlen) mask
    (fun j hj => hh.1 j (List.mem_range.mp hj))
  rw [← hcount] at hsum
  refine ⟨mask, hash1, nhash, hrun1, hcount, ?_, ?_⟩
  · rw [sum_annular_range_eq nlen nhash _ mask (some hash1) r hh, hsum]
  · rw [sum_annular_range_eq nlen 0 _ mask none r trivial, hsum]

/-- Claim C16: for a buffer, a mask and coordinate arrays on `nlen > 0` pixels, without a
hash or with a hash that belongs to the mask, and S the sum that `sum_annular_range`
returns: `com_annular_range` with `ref0 = S` returns, without a division by zero, the sums
of `x[i]*buf[i]*mask[i]` and of `y[i]*buf[i]*mask[i]` divided by S when S > 0, and (0, 0)
when S <= 0; for the buffer of zeros S is 0 and the centre of mass is (0, 0). -/
theorem center_of_mass_spec (nlen nhash : Nat) (b m xs ys : Nat → ℚ)
    (dethash : Option (Nat → Int)) (r rx ry : ℚ) (h0 : 0 < nlen)
    (hh : hash_of_mask nlen m dethash nhash) :
    sum_annular_range nlen (some b) (some m) dethash nhash (some r) =
      (0, some ((List.range nlen).map (fun i => b i * m i)).sum) ∧
    com_annular_range nlen (some b) (some m) (some xs) (some ys) dethash nhash
        ((List.range nlen).map (fun i => b i * m i)).sum (some rx) (some ry) =
      some (0,
        some (if 0 < ((List.range nlen).map (fun i => b i * m i)).sum then
          ((List.range nlen).map (fun i => xs i * b i * m i)).sum /
            ((List.range nlen).map (fun i => b i * m i)).sum else 0),
        some (if 0 < ((List.range nlen).map (fun i => b i * m i)).sum then
          ((List.range nlen).map (fun i => ys i * b i * m i)).sum /
            ((List.range nlen).map (fun i => b i * m i)).sum else 0)) ∧
    sum_annular_range nlen (some (fun _ => 0)) (some m) dethash nhash (some r) = (0, some 0) ∧
    com_annular_range nlen (some (fun _ => 0)) (some m) (some xs) (some ys) dethash nhash 0
        (some rx) (some ry) = some (0, some 0, some 0) := by
  refine ⟨sum_annular_range_eq nlen nhash b m dethash r hh, ?_, ?_, ?_⟩
  · rw [com_annular_range_eq nlen nhash b m xs ys dethash _ rx ry hh]
    by_cases hS : 0 < ((List.range nlen).map (fun i => b i * m i)).sum
    · rw [if_pos ⟨h0, hS⟩, if_pos hS, if_pos hS]
    · rw [if_neg (fun h => hS h.2), if_neg hS, if_neg hS]
  · rw [sum_annular_range_eq nlen nhash _ m dethash r hh]
    simp
  · rw [com_annular_range_eq nlen nhash _ m xs ys dethash 0 rx ry hh]
    simp

theorem example_annular_geometry : frame_geometry_ok example_annular :=
  ⟨by decide, by decide, by decide⟩

theorem sum_all_ones_witness :
    frame_geometry_ok example_annular ∧
    ∃ mask hash1 nhash,
      prepare_annular_detector ieee_ops example_annular 100 (some (fun _ => 0)) (some (fun _ => 0))
        (some 0) (some {}) = some (0, some mask, some hash1, some nhash) ∧
      nhash = ((List.range 100).filter (fun i => decide (mask i = 1))).length ∧
      sum_annular_range 100 (some (fun _ => 1)) (some mask) (some hash1) nhash (some 0) =
        (0, some (nhash : ℚ)) ∧
      sum_annular_range 100 (some (fun _ => 1)) (some mask) none 0 (some 0) =
        (0, some (nhash : ℚ)) :=
  ⟨example_annular_geometry,
    sum_all_ones ieee_ops example_annular 100 (fun _ => 0) (fun _ => 0) 0 {} 0
      example_annular_geometry (by decide) (by decide)⟩

theorem center_of_mass_spec_witness :
    hash_of_mask 3 (fun _ => 1) none 0 ∧
    sum_annular_range 3 (some (fun (i : Nat) => (i : ℚ))) (some (fun _ => 1)) none 0 (some 0) =
      (0, some 3) ∧
    com_annular_range 3 (some (fun (i : Nat) => (i : ℚ))) (some (fun _ => 1))
        (some (fun (i : Nat) => (i : ℚ))) (some (fun _ => 2)) none 0 3 (some 0) (some 0) =
      some (0, some (5 / 3), some 2) ∧
    com_annular_range 3 (some (fun _ => 0)) (some (fun _ => 1))
        (some (fun (i : Nat) => (i : ℚ))) (some (fun _ => 2)) none 0 0 (some 0) (some 0) =
      some (0, some 0, some 0) := by
  have h := center_of_mass_spec 3 0 (fun (i : Nat) => (i : ℚ)) (fun _ => 1) (fun (i : Nat) => (i : ℚ))
    (fun _ => 2) none 0 0 0 (by decide) trivial
  have hS : ((List.range 3).map (fun (i : Nat) => (fun (i : Nat) => (i : ℚ)) i * (fun _ => (1 : ℚ)) i)).sum
      = 3 := by
    norm_num [List.range_succ]
  have hX : ((List.range 3).map (fun (i : Nat) =>
      (fun (i : Nat) => (i : ℚ)) i * (fun (i : Nat) => (i : ℚ)) i * (fun _ => (1 : ℚ)) i)).sum = 5 := by
    norm_num [List.range_succ]
  have hY : ((List.range 3).map (fun (i : Nat) =>
      (fun _ => (2 : ℚ)) i * (fun (i : Nat) => (i : ℚ)) i * (fun _ => (1 : ℚ)) i)).sum = 6 := by
    norm_num [List.range_succ]
  rw [hS, hX, hY] at h
  obtain ⟨h1, h2, _, h4⟩ := h
  refine ⟨trivial, h1, ?_, h4⟩
  rw [h2]
  norm_num

/-! ## Theorems of section 8 -/

theorem read_header_start_ok (fin fin1 : ifstream) (ipos : Int) (cbuf str_tmp : List Char)
    (h : read_header_start fin = some (Except.ok (fin1, ipos, cbuf, str_tmp))) :
    fin.failbit = false ∧ fin.eofbit = false ∧ fin.pos + 128 ≤ fin.data.length ∧
      fin1 = { fin with pos := fin.pos + 128 } ∧ ipos = (fin.pos : Int) := by
  obtain ⟨data, is_open, pos, failbit, eofbit⟩ := fin
  unfold read_header_start at h
  by_cases hgood : failbit = false ∧ eofbit = false
  · obtain ⟨hf, he⟩ := hgood
    subst hf he
    by_cases hlen : pos + 128 ≤ data.length
    · simp [ifstream.tellg, ifstream.read, ifstream.good, hlen] at h
      obtain ⟨_, _, h1, h2, _⟩ := h
      exact ⟨rfl, rfl, hlen, h1.symm, h2.symm⟩
    · simp [ifstream.tellg, ifstream.read, ifstream.good, hlen] at h
  · have hbad : (!failbit && !eofbit) = false := by
      cases failbit <;> cases eofbit <;> simp at hgood ⊢
    simp [ifstream.tellg, ifstream.good, hbad] at h

theorem read_header_full_ok (fin : ifstream) (cbuf : List Char) (nhdr : Int)
    (hf : fin.failbit = false) (he : fin.eofbit = false) (h0 : 0 < nhdr) (h1 : nhdr ≤ 2048)
    (hlen : fin.pos + nhdr.toNat ≤ fin.data.length) :
    read_header_full { fin with pos := fin.pos + 128 } (fin.pos : Int) cbuf nhdr =
      (c_string (store cbuf ((fin.data.drop fin.pos).take nhdr.toNat))).map
        (fun s => Except.ok ({ fin with pos := fin.pos + nhdr.toNat }, s)) := by
  obtain ⟨data, is_open, pos, failbit, eofbit⟩ := fin
  simp only at hf he hlen
  subst hf he
  have hneg : ¬ ((pos : Int) < 0) := by omega
  unfold read_header_full
  simp [ifstream.seekg, ifstream.read, ifstream.good, h0, h1, hlen, hneg]

theorem seek_header_end_ok (fin : ifstream) (nhdr : Int) (hdr : Option merlin_frame_hdr)
    (hf : fin.failbit = false) (he : fin.eofbit = false) (h0 : 0 < nhdr) :
    seek_header_end { fin with pos := fin.pos + nhdr.toNat } (fin.pos : Int) nhdr hdr =
      (0, some { fin with pos := fin.pos + nhdr.toNat }, hdr) := by
  obtain ⟨data, is_open, pos, failbit, eofbit⟩ := fin
  simp only at hf he
  subst hf he
  have hneg : ¬ ((pos : Int) + nhdr < 0) := by omega
  have hpos : ((pos : Int) + nhdr).toNat = pos + nhdr.toNat := by omega
  unfold seek_header_end
  simp [ifstream.seekg, hneg, hpos]

/-- Claim C20: for an open stream at the position `start` whose first three fields
pre-parse and declare a header length L with 0 < L <= 2048, and from which L characters can
be read at `start`, `merlin_read_frame_header` returns no code other than 0 and 5, and with
either code it leaves the stream in a good state at the position `start + L`. -/
theorem frame_header_stream_position (fin : ifstream) (pfhdr : Option merlin_frame_hdr)
    (pp : pre_parsed) (hopen : fin.is_open = true)
    (hpre : pre_parsed_header fin pfhdr = some pp) (h0 : 0 < pp.nhdr) (h1 : pp.nhdr ≤ 2048)
    (hlen : fin.pos + pp.nhdr.toNat ≤ fin.data.length) :
    ∀ r f h, merlin_read_frame_header (some fin) pfhdr = some (r, f, h) →
      (r = 0 ∨ r = 5) ∧ f = some { fin with pos := fin.pos + pp.nhdr.toNat } ∧
        ifstream.tellg { fin with pos := fin.pos + pp.nhdr.toNat } =
          ({ fin with pos := fin.pos + pp.nhdr.toNat }, (fin.pos : Int) + pp.nhdr) := by
  intro r f h hrun
  unfold pre_parsed_header at hpre
  rcases hstart : read_header_start fin with _ | ⟨e | ⟨fin1, ipos, cbuf, str_tmp⟩⟩
  · rw [hstart] at hpre
    exact absurd hpre (by simp)
  · rw [hstart] at hpre
    exact absurd hpre (by simp)
  · rw [hstart] at hpre
    simp only at hpre
    rcases hp : pre_parse str_tmp pfhdr with _ | ⟨e | pp1⟩
    · rw [hp] at hpre
      exact absurd hpre (by simp)
    · rw [hp] at hpre
      exact absurd hpre (by simp)
    · rw [hp] at hpre
      simp only [Option.some.injEq] at hpre
      subst hpre
      obtain ⟨hf, he, _, hfin1, hipos⟩ := read_header_start_ok fin fin1 ipos cbuf str_tmp hstart
      subst hfin1 hipos
      have htell : ifstream.tellg { fin with pos := fin.pos + pp1.nhdr.toNat } =
          ({ fin with pos := fin.pos + pp1.nhdr.toNat }, (fin.pos : Int) + pp1.nhdr) := by
        have : ((fin.pos + pp1.nhdr.toNat : Nat) : Int) = (fin.pos : Int) + pp1.nhdr := by
          omega
        simp [ifstream.tellg, ifstream.good, hf, he, this]
      unfold merlin_read_frame_header at hrun
      simp only at hrun
      rw [if_pos hopen, hstart] at hrun
      simp only [hp] at hrun
      rw [read_header_full_ok fin cbuf pp1.nhdr hf he h0 h1 hlen] at hrun
      rcases hc : c_string (store cbuf ((fin.data.drop fin.pos).take pp1.nhdr.toNat))
        with _ | str_full
      · rw [hc] at hrun
        exact absurd hrun (by simp)
      · rw [hc] at hrun
        simp only [Option.map_some'] at hrun
        rcases hh : pp1.hdr with _ | hdr
        · rw [hh] at hrun
          simp only [seek_header_end_ok fin pp1.nhdr none hf he h0, Option.some.injEq,
            Prod.mk.injEq] at hrun
          exact ⟨Or.inl hrun.1.symm, hrun.2.1.symm, htell⟩
        · rw [hh] at hrun
          simp only at hrun
          rcases hpf : parse_fields str_full pp1.ihpos pp1.str_num pp1.nhdr hdr
            with _ | ⟨e | h2⟩
          · rw [hpf] at hrun
            exact absurd hrun (by simp)
          · rw [hpf] at hrun
            simp only [Option.some.injEq, Prod.mk.injEq] at hrun
            exact ⟨Or.inr hrun.1.symm, hrun.2.1.symm, htell⟩
          · rw [hpf] at hrun
            simp only [seek_header_end_ok fin pp1.nhdr (some h2) hf he h0, Option.some.injEq,
              Prod.mk.injEq] at hrun
            exact ⟨Or.inl hrun.1.symm, hrun.2.1.symm, htell⟩

theorem frame_header_stream_position_witness :
    (example_frame_file "00020" 256).is_open = true ∧
    pre_parsed_header (example_frame_file "00020" 256) (some {}) =
      some { ihpos := 17, str_num := "00020".toList, nhdr := 20
             hdr := some { s_hid := "MQ1".toList, i_seq := 0, n_size := 20 } } ∧
    (∀ r f h, merlin_read_frame_header (some (example_frame_file "00020" 256)) (some {})
        = some (r, f, h) →
      (r = 0 ∨ r = 5) ∧ f = some { example_frame_file "00020" 256 with pos := 0 + 20 } ∧
        ifstream.tellg { example_frame_file "00020" 256 with pos := 0 + 20 } =
          ({ example_frame_file "00020" 256 with pos := 0 + 20 }, ((0 : Nat) : Int) + 20)) ∧
    (merlin_read_frame_header (some (example_frame_file "00020" 256)) (some {})).map
      (fun r => (r.1, r.2.1.map (fun f => (f.pos, f.good)))) = some (5, some (20, true)) ∧
    (merlin_read_frame_header (some (example_frame_file "00128" 256)) (some {})).map
      (fun r => (r.1, r.2.1.map (fun f => (f.pos, f.good)))) = some (0, some (128, true)) :=
  ⟨rfl, by decide,
    frame_header_stream_position (example_frame_file "00020" 256) (some {})
      { ihpos := 17, str_num := "00020".toList, nhdr := 20
        hdr := some { s_hid := "MQ1".toList, i_seq := 0, n_size := 20 } }
      rfl (by decide) (by decide) (by decide) (by decide),
    by decide, by decide⟩

theorem pre_parsed_header_some (fin : ifstream) (pfhdr : Option merlin_frame_hdr)
    (pp : pre_parsed) (hpre : pre_parsed_header fin pfhdr = some pp) :
    ∃ fin1 ipos cbuf str_tmp,
      read_header_start fin = some (Except.ok (fin1, ipos, cbuf, str_tmp)) ∧
      pre_parse str_tmp pfhdr = some (Except.ok pp) := by
  unfold pre_parsed_header at hpre
  rcases hstart : read_header_start fin with _ | ⟨e | ⟨fin1, ipos, cbuf, str_tmp⟩⟩
  · rw [hstart] at hpre
    exact absurd hpre (by simp)
  · rw [hstart] at hpre
    exact absurd hpre (by simp)
  · rw [hstart] at hpre
    simp only at hpre
    rcases hp : pre_parse str_tmp pfhdr with _ | ⟨e | pp1⟩
    · rw [hp] at hpre
      exact absurd hpre (by simp)
    · rw [hp] at hpre
      exact absurd hpre (by simp)
    · rw [hp] at hpre
      simp only [Option.some.injEq] at hpre
      subst hpre
      exact ⟨fin1, ipos, cbuf, str_tmp, rfl, hp⟩

theorem seek_header_end_code (fin : ifstream) (ipos nhdr : Int)
    (hdr : Option merlin_frame_hdr) :
    (seek_header_end fin ipos nhdr hdr).1 = 0 ∨ (seek_header_end fin ipos nhdr hdr).1 = 16 := by
  unfold seek_header_end
  split
  · exact Or.inr rfl
  · exact Or.inl rfl

theorem read_header_full_codes (fin : ifstream) (ipos : Int) (cbuf : List Char) (nhdr : Int)
    (h0 : 0 < nhdr) (h1 : nhdr ≤ 2048) (code : Int) (f : ifstream)
    (h : read_header_full fin ipos cbuf nhdr = some (Except.error (code, f))) :
    code = 14 ∨ code = 15 := by
  unfold read_header_full at h
  rw [if_pos ⟨h0, h1⟩] at h
  by_cases ha : (fin.seekg ipos).failbit = true
  · rw [if_pos ha] at h
    simp only [Option.some.injEq, Except.error.injEq, Prod.mk.injEq] at h
    exact Or.inl h.1.symm
  · rw [if_neg ha] at h
    by_cases hb : (((fin.seekg ipos).read nhdr.toNat).1).failbit = true
    · rw [if_pos hb] at h
      simp only [Option.some.injEq, Except.error.injEq, Prod.mk.injEq] at h
      exact Or.inr h.1.symm
    · rw [if_neg hb] at h
      rcases hc : c_string (store cbuf ((fin.seekg ipos).read nhdr.toNat).2) with _ | s
      · rw [hc] at h
        exact absurd h (by simp)
      · rw [hc] at h
        exact absurd h (by simp)

/-- The return codes of `merlin_read_frame_header` after a pre-parse that declares a header
length within the bounds. -/
theorem frame_header_codes_in_range (fin : ifstream) (pfhdr : Option merlin_frame_hdr)
    (pp : pre_parsed) (hopen : fin.is_open = true)
    (hpre : pre_parsed_header fin pfhdr = some pp) (h0 : 0 < pp.nhdr) (h1 : pp.nhdr ≤ 2048) :
    ∀ r, merlin_read_frame_header (some fin) pfhdr = some r →
      r.1 = 0 ∨ r.1 = 5 ∨ r.1 = 14 ∨ r.1 = 15 ∨ r.1 = 16 := by
  intro r hrun
  obtain ⟨fin1, ipos, cbuf, str_tmp, hstart, hp⟩ := pre_parsed_header_some fin pfhdr pp hpre
  unfold merlin_read_frame_header at hrun
  simp only at hrun
  rw [if_pos hopen, hstart] at hrun
  simp only [hp] at hrun
  rcases hfull : read_header_full fin1 ipos cbuf pp.nhdr with _ | ⟨⟨code, f⟩ | ⟨fin2, str_full⟩⟩
  · rw [hfull] at hrun
    exact absurd hrun (by simp)
  · rw [hfull] at hrun
    simp only [Option.some.injEq] at hrun
    rw [← hrun]
    rcases read_header_full_codes fin1 ipos cbuf pp.nhdr h0 h1 code f hfull with h | h
    · exact Or.inr (Or.inr (Or.inl h))
    · exact Or.inr (Or.inr (Or.inr (Or.inl h)))
  · rw [hfull] at hrun
    simp only at hrun
    rcases hh : pp.hdr with _ | hdr
    · rw [hh] at hrun
      simp only [Option.some.injEq] at hrun
      rw [← hrun]
      rcases seek_header_end_code fin2 ipos pp.nhdr none with h | h
      · exact Or.inl h
      · exact Or.inr (Or.inr (Or.inr (Or.inr h)))
    · rw [hh] at hrun
      simp only at hrun
      rcases hpf : parse_fields str_full pp.ihpos pp.str_num pp.nhdr hdr with _ | ⟨e | h2⟩
      · rw [hpf] at hrun
        exact absurd hrun (by simp)
      · rw [hpf] at hrun
        simp only [Option.some.injEq] at hrun
        rw [← hrun]
        exact Or.inr (Or.inl rfl)
      · rw [hpf] at hrun
        simp only [Option.some.injEq] at hrun
        rw [← hrun]
        rcases seek_header_end_code fin2 ipos pp.nhdr (some h2) with h | h
        · exact Or.inl h
        · exact Or.inr (Or.inr (Or.inr (Or.inr h)))

/-- The result of `merlin_read_frame_header` after a pre-parse that declares a header length
outside the bounds: the code 4, with the stream behind the first 128 characters. -/
theorem frame_header_code_out_of_range (fin : ifstream) (pfhdr : Option merlin_frame_hdr)
    (pp : pre_parsed) (hopen : fin.is_open = true)
    (hpre : pre_parsed_header fin pfhdr = some pp) (h : pp.nhdr ≤ 0 ∨ 2048 < pp.nhdr) :
    merlin_read_frame_header (some fin) pfhdr =
      some (4, some { fin with pos := fin.pos + 128 }, pp.hdr) := by
  obtain ⟨fin1, ipos, cbuf, str_tmp, hstart, hp⟩ := pre_parsed_header_some fin pfhdr pp hpre
  obtain ⟨_, _, _, hfin1, _⟩ := read_header_start_ok fin fin1 ipos cbuf str_tmp hstart
  subst hfin1
  have hneg : ¬ (0 < pp.nhdr ∧ pp.nhdr ≤ 2048) := by omega
  unfold merlin_read_frame_header
  simp only
  rw [if_pos hopen, hstart]
  simp only [hp]
  unfold read_header_full
  rw [if_neg hneg]

/-- Claim C21: for an open stream whose first 128 characters pre-parse, with the declared
header length L, `merlin_read_frame_header` returns the code 4 if and only if L <= 0 or
L > 2048; then it does return 4, and for 0 < L <= 2048 no result has the code 4. -/
theorem header_size_validation (fin : ifstream) (pfhdr : Option merlin_frame_hdr)
    (pp : pre_parsed) (hopen : fin.is_open = true)
    (hpre : pre_parsed_header fin pfhdr = some pp) :
    ((∃ f h, merlin_read_frame_header (some fin) pfhdr = some (4, f, h)) ↔
      (pp.nhdr ≤ 0 ∨ 2048 < pp.nhdr)) ∧
    (0 < pp.nhdr ∧ pp.nhdr ≤ 2048 →
      ∀ r, merlin_read_frame_header (some fin) pfhdr = some r → r.1 ≠ 4) := by
  have hin : 0 < pp.nhdr ∧ pp.nhdr ≤ 2048 →
      ∀ r, merlin_read_frame_header (some fin) pfhdr = some r → r.1 ≠ 4 := by
    intro hr r hrun
    have := frame_header_codes_in_range fin pfhdr pp hopen hpre hr.1 hr.2 r hrun
    omega
  refine ⟨⟨?_, ?_⟩, hin⟩
  · intro hex
    obtain ⟨f, h, hrun⟩ := hex
    by_contra hcon
    exact hin (by omega) _ hrun rfl
  · intro hout
    exact ⟨_, _, frame_header_code_out_of_range fin pfhdr pp hopen hpre hout⟩

theorem header_size_validation_witness :
    (example_frame_file "04096" 256).is_open = true ∧
    pre_parsed_header (example_frame_file "04096" 256) (some {}) =
      some { ihpos := 17, str_num := "04096".toList, nhdr := 4096
             hdr := some { s_hid := "MQ1".toList, i_seq := 0, n_size := 4096 } } ∧
    ((∃ f h, merlin_read_frame_header (some (example_frame_file "04096" 256)) (some {})
        = some (4, f, h)) ↔ ((4096 : Int) ≤ 0 ∨ (2048 : Int) < 4096)) ∧
    (merlin_read_frame_header (some (example_frame_file "04096" 256)) (some {})).map
      (fun r => r.1) = some 4 ∧
    (merlin_read_frame_header (some (example_frame_file "00000" 256)) (some {})).map
      (fun r => r.1) = some 4 ∧
    (merlin_read_frame_header (some (example_frame_file "00256" 512)) (some {})).map
      (fun r => r.1) = some 0 :=
  ⟨rfl, by decide,
    (header_size_validation (example_frame_file "04096" 256) (some {})
      { ihpos := 17, str_num := "04096".toList, nhdr := 4096
        hdr := some { s_hid := "MQ1".toList, i_seq := 0, n_size := 4096 } }
      rfl (by decide)).1,
    by decide, by decide, by decide⟩

theorem skip_separators_run (lmpos : Nat) (n : Nat) (c : Char) (r : List Char) (p : Nat)
    (hc : c ≠ ',') (hb : p + n ≤ lmpos) :
    skip_separators lmpos (List.replicate n ',' ++ c :: r) p = some (p + n) := by
  induction n generalizing p with
  | zero => simp [skip_separators, hc]
  | succ n ih =>
    have hp : p < lmpos := by omega
    have hstep : skip_separators lmpos (List.replicate (n + 1) ',' ++ c :: r) p
        = skip_separators lmpos (List.replicate n ',' ++ c :: r) (p + 1) := by
      show skip_separators lmpos (',' :: (List.replicate n ',' ++ c :: r)) p = _
      simp only [skip_separators, hp, and_self, if_true]
    rw [hstep, ih (p + 1) (by omega)]
    congr 1
    omega

/-- Claim C23, amended: on a token of length 0 or 1 that is followed by a run of commas and
then a character that is not a comma, `merlin_read_frame_header_param` leaves the captured
value as it was before the call and returns the position of the first character after the
run of commas. -/
theorem short_token_keeps_value (pre t : List Char) (n : Nat) (c : Char) (r prm : List Char)
    (hlen : t.length ≤ 1) (ht : ',' ∉ t) (hc : c ≠ ',') :
    merlin_read_frame_header_param (pre.length : Int)
        (pre ++ t ++ List.replicate (n + 1) ',' ++ c :: r) prm
      = some (((pre.length + t.length + (n + 1) : Nat) : Int), prm) := by
  unfold merlin_read_frame_header_param
  simp only [Int.toNat_ofNat, List.append_assoc, List.drop_left]
  have hrep : List.replicate (n + 1) ',' ++ c :: r
      = ',' :: (List.replicate n ',' ++ c :: r) := rfl
  rw [hrep, scan_to_separator_token _ t _ pre.length ht (by simp)]
  have h1 : ¬ (pre.length + t.length - pre.length > 1) := by omega
  simp only [h1, if_false]
  have hd : List.drop (pre.length + t.length)
      (pre ++ (t ++ ',' :: (List.replicate n ',' ++ c :: r)))
      = List.replicate (n + 1) ',' ++ c :: r := by
    rw [← List.append_assoc]
    have hl : pre.length + t.length = (pre ++ t).length := by simp
    rw [hl, List.drop_left]
    rfl
  rw [hd, skip_separators_run _ (n + 1) c r _ hc (by simp; omega)]

theorem short_token_keeps_value_witness :
    merlin_read_frame_header_param (("MQ1,".toList).length : Int)
        ("MQ1,".toList ++ "7".toList ++ List.replicate (0 + 1) ',' ++ '0' :: "0384,".toList)
        "MQ1".toList
      = some (((("MQ1,".toList).length + ("7".toList).length + (0 + 1) : Nat) : Int),
          "MQ1".toList) :=
  short_token_keeps_value "MQ1,".toList "7".toList 0 '0' "0384,".toList "MQ1".toList
    (by decide) (by decide) (by decide)

/-- Claim C23 as stated fails: on the string "a,bc" at position 0, where the token "a" has
one character, the scanner called with the captured value "xy" returns the position 2 and
leaves the captured value "xy"; it does not set it to the empty string. -/
theorem short_token_keeps_value_counterexample :
    merlin_read_frame_header_param 0 "a,bc".toList "xy".toList = some (2, "xy".toList) ∧
    merlin_read_frame_header_param 0 "a,bc".toList "xy".toList ≠ some (2, []) ∧
    merlin_read_frame_header_param 0 ",bc".toList "xy".toList = some (1, "xy".toList) := by
  decide

theorem read_param_in_text (nmax : Int) (pre t : List Char) (c : Char) (r prm : List Char)
    (hlen : 2 ≤ t.length) (ht : ',' ∉ t) (hc : c ≠ ',')
    (hmax : ((pre.length + t.length + 1 : Nat) : Int) < nmax) :
    read_param nmax (pre ++ t ++ ',' :: c :: r) (pre.length : Int) prm
      = some (some (((pre.length + t.length + 1 : Nat) : Int), t)) := by
  unfold read_param
  rw [read_param_token pre t c r prm hlen ht hc]
  have h : ¬ ((((pre.length + t.length + 1 : Nat) : Int) < 0) ∨
      nmax ≤ ((pre.length + t.length + 1 : Nat) : Int)) := by omega
  simp only [Option.map_some', h, if_false]

theorem join_fields_cons (t u : List Char) (ts : List (List Char)) :
    join_fields (t :: u :: ts) = t ++ ',' :: join_fields (u :: ts) := rfl

/-- One call of the scanner with the position test behind it, at the start of field `i` of
a string that starts with comma separated fields of at least two characters each. -/
theorem read_param_field (toks : List (List Char)) (c : Char) (extra : List Char)
    (htok : ∀ t ∈ toks, 2 ≤ t.length ∧ ',' ∉ t) (hc : c ≠ ',') (nmax : Int) :
    ∀ (pre : List Char) (i : Nat) (prm : List Char) (hi : i < toks.length),
      ((pre.length + field_start toks (i + 1) : Nat) : Int) < nmax →
      read_param nmax (pre ++ join_fields toks ++ ',' :: c :: extra)
          ((pre.length + field_start toks i : Nat) : Int) prm
        = some (some (((pre.length + field_start toks (i + 1) : Nat) : Int),
            toks.get ⟨i, hi⟩)) := by
  induction toks with
  | nil =>
    intro pre i prm hi
    exact absurd hi (by simp)
  | cons t ts ih =>
    intro pre i prm hi hmax
    obtain ⟨hlen, hcomma⟩ := htok t (List.mem_cons_self t ts)
    have htok1 : ∀ u ∈ ts, 2 ≤ u.length ∧ ',' ∉ u :=
      fun u hu => htok u (List.mem_cons_of_mem t hu)
    rcases i with _ | i
    · have hs0 : field_start (t :: ts) 0 = 0 := rfl
      have hs1 : field_start (t :: ts) (0 + 1) = t.length + 1 := by simp [field_start]
      rw [hs1] at hmax
      rw [hs0, hs1, Nat.add_zero]
      rcases ts with _ | ⟨u, us⟩
      · simp only [join_fields]
        have := read_param_in_text nmax pre t c extra prm hlen hcomma hc (by omega)
        simpa [Nat.add_assoc] using this
      · obtain ⟨hlenu, hcommau⟩ := htok1 u (List.mem_cons_self u us)
        rcases u with _ | ⟨cu, u1⟩
        · simp at hlenu
        · have hcu : cu ≠ ',' := fun h => hcommau (by simp [h])
          have hstr : pre ++ join_fields (t :: (cu :: u1) :: us) ++ ',' :: c :: extra
              = pre ++ t ++ ',' :: cu :: (u1 ++ (join_fields ((cu :: u1) :: us)).drop (u1.length + 1)
                  ++ ',' :: c :: extra) := by
            rw [join_fields_cons]
            rcases us with _ | ⟨v, vs⟩
            · simp [join_fields]
            · rw [join_fields_cons]
              simp
          rw [hstr]
          have := read_param_in_text nmax pre t cu
            (u1 ++ (join_fields ((cu :: u1) :: us)).drop (u1.length + 1) ++ ',' :: c :: extra)
            prm hlen hcomma hcu (by omega)
          simpa [Nat.add_assoc] using this
    · have hi1 : i < ts.length := by
        simp only [List.length_cons] at hi
        omega
      rcases ts with _ | ⟨u, us⟩
      · simp at hi1
      · have hsk : ∀ k, field_start (t :: u :: us) (k + 1)
            = t.length + 1 + field_start (u :: us) k := by
          intro k
          simp [field_start]
        rw [hsk i, hsk (i + 1)] at *
        have hstr : pre ++ join_fields (t :: u :: us) ++ ',' :: c :: extra
            = (pre ++ t ++ [',']) ++ join_fields (u :: us) ++ ',' :: c :: extra := by
          rw [join_fields_cons]
          simp
        have hpl : (pre ++ t ++ [',']).length = pre.length + t.length + 1 := by
          simp only [List.length_append, List.length_singleton]
        have := ih htok1 (pre ++ t ++ [',']) i prm hi1 (by rw [hpl]; omega)
        rw [hpl] at this
        rw [hstr]
        have e1 : pre.length + (t.length + 1 + field_start (u :: us) i)
            = pre.length + t.length + 1 + field_start (u :: us) i := by omega
        have e2 : pre.length + (t.length + 1 + field_start (u :: us) (i + 1))
            = pre.length + t.length + 1 + field_start (u :: us) (i + 1) := by omega
        rw [e1, e2, this]
        rfl

theorem takeWhile_append_clean (p : Char → Bool) (a b : List Char)
    (ha : ∀ x ∈ a, p x = true) : (a ++ b).takeWhile p = a ++ b.takeWhile p := by
  induction a with
  | nil => rfl
  | cons x a ih =>
    have hx := ha x (List.mem_cons_self x a)
    rw [List.cons_append, List.takeWhile_cons, if_pos hx,
      ih (fun y hy => ha y (List.mem_cons_of_mem x hy)), List.cons_append]

theorem takeWhile_zero_tail (x : List Char) (k : Nat) :
    (x ++ List.replicate (k + 1) nul_char).takeWhile (fun c => c != nul_char)
      = x.takeWhile (fun c => c != nul_char) := by
  induction x with
  | nil =>
    simp [List.replicate_succ, List.takeWhile_cons]
  | cons a x ih =>
    rw [List.cons_append, List.takeWhile_cons, List.takeWhile_cons, ih]

theorem c_string_zero_tail (x : List Char) (k : Nat) :
    c_string (x ++ List.replicate (k + 1) nul_char)
      = some (x.takeWhile (fun c => c != nul_char)) := by
  unfold c_string
  have hall : (x ++ List.replicate (k + 1) nul_char).all (fun c => c != nul_char) = false := by
    rw [List.all_eq_false]
    exact ⟨nul_char, by simp [List.replicate_succ], by simp⟩
  rw [hall, takeWhile_zero_tail]
  simp

/-- The string in the buffer after the first `m` characters of the text `t` were stored in
it, when the text starts with `a`, free of the character 0, and `m` is below 2048. -/
theorem c_string_of_text (t a b : List Char) (m : Nat) (ht : t = a ++ b)
    (ha : nul_char ∉ a) (hm : a.length ≤ m) (hm1 : m < 2048) :
    c_string (t.take m ++ List.replicate (2048 - m) nul_char)
      = some (a ++ (b.take (m - a.length)).takeWhile (fun c => c != nul_char)) := by
  obtain ⟨k, hk⟩ : ∃ k, 2048 - m = k + 1 := ⟨2047 - m, by omega⟩
  rw [hk, c_string_zero_tail, ht, List.take_append_eq_append_take,
    List.take_of_length_le hm]
  rw [takeWhile_append_clean]
  intro x hx
  have : x ≠ nul_char := fun h => ha (h ▸ hx)
  simpa using this

theorem store_first (t : List Char) (hlen : 128 ≤ t.length) :
    store (List.replicate 2048 nul_char) (t.take 128)
      = t.take 128 ++ List.replicate (2048 - 128) nul_char := by
  unfold store
  rw [List.length_take, Nat.min_eq_left hlen, List.drop_replicate]

theorem store_second (t : List Char) (n : Nat) (h128 : 128 ≤ t.length) (hn : n ≤ t.length)
    (h2048 : n ≤ 2048) :
    store (t.take 128 ++ List.replicate (2048 - 128) nul_char) (t.take n)
      = t.take (max 128 n) ++ List.replicate (2048 - max 128 n) nul_char := by
  unfold store
  rw [List.length_take, Nat.min_eq_left hn]
  rcases Nat.lt_or_ge 128 n with h | h
  · rw [Nat.max_eq_right (le_of_lt h), List.drop_append_eq_append_drop,
      List.drop_eq_nil_of_le (by rw [List.length_take]; omega), List.nil_append,
      List.length_take, Nat.min_eq_left h128, List.drop_replicate]
    congr 2
    omega
  · rw [Nat.max_eq_left h, List.drop_append_eq_append_drop, List.length_take,
      Nat.min_eq_left h128]
    have h0 : n - 128 = 0 := by omega
    rw [h0, List.drop_zero, ← List.append_assoc]
    congr 1
    have : t.take n = (t.take 128).take n := by
      rw [List.take_take, Nat.min_eq_left h]
    rw [this, List.take_append_drop]

theorem read_header_start_eq (fin : ifstream) (hf : fin.failbit = false)
    (he : fin.eofbit = false) (hlen : fin.pos + 128 ≤ fin.data.length) :
    read_header_start fin =
      (c_string (store (List.replicate 2048 nul_char) ((fin.data.drop fin.pos).take 128))).map
        (fun s => Except.ok ({ fin with pos := fin.pos + 128 }, (fin.pos : Int),
          store (List.replicate 2048 nul_char) ((fin.data.drop fin.pos).take 128), s)) := by
  obtain ⟨data, is_open, pos, failbit, eofbit⟩ := fin
  simp only at hf he hlen
  subst hf he
  unfold read_header_start
  simp [ifstream.tellg, ifstream.read, ifstream.good, hlen]

theorem to_int8_of_range (i : Int) (h0 : -(2 ^ 7) ≤ i) (h1 : i < 2 ^ 7) : to_int8 i = i := by
  unfold to_int8
  rcases lt_or_le i 0 with h | h
  · have e : i % 2 ^ 8 = i + 2 ^ 8 := by
      rw [← Int.add_mul_emod_self_left i (2 ^ 8) 1]
      apply Int.emod_eq_of_lt <;> omega
    rw [e, if_neg (by omega)]
    omega
  · have e : i % 2 ^ 8 = i := Int.emod_eq_of_lt h (by omega)
    rw [e, if_pos (by omega)]

theorem to_int16_of_range (i : Int) (h0 : -(2 ^ 15) ≤ i) (h1 : i < 2 ^ 15) :
    to_int16 i = i := by
  unfold to_int16
  rcases lt_or_le i 0 with h | h
  · have e : i % 2 ^ 16 = i + 2 ^ 16 := by
      rw [← Int.add_mul_emod_self_left i (2 ^ 16) 1]
      apply Int.emod_eq_of_lt <;> omega
    rw [e, if_neg (by omega)]
    omega
  · have e : i % 2 ^ 16 = i := Int.emod_eq_of_lt h (by omega)
    rw [e, if_pos (by omega)]

theorem atoi_range (s : List Char) : -(2 ^ 31) ≤ atoi s ∧ atoi s < 2 ^ 31 := by
  unfold atoi
  simp only
  split_ifs with h1 h2
  · omega
  · omega
  · omega

theorem read_param_field0 (toks : List (List Char)) (c : Char) (extra : List Char)
    (htok : ∀ t ∈ toks, 2 ≤ t.length ∧ ',' ∉ t) (hc : c ≠ ',') (nmax : Int)
    (i : Nat) (prm : List Char) (hi : i < toks.length)
    (hmax : ((field_start toks (i + 1) : Nat) : Int) < nmax) :
    read_param nmax (join_fields toks ++ ',' :: c :: extra)
        ((field_start toks i : Nat) : Int) prm
      = some (some (((field_start toks (i + 1) : Nat) : Int), toks.get ⟨i, hi⟩)) := by
  have h := read_param_field toks c extra htok hc nmax [] i prm hi
    (by simp only [List.length_nil, Nat.zero_add]; exact hmax)
  simp only [List.length_nil, Nat.zero_add, List.nil_append] at h
  exact h

theorem pre_parse_fields (f1 f2 f3 : List Char) (c4 : Char) (extra : List Char)
    (pfhdr : Option merlin_frame_hdr)
    (htok : ∀ t ∈ [f1, f2, f3], 2 ≤ t.length ∧ ',' ∉ t) (hc : c4 ≠ ',')
    (h3 : f1.length + f2.length + f3.length + 3 < 128) :
    pre_parse (join_fields [f1, f2, f3] ++ ',' :: c4 :: extra) pfhdr =
      some (Except.ok
        { ihpos := ((f1.length + f2.length + f3.length + 3 : Nat) : Int)
          str_num := f3
          nhdr := atoi f3
          hdr := pfhdr.map (fun h =>
            { h with s_hid := f1, i_seq := to_int32 (atoi f2 - 1),
                     n_size := to_int16 (atoi f3) }) }) := by
  have hs0 : field_start [f1, f2, f3] 0 = 0 := rfl
  have hs1 : field_start [f1, f2, f3] 1 = f1.length + 1 := by simp [field_start]
  have hs2 : field_start [f1, f2, f3] 2 = f1.length + f2.length + 2 := by
    simp [field_start]
    omega
  have hs3 : field_start [f1, f2, f3] 3 = f1.length + f2.length + f3.length + 3 := by
    simp [field_start]
    omega
  have e1 : read_param 128 (join_fields [f1, f2, f3] ++ ',' :: c4 :: extra) 0 []
      = some (some (((f1.length + 1 : Nat) : Int), f1)) := by
    have h := read_param_field0 [f1, f2, f3] c4 extra htok hc 128 0 [] (by simp)
      (by rw [hs1]; omega)
    rw [hs0, hs1] at h
    exact h
  have e2 : read_param 128 (join_fields [f1, f2, f3] ++ ',' :: c4 :: extra)
      ((f1.length + 1 : Nat) : Int) f1
      = some (some (((f1.length + f2.length + 2 : Nat) : Int), f2)) := by
    have h := read_param_field0 [f1, f2, f3] c4 extra htok hc 128 1 f1 (by simp)
      (by rw [hs2]; omega)
    rw [hs1, hs2] at h
    exact h
  have e3 : read_param 128 (join_fields [f1, f2, f3] ++ ',' :: c4 :: extra)
      ((f1.length + f2.length + 2 : Nat) : Int) f2
      = some (some (((f1.length + f2.length + f3.length + 3 : Nat) : Int), f3)) := by
    have h := read_param_field0 [f1, f2, f3] c4 extra htok hc 128 2 f2 (by simp)
      (by rw [hs3]; omega)
    rw [hs2, hs3] at h
    exact h
  unfold pre_parse
  rw [e1]
  simp only
  rw [e2]
  simp only
  rw [e3]

theorem field_start_cons (t : List Char) (ts : List (List Char)) (i : Nat) :
    field_start (t :: ts) (i + 1) = t.length + 1 + field_start ts i := by
  simp [field_start]

theorem field_start_mono (toks : List (List Char)) :
    ∀ i j, i ≤ j → field_start toks i ≤ field_start toks j := by
  induction toks with
  | nil =>
    intro i j _
    simp [field_start]
  | cons t ts ih =>
    intro i j hij
    rcases i with _ | i
    · have : field_start (t :: ts) 0 = 0 := rfl
      omega
    · rcases j with _ | j
      · omega
      · rw [field_start_cons, field_start_cons]
        have := ih i j (by omega)
        omega

theorem field_start_length (toks : List (List Char)) (hne : toks ≠ []) :
    field_start toks toks.length = (join_fields toks).length + 1 := by
  induction toks with
  | nil => exact absurd rfl hne
  | cons t ts ih =>
    rcases ts with _ | ⟨u, us⟩
    · simp [field_start, join_fields]
    · rw [List.length_cons, field_start_cons, ih (by simp), join_fields_cons]
      simp only [List.length_append, List.length_cons]
      omega

theorem substr_of_length (s : List Char) (pos n : Nat) (h : pos ≤ s.length) :
    substr s pos n = some ((s.drop pos).take n) := by
  unfold substr
  rw [if_neg (by omega)]

/-- The fields 4 to 11 of a header string that starts with eleven comma separated fields of
at least two characters each, followed by a further field that starts before `nhdr`. -/
theorem parse_fields_ok (f1 f2 f3 f4 f5 f6 f7 f8 f9 f10 f11 : List Char) (c : Char)
    (extra : List Char) (nhdr : Int) (hdr : merlin_frame_hdr)
    (htok : ∀ t ∈ [f1, f2, f3, f4, f5, f6, f7, f8, f9, f10, f11], 2 ≤ t.length ∧ ',' ∉ t)
    (hc : c ≠ ',')
    (hend : ((field_start [f1, f2, f3, f4, f5, f6, f7, f8, f9, f10, f11] 11 : Nat) : Int)
      < nhdr) :
    parse_fields (join_fields [f1, f2, f3, f4, f5, f6, f7, f8, f9, f10, f11] ++ ',' :: c :: extra)
        ((field_start [f1, f2, f3, f4, f5, f6, f7, f8, f9, f10, f11] 3 : Nat) : Int) f3 nhdr hdr
      = some (Except.ok
          { hdr with
            n_chips := to_int8 (atoi f4)
            n_columns := to_int32 (atoi f5)
            n_rows := to_int32 (atoi f6)
            n_bpi := to_int8 (atoi ((f7.drop 1).take 2))
            s_sensor_layout := f8
            n_chip_select := to_int8 (strtoul16 f9)
            s_time := f10
            d_dwell := atof f11 }) := by
  have hb : ∀ k, k ≤ 11 →
      ((field_start [f1, f2, f3, f4, f5, f6, f7, f8, f9, f10, f11] k : Nat) : Int) < nhdr := by
    intro k hk
    have := field_start_mono [f1, f2, f3, f4, f5, f6, f7, f8, f9, f10, f11] k 11 hk
    omega
  have e : ∀ (i : Nat) (prm : List Char)
      (hi : i < [f1, f2, f3, f4, f5, f6, f7, f8, f9, f10, f11].length), i + 1 ≤ 11 →
      read_param nhdr
          (join_fields [f1, f2, f3, f4, f5, f6, f7, f8, f9, f10, f11] ++ ',' :: c :: extra)
          ((field_start [f1, f2, f3, f4, f5, f6, f7, f8, f9, f10, f11] i : Nat) : Int) prm
        = some (some
            (((field_start [f1, f2, f3, f4, f5, f6, f7, f8, f9, f10, f11] (i + 1) : Nat) : Int),
              [f1, f2, f3, f4, f5, f6, f7, f8, f9, f10, f11].get ⟨i, hi⟩)) :=
    fun i prm hi hk => read_param_field0 _ c extra htok hc nhdr i prm hi (hb (i + 1) hk)
  have h7 : substr f7 1 2 = some ((f7.drop 1).take 2) :=
    substr_of_length f7 1 2 (by have := (htok f7 (by simp)).1; omega)
  unfold parse_fields
  rw [e 3 f3 (by simp) (by omega)]
  simp only
  rw [e 4 _ (by simp) (by omega)]
  simp only
  rw [e 5 _ (by simp) (by omega)]
  simp only
  rw [e 6 _ (by simp) (by omega)]
  simp only
  rw [show [f1, f2, f3, f4, f5, f6, f7, f8, f9, f10, f11].get ⟨6, by simp⟩ = f7 from rfl, h7]
  simp only
  rw [e 7 _ (by simp) (by omega)]
  simp only
  rw [e 8 _ (by simp) (by omega)]
  simp only
  rw [e 9 _ (by simp) (by omega)]
  simp only
  rw [e 10 _ (by simp) (by omega)]
  rfl

/-- The result of `merlin_read_frame_header` on a stream whose characters from the position
on are eleven comma separated fields of at least two characters each, free of the character
0, and a further field, with the bounds of the two parsing phases. -/
theorem frame_header_decode (fin : ifstream) (hdr : merlin_frame_hdr)
    (f1 f2 f3 f4 f5 f6 f7 f8 f9 f10 f11 : List Char) (c : Char) (rest : List Char)
    (hopen : fin.is_open = true) (hf : fin.failbit = false) (he : fin.eofbit = false)
    (htext : fin.data.drop fin.pos =
      join_fields [f1, f2, f3, f4, f5, f6, f7, f8, f9, f10, f11] ++ ',' :: c :: rest)
    (htok : ∀ t ∈ [f1, f2, f3, f4, f5, f6, f7, f8, f9, f10, f11],
      2 ≤ t.length ∧ ',' ∉ t ∧ nul_char ∉ t)
    (hc : c ≠ ',') (hc0 : c ≠ nul_char)
    (h3 : f1.length + f2.length + f3.length + 3 < 128)
    (hend : (((join_fields [f1, f2, f3, f4, f5, f6, f7, f8, f9, f10, f11]).length + 1 : Nat)
      : Int) < atoi f3)
    (hL : atoi f3 < 2048)
    (h128 : fin.pos + 128 ≤ fin.data.length)
    (hlen : fin.pos + (atoi f3).toNat ≤ fin.data.length) :
    merlin_read_frame_header (some fin) (some hdr) =
      some (0, some { fin with pos := fin.pos + (atoi f3).toNat },
        some { n_size := to_int16 (atoi f3)
               n_columns := to_int32 (atoi f5)
               n_rows := to_int32 (atoi f6)
               i_seq := to_int32 (atoi f2 - 1)
               n_chips := to_int8 (atoi f4)
               n_bpi := to_int8 (atoi ((f7.drop 1).take 2))
               n_chip_select := to_int8 (strtoul16 f9)
               d_dwell := atof f11
               s_sensor_layout := f8
               s_hid := f1
               s_time := f10 }) := by
  have htok2 : ∀ t ∈ [f1, f2, f3, f4, f5, f6, f7, f8, f9, f10, f11],
      2 ≤ t.length ∧ ',' ∉ t := fun t ht => ⟨(htok t ht).1, (htok t ht).2.1⟩
  have htok3 : ∀ t ∈ [f1, f2, f3], 2 ≤ t.length ∧ ',' ∉ t := by
    intro t ht
    apply htok2 t
    simp only [List.mem_cons, List.mem_singleton, List.not_mem_nil, or_false] at ht ⊢
    rcases ht with h | h | h <;> simp [h]
  have hn : ∀ t ∈ [f1, f2, f3, f4, f5, f6, f7, f8, f9, f10, f11], nul_char ∉ t :=
    fun t ht => (htok t ht).2.2
  have hcn : nul_char ≠ ',' := by decide
  obtain ⟨c4, g4, hf4⟩ : ∃ c4 g4, f4 = c4 :: g4 := by
    have := (htok f4 (by simp)).1
    rcases f4 with _ | ⟨a, g⟩
    · simp at this
    · exact ⟨a, g, rfl⟩
  have hc4 : c4 ≠ ',' := fun h => (htok f4 (by simp)).2.1 (by rw [hf4, h]; simp)
  have hc40 : c4 ≠ nul_char := fun h => (htok f4 (by simp)).2.2 (by rw [hf4, h]; simp)
  have h0 : 0 < atoi f3 := by omega
  have hT : (fin.data.drop fin.pos).length = fin.data.length - fin.pos := List.length_drop _ _
  -- the first 128 characters
  have hsplit3 : fin.data.drop fin.pos =
      (join_fields [f1, f2, f3] ++ [',', c4]) ++
        (g4 ++ ',' :: join_fields [f5, f6, f7, f8, f9, f10, f11] ++ ',' :: c :: rest) := by
    rw [htext, hf4]
    simp [join_fields]
  have hnul3 : nul_char ∉ join_fields [f1, f2, f3] ++ [',', c4] := by
    intro hm
    simp only [join_fields, List.mem_append, List.mem_cons, List.mem_singleton,
      List.not_mem_nil, or_false] at hm
    rcases hm with (h | h | h | h | h) | h | h
    · exact hn f1 (by simp) h
    · exact hcn h
    · exact hn f2 (by simp) h
    · exact hcn h
    · exact hn f3 (by simp) h
    · exact hcn h
    · exact hc40 h.symm
  have hlen3 : (join_fields [f1, f2, f3] ++ [',', c4]).length ≤ 128 := by
    simp [join_fields]
    omega
  have hstr1 := c_string_of_text (fin.data.drop fin.pos) _ _ 128 hsplit3 hnul3 hlen3
    (by decide)
  have hstart := read_header_start_eq fin hf he h128
  rw [store_first _ (by omega), hstr1] at hstart
  simp only [Option.map_some', List.append_assoc, List.cons_append, List.nil_append]
    at hstart
  -- the full header
  have hsplit11 : fin.data.drop fin.pos =
      (join_fields [f1, f2, f3, f4, f5, f6, f7, f8, f9, f10, f11] ++ [',', c]) ++ rest := by
    rw [htext]
    simp
  have hnul11 : nul_char ∉
      join_fields [f1, f2, f3, f4, f5, f6, f7, f8, f9, f10, f11] ++ [',', c] := by
    intro hm
    simp only [join_fields, List.mem_append, List.mem_cons, List.mem_singleton,
      List.not_mem_nil, or_false] at hm
    rcases hm with (h | h | h | h | h | h | h | h | h | h | h | h | h | h | h | h | h | h |
      h | h | h) | h | h
    · exact hn f1 (by simp) h
    · exact hcn h
    · exact hn f2 (by simp) h
    · exact hcn h
    · exact hn f3 (by simp) h
    · exact hcn h
    · exact hn f4 (by simp) h
    · exact hcn h
    · exact hn f5 (by simp) h
    · exact hcn h
    · exact hn f6 (by simp) h
    · exact hcn h
    · exact hn f7 (by simp) h
    · exact hcn h
    · exact hn f8 (by simp) h
    · exact hcn h
    · exact hn f9 (by simp) h
    · exact hcn h
    · exact hn f10 (by simp) h
    · exact hcn h
    · exact hn f11 (by simp) h
    · exact hcn h
    · exact hc0 h.symm
  have hlen11 : (join_fields [f1, f2, f3, f4, f5, f6, f7, f8, f9, f10, f11]
      ++ [',', c]).length ≤ max 128 (atoi f3).toNat := by
    simp only [List.length_append, List.length_cons, List.length_nil]
    have : (join_fields [f1, f2, f3, f4, f5, f6, f7, f8, f9, f10, f11]).length + 2
        ≤ (atoi f3).toNat := by omega
    exact le_trans this (le_max_right _ _)
  have hstr2 := c_string_of_text (fin.data.drop fin.pos) _ _ (max 128 (atoi f3).toNat)
    hsplit11 hnul11 hlen11 (by rw [max_lt_iff]; omega)
  have hfull := read_header_full_ok fin
    ((fin.data.drop fin.pos).take 128 ++ List.replicate (2048 - 128) nul_char)
    (atoi f3) hf he h0 (by omega) hlen
  rw [store_second _ _ (by omega) (by omega) (by omega), hstr2] at hfull
  simp only [Option.map_some', List.append_assoc, List.cons_append, List.nil_append]
    at hfull
  -- the two parsing phases
  have hpre := fun extra => pre_parse_fields f1 f2 f3 c4 extra (some hdr) htok3 hc4 h3
  have hs3 : field_start [f1, f2, f3, f4, f5, f6, f7, f8, f9, f10, f11] 3
      = f1.length + f2.length + f3.length + 3 := by
    simp [field_start]
    omega
  have hs11 : field_start [f1, f2, f3, f4, f5, f6, f7, f8, f9, f10, f11] 11
      = (join_fields [f1, f2, f3, f4, f5, f6, f7, f8, f9, f10, f11]).length + 1 :=
    field_start_length _ (by simp)
  have hparse := fun extra => parse_fields_ok f1 f2 f3 f4 f5 f6 f7 f8 f9 f10 f11 c extra
    (atoi f3)
    { hdr with s_hid := f1, i_seq := to_int32 (atoi f2 - 1), n_size := to_int16 (atoi f3) }
    htok2 hc (by rw [hs11]; exact hend)
  rw [hs3] at hparse
  unfold merlin_read_frame_header
  simp only
  rw [if_pos hopen, hstart]
  simp only [hpre, Option.map_some']
  rw [hfull]
  simp only [hparse, seek_header_end_ok fin (atoi f3) _ hf he h0]

/-- Claim C22, amended: for an open stream in a good state whose characters from the
position on are eleven comma separated fields of at least two characters each, free of the
character 0, followed by a further field that starts before the declared length L (the
integer value of field 3, 0 < L < 2048), with field 4 starting before position 128 and 128
and L characters readable, `merlin_read_frame_header` returns 0, leaves the stream at the
position plus L, and fills the header with: `s_hid` = field 1; `i_seq` = value of field 2
minus 1 as `__int32`; `n_size` = L; `n_chips` = value of field 4 as `__int8`; `n_columns`,
`n_rows` = values of fields 5, 6; `n_bpi` = value of the two characters of field 7 behind
its first as `__int8`; `s_sensor_layout` = field 8; `n_chip_select` = hexadecimal value of
field 9 as `__int8`; `s_time` = field 10; `d_dwell` = value of field 11.  A value within
the range of the member is stored unchanged. -/
theorem frame_header_fields (fin : ifstream) (hdr : merlin_frame_hdr)
    (f1 f2 f3 f4 f5 f6 f7 f8 f9 f10 f11 : List Char) (c : Char) (rest : List Char)
    (hopen : fin.is_open = true) (hf : fin.failbit = false) (he : fin.eofbit = false)
    (htext : fin.data.drop fin.pos =
      join_fields [f1, f2, f3, f4, f5, f6, f7, f8, f9, f10, f11] ++ ',' :: c :: rest)
    (htok : ∀ t ∈ [f1, f2, f3, f4, f5, f6, f7, f8, f9, f10, f11],
      2 ≤ t.length ∧ ',' ∉ t ∧ nul_char ∉ t)
    (hc : c ≠ ',') (hc0 : c ≠ nul_char)
    (h3 : f1.length + f2.length + f3.length + 3 < 128)
    (hend : (((join_fields [f1, f2, f3, f4, f5, f6, f7, f8, f9, f10, f11]).length + 1 : Nat)
      : Int) < atoi f3)
    (hL : atoi f3 < 2048)
    (h128 : fin.pos + 128 ≤ fin.data.length)
    (hlen : fin.pos + (atoi f3).toNat ≤ fin.data.length) :
    ∃ h, merlin_read_frame_header (some fin) (some hdr) =
        some (0, some { fin with pos := fin.pos + (atoi f3).toNat }, some h) ∧
      h.s_hid = f1 ∧
      h.i_seq = to_int32 (atoi f2 - 1) ∧ (-(2 ^ 31) < atoi f2 → h.i_seq = atoi f2 - 1) ∧
      h.n_size = atoi f3 ∧
      h.n_chips = to_int8 (atoi f4) ∧
      (-(2 ^ 7) ≤ atoi f4 → atoi f4 < 2 ^ 7 → h.n_chips = atoi f4) ∧
      h.n_columns = atoi f5 ∧ h.n_rows = atoi f6 ∧
      h.n_bpi = to_int8 (atoi ((f7.drop 1).take 2)) ∧
      (-(2 ^ 7) ≤ atoi ((f7.drop 1).take 2) → atoi ((f7.drop 1).take 2) < 2 ^ 7 →
        h.n_bpi = atoi ((f7.drop 1).take 2)) ∧
      h.s_sensor_layout = f8 ∧
      h.n_chip_select = to_int8 (strtoul16 f9) ∧
      (strtoul16 f9 < 2 ^ 7 → h.n_chip_select = (strtoul16 f9 : Int)) ∧
      h.s_time = f10 ∧ h.d_dwell = atof f11 := by
  refine ⟨_, frame_header_decode fin hdr f1 f2 f3 f4 f5 f6 f7 f8 f9 f10 f11 c rest hopen hf he
    htext htok hc hc0 h3 hend hL h128 hlen, rfl, rfl, ?_, ?_, rfl, ?_, ?_, ?_, rfl, ?_, rfl,
    rfl, ?_, rfl, rfl⟩
  · intro h
    exact to_int32_of_range _ (by omega) (by have := (atoi_range f2).2; omega)
  · exact to_int16_of_range _ (by omega) (by omega)
  · intro h0 h1
    exact to_int8_of_range _ h0 h1
  · exact to_int32_of_range _ (atoi_range f5).1 (atoi_range f5).2
  · exact to_int32_of_range _ (atoi_range f6).1 (atoi_range f6).2
  · intro h0 h1
    exact to_int8_of_range _ h0 h1
  · intro h
    exact to_int8_of_range _ (by omega) (by exact_mod_cast h)

/-- Claim C22 as stated fails: for the well-formed header with the chip select field `FF`,
whose hexadecimal value is 255, `merlin_read_frame_header` returns 0 and stores -1 in the
member `n_chip_select` of type `__int8`. -/
theorem frame_header_fields_counterexample :
    (merlin_read_frame_header (some example_frame_file_ff) (some {})).map
      (fun r => (r.1, r.2.2.map (fun h => h.n_chip_select))) = some (0, some (-1)) ∧
    strtoul16 "FF".toList = 255 := by
  decide

theorem frame_header_fields_witness :
    ∃ h, merlin_read_frame_header (some (example_frame_file "00128" 256)) (some {}) =
        some (0, some { example_frame_file "00128" 256 with pos := 128 }, some h) ∧
      h.s_hid = "MQ1".toList ∧ h.i_seq = 0 ∧ h.n_size = 128 ∧ h.n_chips = 1 ∧
      h.n_columns = 256 ∧ h.n_rows = 256 ∧ h.n_bpi = 16 ∧
      h.s_sensor_layout = "   2x2".toList ∧ h.n_chip_select = 15 ∧
      h.s_time = "2020-01-02 10:11:12.123456".toList ∧
      h.d_dwell = atof "0.001000".toList := by
  obtain ⟨h, hrun, h1, _, h2, h3, _, h4, h5, h6, _, h7, h8, _, h9, h10, h11⟩ :=
    frame_header_fields (example_frame_file "00128" 256) {}
      "MQ1".toList "000001".toList "00128".toList "01".toList "0256".toList "0256".toList
      "U16".toList "   2x2".toList "0F".toList "2020-01-02 10:11:12.123456".toList
      "0.001000".toList '0' (",0,0,".toList ++ List.replicate 170 ' ')
      rfl rfl rfl (by decide) (by decide) (by decide) (by decide) (by decide) (by decide)
      (by decide) (by decide) (by decide)
  refine ⟨h, hrun, h1, ?_, ?_, ?_, ?_, ?_, ?_, h8, ?_, h10, h11⟩
  · exact h2 (by decide)
  · rw [h3]
    decide
  · exact h4 (by decide) (by decide)
  · rw [h5]
    decide
  · rw [h6]
    decide
  · exact h7 (by decide) (by decide)
  · rw [h9 (by decide)]
    decide

/-! ## Theorems of section 9 -/

/-- Claim C25 fails on the code: for the scan ROI (0, 0, 1, 1) `in_scan_roi` accepts the 4
scan pixels (0,0), (1,0), (0,1), (1,1), and (1 - 0 + 1) * (1 - 0 + 1) = 4, while
`get_scan_rect_roi_size` returns (1 - 0) * (1 - 0) = 1; for the ROI (2, 3, 2, 3) of the
single pixel (2, 3) it returns 0. -/
theorem roi_size_off_by_one :
    roi_pixels { x0 := 0, y0 := 0, x1 := 1, y1 := 1 } 3 3 =
      [{ x := 0, y := 0 }, { x := 1, y := 0 }, { x := 0, y := 1 }, { x := 1, y := 1 }] ∧
    get_scan_rect_roi_size { scan_rect_roi := { x0 := 0, y0 := 0, x1 := 1, y1 := 1 } } = 1 ∧
    in_scan_roi { x := 2, y := 3 } { x0 := 2, y0 := 3, x1 := 2, y1 := 3 } = true ∧
    get_scan_rect_roi_size { scan_rect_roi := { x0 := 2, y0 := 3, x1 := 2, y1 := 3 } } = 0 := by
  decide

/-- Claim C27 fails on the code: for a header file that is missing, so that the stream is
not open, `merlin_read_header` returns the code 2 and `merlin_params::read_header` returns
0 with the header unchanged. -/
theorem read_header_drops_error :
    merlin_read_header (some example_missing_header) (some {}) = some (2, some {}) ∧
    read_header {} example_missing_header = some ({}, 0) := by
  decide

/-- Claim C28 fails on the code: the header with 10 frames and 10 frames per trigger read
into a fresh `merlin_hdr` gives `n_columns = 10` and `n_rows = 0`, and with this header
`get_scan_pixel` evaluates `imod(.., 0)`, the remainder by zero, for every frame index. -/
theorem scan_pixel_zero_rows :
    (merlin_read_header (some (example_header "10" "10")) (some {})).map
      (fun r => (r.1, r.2.map (fun h => (h.n_frames, h.n_columns, h.n_rows))))
        = some (0, some (10, 10, 0)) ∧
    ∀ idx, get_scan_pixel { hdr := { n_frames := 10, n_columns := 10, n_rows := 0 } } idx
      = none := by
  refine ⟨by decide, ?_⟩
  intro idx
  simp [get_scan_pixel, imod_int32_eval]

theorem scan_pixel_of_index (prm : merlin_params) (hc : 0 < prm.hdr.n_columns)
    (hr : 0 < prm.hdr.n_rows) (hcb : prm.hdr.n_columns ≤ 2 ^ 30)
    (hrb : prm.hdr.n_rows ≤ 2 ^ 30) (hb : prm.hdr.n_columns * prm.hdr.n_rows ≤ 2 ^ 31)
    (idx : Int) (h0 : 0 ≤ idx) (h1 : idx < prm.hdr.n_columns * prm.hdr.n_rows) :
    get_scan_pixel prm idx = some (some (idx % prm.hdr.n_columns, idx / prm.hdr.n_columns)) := by
  obtain ⟨hx, hy⟩ := grid_pixel_int32 _ _ idx hc hcb hr hrb hb h0 h1
  unfold get_scan_pixel
  rw [if_neg (by omega)]
  simp only [hy]
  rw [hx]
  rfl

theorem frame_idx_in_range (prm : merlin_params) (x y : Int) (hx0 : 0 ≤ x)
    (hx1 : x < prm.hdr.n_columns) (hy0 : 0 ≤ y) (hy1 : y < prm.hdr.n_rows)
    (hcb : prm.hdr.n_columns ≤ 2 ^ 30) (hrb : prm.hdr.n_rows ≤ 2 ^ 30)
    (hb : prm.hdr.n_columns * prm.hdr.n_rows ≤ 2 ^ 31) :
    get_frame_idx prm x y = x + y * prm.hdr.n_columns := by
  obtain ⟨hb0, hb1⟩ := pixel_index_bound prm.hdr.n_columns prm.hdr.n_rows x y hx0 hx1 hy0 hy1
  unfold get_frame_idx
  rw [if_neg (by omega), if_neg (by omega), if_neg (by omega),
    imod_int32_eq x _ (by omega) hcb, imod_int32_eq y _ (by omega) hrb,
    Int.emod_eq_of_lt hx0 hx1, Int.emod_eq_of_lt hy0 hy1,
    to_int32_of_range _ (by omega) (by omega)]

/-- Claim C29 fails for large scans: with `n_columns = 2147483647` and `n_rows = 1` the
position (2147483646, 0) is in range, yet `imod(2147483646, 2147483647)` adds
`2147483646 + 2147483647` in `int`, which is -3 after the reduction to 32 bits, and
`get_frame_idx` returns -3, the code of an invalid y position, instead of 2147483646. -/
theorem scan_index_round_trip_counterexample :
    ∃ prm : merlin_params, ∃ x y : Int, 0 < prm.hdr.n_columns ∧ 0 < prm.hdr.n_rows ∧
      0 ≤ x ∧ x < prm.hdr.n_columns ∧ 0 ≤ y ∧ y < prm.hdr.n_rows ∧
      imod_int32 x prm.hdr.n_columns = -3 ∧ get_frame_idx prm x y = -3 ∧
      get_frame_idx prm x y ≠ x + y * prm.hdr.n_columns :=
  ⟨{ hdr := { n_frames := 2147483647, n_columns := 2147483647, n_rows := 1 } },
    2147483646, 0, by decide, by decide, by decide, by decide, by decide, by decide,
    by decide, by decide, by decide⟩

/-- Claim C29, amended: `get_frame_idx` is negative for every x or y out of range, whatever
the size of the scan; and for a scan geometry with `0 < n_columns <= 2^30`,
`0 < n_rows <= 2^30` and `n_columns * n_rows <= 2^31`, where no sum or product of the two
functions leaves the range of `int`: (1) for x, y in range `get_frame_idx(x, y)` is
`x + y * n_columns` and `get_scan_pixel` of that index returns 0 with (x, y); (2) for
`0 <= idx < n_columns * n_rows`, `get_scan_pixel(idx)` returns 0 with some (x, y) in range
and `get_frame_idx(x, y) = idx`. -/
theorem scan_index_round_trip (prm : merlin_params) (hc : 0 < prm.hdr.n_columns)
    (hr : 0 < prm.hdr.n_rows) :
    (∀ x y, (x < 0 ∨ prm.hdr.n_columns ≤ x ∨ y < 0 ∨ prm.hdr.n_rows ≤ y) →
      get_frame_idx prm x y < 0) ∧
    (prm.hdr.n_columns ≤ 2 ^ 30 → prm.hdr.n_rows ≤ 2 ^ 30 →
      prm.hdr.n_columns * prm.hdr.n_rows ≤ 2 ^ 31 →
      (∀ x y, 0 ≤ x → x < prm.hdr.n_columns → 0 ≤ y → y < prm.hdr.n_rows →
        get_frame_idx prm x y = x + y * prm.hdr.n_columns ∧
        get_scan_pixel prm (get_frame_idx prm x y) = some (some (x, y))) ∧
      (∀ idx, 0 ≤ idx → idx < prm.hdr.n_columns * prm.hdr.n_rows →
        ∃ x y, get_scan_pixel prm idx = some (some (x, y)) ∧
          0 ≤ x ∧ x < prm.hdr.n_columns ∧ 0 ≤ y ∧ y < prm.hdr.n_rows ∧
          get_frame_idx prm x y = idx)) := by
  have hne : prm.hdr.n_columns ≠ 0 := by omega
  refine ⟨?_, fun hcb hrb hb => ⟨?_, ?_⟩⟩
  · intro x y h
    unfold get_frame_idx
    rw [if_neg (by omega)]
    by_cases hx : x < 0 ∨ prm.hdr.n_columns ≤ x
    · rw [if_pos hx]
      decide
    · rw [if_neg hx]
      have hy : y < 0 ∨ prm.hdr.n_rows ≤ y := by omega
      rw [if_pos hy]
      decide
  · intro x y hx0 hx1 hy0 hy1
    have hidx := frame_idx_in_range prm x y hx0 hx1 hy0 hy1 hcb hrb hb
    obtain ⟨hb0, hb1⟩ := pixel_index_bound prm.hdr.n_columns prm.hdr.n_rows x y hx0 hx1 hy0 hy1
    refine ⟨hidx, ?_⟩
    rw [hidx, scan_pixel_of_index prm hc hr hcb hrb hb _ hb0 hb1]
    have hm : (x + y * prm.hdr.n_columns) % prm.hdr.n_columns = x := by
      rw [Int.add_mul_emod_self, Int.emod_eq_of_lt hx0 hx1]
    have hd : (x + y * prm.hdr.n_columns) / prm.hdr.n_columns = y := by
      rw [Int.add_mul_ediv_right _ _ hne, Int.ediv_eq_zero_of_lt hx0 hx1, zero_add]
    rw [hm, hd]
  · intro idx h0 h1
    have hq0 : 0 ≤ idx / prm.hdr.n_columns := Int.ediv_nonneg h0 (le_of_lt hc)
    have hq1 : idx / prm.hdr.n_columns < prm.hdr.n_rows :=
      Int.ediv_lt_of_lt_mul hc (by rw [mul_comm]; exact h1)
    have hm0 := Int.emod_nonneg idx hne
    have hm1 := Int.emod_lt_of_pos idx hc
    refine ⟨_, _, scan_pixel_of_index prm hc hr hcb hrb hb idx h0 h1, hm0, hm1, hq0, hq1, ?_⟩
    rw [frame_idx_in_range prm _ _ hm0 hm1 hq0 hq1 hcb hrb hb]
    have := Int.emod_add_ediv idx prm.hdr.n_columns
    rw [mul_comm] at this
    exact this

theorem scan_index_round_trip_witness :
    (0 : Int) < example_scan.hdr.n_columns ∧ (0 : Int) < example_scan.hdr.n_rows ∧
    get_frame_idx example_scan 2 1 = 6 ∧
    get_scan_pixel example_scan (get_frame_idx example_scan 2 1) = some (some (2, 1)) ∧
    get_scan_pixel example_scan 11 = some (some (3, 2)) ∧
    get_frame_idx example_scan 4 1 < 0 ∧ get_frame_idx example_scan 0 3 < 0 :=
  ⟨by decide, by decide,
    (((scan_index_round_trip example_scan (by decide) (by decide)).2 (by decide) (by decide)
      (by decide)).1 2 1 (by decide) (by decide) (by decide) (by decide)).1,
    (((scan_index_round_trip example_scan (by decide) (by decide)).2 (by decide) (by decide)
      (by decide)).1 2 1 (by decide) (by decide) (by decide) (by decide)).2,
    by decide,
    (scan_index_round_trip example_scan (by decide) (by decide)).1 4 1
      (Or.inr (Or.inl (by decide))),
    (scan_index_round_trip example_scan (by decide) (by decide)).1 0 3
      (Or.inr (Or.inr (Or.inr (by decide))))⟩

theorem push_frame_nonneg (st : index_builder) (fpos ifile : Int) (h : files_nonneg st)
    (hi : 0 ≤ ifile) : files_nonneg (push_frame st fpos ifile) := by
  refine ⟨h.1, ?_⟩
  intro f hf
  simp only [push_frame, List.mem_append, List.mem_singleton] at hf
  rcases hf with hf | hf
  · exact h.2 f hf
  · rw [hf]
    exact hi

theorem add_frames_nonneg (lfile : Int) (hl : 0 ≤ lfile) (k : Nat) :
    ∀ (lfpos : Int) (st : index_builder), files_nonneg st →
      files_nonneg (add_frames lfile k lfpos st) ∧
      (add_frames lfile k lfpos st).prm.hdr.n_files = st.prm.hdr.n_files ∧
      ∀ f ∈ (add_frames lfile k lfpos st).prm.v_frm_file, f ∈ st.prm.v_frm_file ∨ f = lfile := by
  induction k with
  | zero =>
    intro lfpos st h
    exact ⟨h, rfl, fun f hf => Or.inl hf⟩
  | succ k ih =>
    intro lfpos st h
    rw [add_frames]
    obtain ⟨h1, h2, h3⟩ := ih (lfpos + st.dpos) (push_frame st (lfpos + st.dpos) lfile)
      (push_frame_nonneg st _ lfile h hl)
    refine ⟨h1, h2, ?_⟩
    intro f hf
    rcases h3 f hf with h4 | h4
    · simp only [push_frame, List.mem_append, List.mem_singleton] at h4
      exact h4
    · exact Or.inr h4

theorem getD_mem_or_default (l : List Int) (i : Nat) : l.getD i 0 ∈ l ∨ l.getD i 0 = 0 := by
  by_cases h : i < l.length
  · left
    rw [List.getD_eq_getElem l 0 h]
    exact List.getElem_mem h
  · right
    rw [List.getD_eq_default]
    omega

theorem fill_frames_nonneg (st : index_builder) (bound : Int) (h : files_nonneg st) :
    files_nonneg (fill_frames st bound) ∧
    (fill_frames st bound).prm.hdr.n_files = st.prm.hdr.n_files ∧
    ∀ f ∈ (fill_frames st bound).prm.v_frm_file,
      f ∈ st.prm.v_frm_file ∨ f = st.prm.v_frm_file.getD (st.n_frm - 1).toNat 0 := by
  unfold fill_frames
  simp only
  apply add_frames_nonneg _ _ _ _ _ h
  rcases getD_mem_or_default st.prm.v_frm_file (st.n_frm - 1).toNat with hm | hm
  · exact h.2 _ hm
  · rw [hm]

theorem seed_template_nonneg (st : index_builder) (fhdr : merlin_frame_hdr)
    (h : files_nonneg st) : files_nonneg (seed_template st fhdr) := by
  unfold files_nonneg
  rw [seed_template_n_files, seed_template_v_frm_file]
  exact h

theorem header_step_nonneg (f : data_file) (st : index_builder) (pos : Int)
    (h : files_nonneg st) : files_nonneg (header_step f st pos).1 := by
  have h0 : files_nonneg { st with
      decoded := st.decoded ++ [(st.n_frm, (f.read_frame_header pos).fhdr)] } := h
  have h1 := seed_template_nonneg _ (f.read_frame_header pos).fhdr h0
  unfold header_step
  simp only
  split
  · split
    · split
      · exact push_frame_nonneg _ _ _ h1 h1.1
      · exact h1
    · split
      · exact push_frame_nonneg _ _ _ h1 h1.1
      · split
        · have h2 := fill_frames_nonneg _ (f.read_frame_header pos).fhdr.i_seq h1
          exact push_frame_nonneg _ _ _ h2.1 h2.1.1
        · exact push_frame_nonneg _ _ _ h1 h1.1
  · split
    · exact h
    · exact h

theorem read_file_headers_nonneg (f : data_file) (fuel : Nat) :
    ∀ (st st1 : index_builder) (pos e : Int), files_nonneg st →
      read_file_headers f fuel st pos = some (st1, e) → files_nonneg st1 := by
  induction fuel with
  | zero =>
    intro st st1 pos e _ hrun
    simp [read_file_headers] at hrun
  | succ fuel ih =>
    intro st st1 pos e h hrun
    have hs := header_step_nonneg f st pos h
    rw [read_file_headers] at hrun
    rcases hstep : header_step f st pos with ⟨st2, x⟩
    rw [hstep] at hrun hs
    rcases x with pos1 | _ | nerr
    · exact ih st2 st1 pos1 e hs hrun
    · simp only [Option.some.injEq, Prod.mk.injEq] at hrun
      rw [← hrun.1]
      exact hs
    · simp only [Option.some.injEq, Prod.mk.injEq] at hrun
      rw [← hrun.1]
      exact hs

theorem browse_files_nonneg (files : List data_file) :
    ∀ (st st1 : index_builder) (e : Int), files_nonneg st →
      browse_files files st = some (st1, e) → files_nonneg st1 := by
  induction files with
  | nil =>
    intro st st1 e h hrun
    simp only [browse_files, Option.some.injEq, Prod.mk.injEq] at hrun
    rw [← hrun.1]
    exact h
  | cons f fs ih =>
    intro st st1 e h hrun
    rw [browse_files] at hrun
    by_cases hopen : f.is_open = true
    · rw [if_pos hopen] at hrun
      rcases hr : read_file_headers f (f.size + 1) st 0 with _ | ⟨st2, nerr⟩
      · rw [hr] at hrun
        exact absurd hrun (by simp)
      · rw [hr] at hrun
        simp only at hrun
        have h2 := read_file_headers_nonneg f (f.size + 1) st st2 0 nerr h hr
        by_cases hn : nerr ≠ 0
        · rw [if_pos hn] at hrun
          simp only [Option.some.injEq, Prod.mk.injEq] at hrun
          rw [← hrun.1]
          exact h2
        · rw [if_neg hn] at hrun
          refine ih _ st1 e ?_ hrun
          refine ⟨?_, h2.2⟩
          show 0 ≤ st2.prm.hdr.n_files + 1
          have := h2.1
          omega
    · rw [if_neg hopen] at hrun
      simp only [Option.some.injEq, Prod.mk.injEq] at hrun
      rw [← hrun.1]
      exact h

theorem mem_file_entry (prm : merlin_params)
    (hl : prm.v_frm_file.length = prm.v_frm_pos.length) (f : Int) (hf : f ∈ prm.v_frm_file) :
    ∃ p, (f, p) ∈ index_entries prm := by
  obtain ⟨i, hi, hget⟩ := List.getElem_of_mem hf
  have hi2 : i < prm.v_frm_pos.length := by omega
  refine ⟨prm.v_frm_pos[i], ?_⟩
  unfold index_entries
  have hz : i < (List.zip prm.v_frm_file prm.v_frm_pos).length := by
    rw [List.length_zip]
    omega
  have := List.getElem_mem hz
  rw [List.getElem_zip, hget] at this
  exact this

/-- After a file loop that ends with the code 0, the checks and the padding of lines
219-239 leave an index whose file indices are not negative and below the number of files. -/
theorem finish_index_files (files : List data_file) (prm : merlin_params)
    (st0 : index_builder) (hc : ∀ g ∈ files, decoder_contract g)
    (hb : browse_files files (reset_index prm) = some (st0, 0)) :
    ∀ f ∈ (finish_index st0).1.prm.v_frm_file,
      0 ≤ f ∧ f < (finish_index st0).1.prm.hdr.n_files := by
  obtain ⟨st0', e0, hrun0, hex0, _, hfin0⟩ := browse_files_total prm files hc
  rw [hb] at hrun0
  simp only [Option.some.injEq, Prod.mk.injEq] at hrun0
  obtain ⟨h1, h2⟩ := hrun0
  subst h1 h2
  have hlt := (hfin0 rfl).2
  have hnn : files_nonneg st0 := browse_files_nonneg files (reset_index prm) st0 0
    ⟨le_refl _, fun f hf => by simp [reset_index] at hf⟩ hb
  have hbound : ∀ f ∈ st0.prm.v_frm_file, 0 ≤ f ∧ f < st0.prm.hdr.n_files := by
    intro f hf
    obtain ⟨p, hp⟩ := mem_file_entry st0.prm hex0.inv.len_eq f hf
    exact ⟨hnn.2 f hf, hlt (f, p) hp⟩
  unfold finish_index
  by_cases ha : st0.prm.hdr.n_files = 0 ∨ st0.n_frm = 0
  · rw [if_pos ha]
    exact hbound
  · rw [if_neg ha]
    by_cases hb2 : 0 < st0.prm.hdr.n_files ∧ st0.n_frm < st0.prm.hdr.n_frames
    · rw [if_pos hb2]
      by_cases hs : st0.prm.bscanframeheaders = true
      · rw [if_pos hs]
        exact hbound
      · rw [if_neg hs]
        obtain ⟨_, hnf, hmem⟩ := fill_frames_nonneg st0 st0.prm.hdr.n_frames hnn
        intro f hf
        simp only at hf ⊢
        rw [hnf]
        rcases hmem f hf with hm | hm
        · exact hbound f hm
        · have hidx : (st0.n_frm - 1).toNat < st0.prm.v_frm_file.length := by
            have h1 := hex0.inv.n_frm_eq
            have h2 := hex0.inv.len_eq
            have h3 : st0.n_frm ≠ 0 := fun h => ha (Or.inr h)
            omega
          rw [hm, List.getD_eq_getElem _ _ hidx]
          exact hbound _ (List.getElem_mem hidx)
    · rw [if_neg hb2]
      exact hbound

/-- Claim C30: after a run of `read_frame_headers` that returns 0 (in either mode, on data
files whose header decoder keeps its contract) the two index vectors have at least
`hdr.n_frames` entries; for `0 <= idx < hdr.n_frames`, `get_frame_filepos(idx)` returns 0 with
the entries `v_frm_file[idx]` and `v_frm_pos[idx]`, which exist, and
`0 <= v_frm_file[idx] < hdr.n_files`; for `idx < 0` or `idx >= hdr.n_frames` it returns 1 and
assigns no output. -/
theorem index_lookup_in_bounds (prm prm1 : merlin_params) (files : List data_file)
    (hc : ∀ g ∈ files, decoder_contract g)
    (hrun : read_frame_headers prm files = some (prm1, 0)) :
    prm1.hdr.n_frames ≤ (prm1.v_frm_file.length : Int) ∧
    prm1.v_frm_file.length = prm1.v_frm_pos.length ∧
    (∀ idx, 0 ≤ idx → idx < prm1.hdr.n_frames →
      ∃ ifile ipos, get_frame_filepos prm1 idx = some (0, some (ifile, ipos)) ∧
        prm1.v_frm_file[idx.toNat]? = some ifile ∧ prm1.v_frm_pos[idx.toNat]? = some ipos ∧
        0 ≤ ifile ∧ ifile < prm1.hdr.n_files) ∧
    (∀ idx, idx < 0 ∨ prm1.hdr.n_frames ≤ idx → get_frame_filepos prm1 idx = some (1, none)) := by
  obtain ⟨st, e, hrun1, inv, _, hr, _, _, hfin⟩ := read_frame_headers_run_spec prm files hc
  unfold read_frame_headers at hrun
  rw [hrun1] at hrun
  simp only [Option.map_some', Option.some.injEq, Prod.mk.injEq] at hrun
  obtain ⟨hp, he⟩ := hrun
  subst hp
  obtain ⟨_, hge, st0, hb0, _, _⟩ := hfin he
  have hst : st = (finish_index st0).1 := by
    unfold read_frame_headers_run at hrun1
    rw [hb0] at hrun1
    simp only [ne_eq, not_true_eq_false, if_false, Option.some.injEq] at hrun1
    rw [hrun1]
  have hfiles := finish_index_files files prm st0 hc hb0
  rw [← hst] at hfiles
  have hlen : st.prm.hdr.n_frames ≤ (st.prm.v_frm_file.length : Int) := by
    rw [hr, inv.len_eq, ← inv.n_frm_eq]
    exact hge
  refine ⟨hlen, inv.len_eq, ?_, ?_⟩
  · intro idx h0 h1
    have hi : idx.toNat < st.prm.v_frm_file.length := by omega
    have hi2 : idx.toNat < st.prm.v_frm_pos.length := by rw [← inv.len_eq]; exact hi
    have hf := hfiles _ (List.getElem_mem hi)
    refine ⟨st.prm.v_frm_file[idx.toNat], st.prm.v_frm_pos[idx.toNat], ?_,
      List.getElem?_eq_getElem hi, List.getElem?_eq_getElem hi2, hf.1, hf.2⟩
    unfold get_frame_filepos
    rw [if_neg (by omega), List.getElem?_eq_getElem hi, List.getElem?_eq_getElem hi2]
  · intro idx h
    unfold get_frame_filepos
    rw [if_pos h]

theorem index_lookup_in_bounds_witness :
    read_frame_headers { hdr := { n_frames := 8 } } [example_file 0] = some
      ({ hdr := { n_frames := 8, n_files := 1, n_fhdr_bytes := 384, n_data_bytes := 131072 }
         hdr_frm := { n_size := 384, n_columns := 256, n_rows := 256, n_bpi := 16 }
         v_frm_file := [0, 0, 0, 0, 0, 0, 0, 0]
         v_frm_pos := [384, 131840, 263296, 394752, 526208, 657664, 789120, 920576] }, 0) ∧
    (∃ ifile ipos,
      get_frame_filepos
        { hdr := { n_frames := 8, n_files := 1, n_fhdr_bytes := 384, n_data_bytes := 131072 }
          hdr_frm := { n_size := 384, n_columns := 256, n_rows := 256, n_bpi := 16 }
          v_frm_file := [0, 0, 0, 0, 0, 0, 0, 0]
          v_frm_pos := [384, 131840, 263296, 394752, 526208, 657664, 789120, 920576] } 7
        = some (0, some (ifile, ipos)) ∧ 0 ≤ ifile ∧ ifile < 1) ∧
    get_frame_filepos
        { hdr := { n_frames := 8, n_files := 1, n_fhdr_bytes := 384, n_data_bytes := 131072 }
          hdr_frm := { n_size := 384, n_columns := 256, n_rows := 256, n_bpi := 16 }
          v_frm_file := [0, 0, 0, 0, 0, 0, 0, 0]
          v_frm_pos := [384, 131840, 263296, 394752, 526208, 657664, 789120, 920576] } 8
      = some (1, none) := by
  have hrun : read_frame_headers { hdr := { n_frames := 8 } } [example_file 0] = some
      ({ hdr := { n_frames := 8, n_files := 1, n_fhdr_bytes := 384, n_data_bytes := 131072 }
         hdr_frm := { n_size := 384, n_columns := 256, n_rows := 256, n_bpi := 16 }
         v_frm_file := [0, 0, 0, 0, 0, 0, 0, 0]
         v_frm_pos := [384, 131840, 263296, 394752, 526208, 657664, 789120, 920576] }, 0) := by
    decide
  obtain ⟨_, _, h3, h4⟩ := index_lookup_in_bounds _ _ [example_file 0]
    (fun g hg => by
      rw [List.mem_singleton] at hg
      rw [hg]
      exact example_file_contract 0) hrun
  refine ⟨hrun, ?_, h4 8 (Or.inr (by decide))⟩
  obtain ⟨ifile, ipos, h5, _, _, h6, h7⟩ := h3 7 (by decide) (by decide)
  exact ⟨ifile, ipos, h5, h6, h7⟩

/-! ## Theorems of section 10 -/

theorem example_gain_eq :
    example_gain = { hdr_frm := { n_columns := 2, n_rows := 1 }
                     gaincorrect := true
                     img_gaincorrect := some [2, 2, 2, 2] } := by
  decide

/-- Claim C24, amended: `gain_correction` compares no sizes.  Without a loaded map it
returns 0 and leaves the buffer unchanged.  With a loaded map it returns 1 for a null
buffer or a null map and 2 when the template has 0 pixels, leaving the buffer unchanged; and
when the template has `npix > 0` pixels and the buffer and the map have at least `npix`
entries each, it returns 0, multiplies each of the first `npix` pixels by the map entry of
the same index and leaves the pixels behind them unchanged. -/
theorem gain_correction_spec (prm : merlin_params) :
    (prm.gaincorrect = false → ∀ buf, gain_correction prm buf = some (0, buf)) ∧
    (prm.gaincorrect = true →
      gain_correction prm none = some (1, none) ∧
      (prm.img_gaincorrect = none → ∀ buf, gain_correction prm buf = some (1, buf)) ∧
      ∀ b m, prm.img_gaincorrect = some m →
        (frame_npix prm = 0 → gain_correction prm (some b) = some (2, some b)) ∧
        (0 < frame_npix prm → frame_npix prm ≤ b.length → frame_npix prm ≤ m.length →
          ∃ b1, gain_correction prm (some b) = some (0, some b1) ∧
            b1.length = b.length ∧
            (∀ i, i < frame_npix prm → b1[i]? = some (b.getD i 0 * m.getD i 0)) ∧
            (∀ i, frame_npix prm ≤ i → b1[i]? = b[i]?))) := by
  refine ⟨?_, ?_⟩
  · intro h buf
    unfold gain_correction
    simp [h]
  · intro h
    refine ⟨?_, ?_, ?_⟩
    · unfold gain_correction
      simp [h]
    · intro hm buf
      unfold gain_correction
      rw [if_pos h, hm]
      cases buf <;> rfl
    · intro b m hm
      refine ⟨?_, ?_⟩
      · intro h0
        unfold gain_correction
        rw [if_pos h, hm]
        simp only [h0, if_true]
      · intro h0 hb hmlen
        refine ⟨List.zipWith (fun v g => v * g) (b.take (frame_npix prm))
          (m.take (frame_npix prm)) ++ b.drop (frame_npix prm), ?_, ?_, ?_, ?_⟩
        · unfold gain_correction
          rw [if_pos h, hm]
          simp only
          rw [if_neg (by omega), if_pos ⟨hb, hmlen⟩]
        · simp only [List.length_append, List.length_zipWith, List.length_take,
            List.length_drop]
          omega
        · intro i hi
          have hz : i < (List.zipWith (fun v g => v * g) (b.take (frame_npix prm))
              (m.take (frame_npix prm))).length := by
            simp only [List.length_zipWith, List.length_take]
            omega
          rw [List.getElem?_append_left hz, List.getElem?_eq_getElem hz,
            List.getElem_zipWith, List.getElem_take, List.getElem_take,
            List.getD_eq_getElem b 0 (by omega), List.getD_eq_getElem m 0 (by omega)]
        · intro i hi
          have hz : (List.zipWith (fun v g => v * g) (b.take (frame_npix prm))
              (m.take (frame_npix prm))).length = frame_npix prm := by
            simp only [List.length_zipWith, List.length_take]
            omega
          rw [List.getElem?_append_right (by omega), hz, List.getElem?_drop]
          congr 1
          omega

theorem gain_correction_spec_witness :
    example_gain.gaincorrect = true ∧ example_gain.img_gaincorrect = some [2, 2, 2, 2] ∧
    0 < frame_npix example_gain ∧ frame_npix example_gain ≤ [(1 : ℚ), 3, 5].length ∧
    frame_npix example_gain ≤ [(2 : ℚ), 2, 2, 2].length ∧
    ∃ b1, gain_correction example_gain (some [1, 3, 5]) = some (0, some b1) ∧
      b1.length = [(1 : ℚ), 3, 5].length ∧
      (∀ i, i < frame_npix example_gain →
        b1[i]? = some ([(1 : ℚ), 3, 5].getD i 0 * [(2 : ℚ), 2, 2, 2].getD i 0)) ∧
      (∀ i, frame_npix example_gain ≤ i → b1[i]? = [(1 : ℚ), 3, 5][i]?) :=
  ⟨by decide, by decide, by decide, by decide, by decide,
    ((gain_correction_spec example_gain).2 (by decide)).2.2 [1, 3, 5] [2, 2, 2, 2]
      (by decide) |>.2 (by decide) (by decide) (by decide)⟩

/-- Claim C24 as stated fails: with a gain map of 4 entries, loaded under a template of
2 x 2 pixels, and a current template of 2 x 1 pixels, `gain_correction` on a buffer of 2
pixels returns 0 and multiplies both pixels, although the buffer has 2 pixels and the map 4
entries. -/
theorem gain_correction_counterexample :
    example_gain.img_gaincorrect = some [2, 2, 2, 2] ∧
    gain_correction example_gain (some [1, 3]) = some (0, some [2, 6]) := by
  refine ⟨by decide, ?_⟩
  rw [example_gain_eq]
  have hn : frame_npix { hdr_frm := { n_columns := 2, n_rows := 1 }
                         gaincorrect := true
                         img_gaincorrect := some [2, 2, 2, 2] } = 2 := by decide
  unfold gain_correction
  simp only [hn]
  norm_num

/-! ## Theorems of section 11 -/

/-- Claim C26 as stated fails: on the frame of 4 x 4 pixels without defects the line "abc"
is not rejected: `set_defect_pixel` returns 0 and registers the pixel (0, 0); the line "3",
a single number, registers the pixel (3, 0). -/
theorem defect_line_counterexample :
    set_defect_pixel_str example_frame "abc".toList =
      some ({ example_frame with
              v_defect_corr := [{ idx := 0, x := 0, y := 0, v_idx_corr := [] }]
              defects_modified := true }, 0) ∧
    set_defect_pixel_str example_frame "3".toList =
      some ({ example_frame with
              v_defect_corr := [{ idx := 3, x := 3, y := 0, v_idx_corr := [] }]
              defects_modified := true }, 0) := by
  decide

theorem takeWhile_token (p : Char → Bool) (a b : List Char) (ha : ∀ x ∈ a, p x = true)
    (hb : ∀ c r, b = c :: r → p c = false) : (a ++ b).takeWhile p = a := by
  rw [takeWhile_append_clean p a b ha]
  rcases b with _ | ⟨c, r⟩
  · simp
  · rw [List.takeWhile_cons, if_neg (by rw [hb c r rfl]; decide), List.append_nil]

theorem dropWhile_head (p : Char → Bool) (l : List Char) :
    ∀ c r, l.dropWhile p = c :: r → p c = false := by
  induction l with
  | nil => intro c r h; simp at h
  | cons a t ih =>
    intro c r h
    by_cases ha : p a = true
    · rw [List.dropWhile_cons_of_pos ha] at h
      exact ih c r h
    · rw [List.dropWhile_cons_of_neg ha] at h
      simp only [List.cons.injEq] at h
      rw [← h.1]
      simpa using ha

theorem read_param_run (pre tok seps rest prm : List Char)
    (htok : ∀ c ∈ tok, is_separator c = false) (hseps : ∀ c ∈ seps, is_separator c = true)
    (hrest : ∀ c r, rest = c :: r → is_separator c = false)
    (hend : seps = [] → rest = [])
    (hlen : (pre ++ (tok ++ (seps ++ rest))).length < 2 ^ 31) :
    merlin_params.read_param (pre.length : Int) (pre ++ (tok ++ (seps ++ rest))) prm
      = (((pre.length + tok.length + seps.length : Nat) : Int),
          if tok ≠ [] then tok else if seps = [] then [] else prm) := by
  have hl : (pre ++ (tok ++ (seps ++ rest))).length
      = pre.length + tok.length + seps.length + rest.length := by
    simp only [List.length_append]
    omega
  rw [hl] at hlen
  have hs : size_t_of_int (if (0 : Int) ≤ (pre.length : Int) then (pre.length : Int) else 0)
      = pre.length := by
    rw [if_pos (Int.natCast_nonneg _)]
    exact size_t_of_nat _ (by omega)
  have ht : ((pre ++ (tok ++ (seps ++ rest))).drop pre.length).takeWhile
      (fun c => !is_separator c) = tok := by
    rw [List.drop_left]
    apply takeWhile_token
    · intro c hc
      simp only [htok c hc, Bool.not_false]
    · intro c r h
      rcases seps with _ | ⟨s, ss⟩
      · rw [hend rfl] at h
        simp at h
      · simp only [List.cons_append, List.cons.injEq] at h
        rw [← h.1, hseps s (List.mem_cons_self s ss)]
        rfl
  have hsp : ((pre ++ (tok ++ (seps ++ rest))).drop (pre.length + tok.length)).takeWhile
      is_separator = seps := by
    have e : pre ++ (tok ++ (seps ++ rest)) = (pre ++ tok) ++ (seps ++ rest) := by
      simp only [List.append_assoc]
    have e2 : pre.length + tok.length = (pre ++ tok).length := by
      simp only [List.length_append]
    rw [e, e2, List.drop_left]
    exact takeWhile_token is_separator seps rest hseps hrest
  unfold merlin_params.read_param
  simp only [hs, ht, hsp, hl]
  by_cases hall : pre.length + tok.length + seps.length + rest.length ≤ pre.length
  · have h1 : tok.length = 0 := by omega
    have h2 : seps.length = 0 := by omega
    rw [if_pos hall, List.length_eq_zero.mp h1, List.length_eq_zero.mp h2]
    simp only [List.length_nil, Nat.add_zero, ne_eq, not_true_eq_false, if_false, if_true]
    rw [int_of_size_t_small _ (by omega)]
  · rw [if_neg hall]
    have hp : (if 0 < pre.length + tok.length - pre.length then tok else prm)
        = if tok ≠ [] then tok else if seps = [] then [] else prm := by
      rcases tok with _ | ⟨t, ts⟩
      · have hsne : seps ≠ [] := by
          intro h
          rw [h, hend h] at hall
          simp at hall
        simp [hsne]
      · simp
    rw [hp]
    by_cases hlt : pre.length + tok.length < pre.length + tok.length + seps.length + rest.length
    · rw [if_pos hlt, int_of_size_t_small _ (by omega)]
    · rw [if_neg hlt]
      have h2 : seps.length = 0 := by omega
      rw [h2, int_of_size_t_small _ (by omega)]
      rfl

theorem set_defect_pixel_str_tokens (prm : merlin_params) (line : List Char)
    (hlen : line.length < 2 ^ 31) :
    set_defect_pixel_str prm line =
      set_defect_pixel prm (atoi (line.takeWhile (fun c => !is_separator c)))
        (atoi (((line.dropWhile (fun c => !is_separator c)).dropWhile
          is_separator).takeWhile (fun c => !is_separator c))) := by
  generalize hD : line.dropWhile (fun c => !is_separator c) = D
  generalize hR : D.dropWhile is_separator = R
  generalize hR3 : R.dropWhile (fun c => !is_separator c) = R3
  have e1 : line = line.takeWhile (fun c => !is_separator c) ++ D := by
    rw [← hD, List.takeWhile_append_dropWhile]
  have e2 : D = D.takeWhile is_separator ++ R := by
    rw [← hR, List.takeWhile_append_dropWhile]
  have e3 : R = R.takeWhile (fun c => !is_separator c) ++ R3 := by
    rw [← hR3, List.takeWhile_append_dropWhile]
  have e4 : R3 = R3.takeWhile is_separator ++ R3.dropWhile is_separator :=
    (List.takeWhile_append_dropWhile _ _).symm
  generalize htx : line.takeWhile (fun c => !is_separator c) = tx at e1
  generalize hs1 : D.takeWhile is_separator = s1 at e2
  generalize hty : R.takeWhile (fun c => !is_separator c) = ty at e3
  generalize hs2 : R3.takeWhile is_separator = s2 at e4
  generalize hR4 : R3.dropWhile is_separator = R4 at e4
  have ctx : ∀ c ∈ tx, is_separator c = false := by
    intro c hc
    rw [← htx] at hc
    simpa using List.mem_takeWhile_imp hc
  have cty : ∀ c ∈ ty, is_separator c = false := by
    intro c hc
    rw [← hty] at hc
    simpa using List.mem_takeWhile_imp hc
  have cs1 : ∀ c ∈ s1, is_separator c = true := by
    intro c hc
    rw [← hs1] at hc
    exact List.mem_takeWhile_imp hc
  have cs2 : ∀ c ∈ s2, is_separator c = true := by
    intro c hc
    rw [← hs2] at hc
    exact List.mem_takeWhile_imp hc
  have hDh : ∀ c r, D = c :: r → is_separator c = true := by
    intro c r h
    have := dropWhile_head (fun c => !is_separator c) line c r (by rw [hD, h])
    simpa using this
  have hRh : ∀ c r, R = c :: r → is_separator c = false := by
    intro c r h
    exact dropWhile_head is_separator D c r (by rw [hR, h])
  have hR3h : ∀ c r, R3 = c :: r → is_separator c = true := by
    intro c r h
    have := dropWhile_head (fun c => !is_separator c) R c r (by rw [hR3, h])
    simpa using this
  have hR4h : ∀ c r, R4 = c :: r → is_separator c = false := by
    intro c r h
    exact dropWhile_head is_separator R3 c r (by rw [hR4, h])
  have hend1 : s1 = [] → R = [] := by
    intro h
    have hDn : D = [] := by
      rcases D with _ | ⟨c, r⟩
      · rfl
      · rw [List.takeWhile_cons, hDh c r rfl] at hs1
        rw [h] at hs1
        simp at hs1
    rw [← hR, hDn]
    rfl
  have hend2 : s2 = [] → R4 = [] := by
    intro h
    have hDn : R3 = [] := by
      rcases R3 with _ | ⟨c, r⟩
      · rfl
      · rw [List.takeWhile_cons, hR3h c r rfl] at hs2
        rw [h] at hs2
        simp at hs2
    rw [← hR4, hDn]
    rfl
  have hline : line = tx ++ (s1 ++ (ty ++ (s2 ++ R4))) := by
    rw [← e4, ← e3, ← e2]
    exact e1
  have hline2 : line = (tx ++ s1) ++ (ty ++ (s2 ++ R4)) := by
    rw [List.append_assoc]
    exact hline
  have hR' : R = ty ++ (s2 ++ R4) := by rw [← e4]; exact e3
  have p1 := read_param_run [] tx s1 R [] ctx cs1 hRh hend1
    (by rw [List.nil_append, ← e2, ← e1]; exact hlen)
  rw [List.nil_append, ← e2, ← e1] at p1
  have hprm1 : (if tx ≠ [] then tx else if s1 = [] then ([] : List Char) else []) = tx := by
    by_cases h : tx = []
    · simp [h]
    · simp [h]
  rw [hprm1] at p1
  have p2 := read_param_run (tx ++ s1) ty s2 R4 tx cty cs2 hR4h hend2
    (by rw [← hline2]; exact hlen)
  rw [← hline2] at p2
  have hty0 : ty = [] → R = [] := by
    intro h
    rcases R with _ | ⟨c, r⟩
    · rfl
    · rw [List.takeWhile_cons, hRh c r rfl] at hty
      rw [h] at hty
      simp at hty
  have hprm2 : atoi (if ty ≠ [] then ty else if s2 = [] then ([] : List Char) else tx)
      = atoi ty := by
    by_cases h : ty = []
    · have hRn := hty0 h
      rw [hRn] at hR'
      have hs2n : s2 = [] := by
        have := congrArg List.length hR'
        simp only [List.length_nil, List.length_append] at this
        exact List.length_eq_zero.mp (by omega)
      simp [h, hs2n]
    · simp [h]
  unfold set_defect_pixel_str
  have hp0 : ((([] : List Char).length + tx.length + s1.length : Nat) : Int)
      = ((tx ++ s1).length : Int) := by
    simp only [List.length_nil, List.length_append, Nat.zero_add]
  rw [hp0] at p1
  have hz : ((([] : List Char).length : Nat) : Int) = 0 := rfl
  rw [hz] at p1
  simp only [p1, p2, hprm2]
  rw [if_neg (by omega), if_neg (by omega)]

theorem set_defect_pixel_in_frame (prm : merlin_params) (x y : Int)
    (hg : frame_geometry_ok prm) (hx0 : 0 ≤ x) (hx1 : x < prm.hdr_frm.n_columns)
    (hy0 : 0 ≤ y) (hy1 : y < prm.hdr_frm.n_rows)
    (hnd : is_defect_pixel_xy prm x y = false) :
    set_defect_pixel prm x y =
      some ({ prm with
        v_defect_corr := prm.v_defect_corr ++
          [{ idx := (x + y * prm.hdr_frm.n_columns).toNat, x := x, y := y, v_idx_corr := [] }]
        defects_modified := true }, 0) := by
  have hidx := get_frame_pixel_idx_in_frame prm x y hg hx0 hx1 hy0 hy1
  obtain ⟨hb0, hb1⟩ := pixel_index_bound prm.hdr_frm.n_columns prm.hdr_frm.n_rows x y
    hx0 hx1 hy0 hy1
  have hne : prm.hdr_frm.n_columns ≠ 0 := by omega
  obtain ⟨n, hn⟩ := Int.eq_ofNat_of_zero_le hb0
  have hn31 : n < 2 ^ 31 := by
    have := hg.2.2
    have : (n : Int) < 2 ^ 31 := by omega
    exact_mod_cast this
  have hsz : size_t_of_int (x + y * prm.hdr_frm.n_columns) = n := by
    rw [hn]
    exact size_t_of_nat n (by omega)
  have hpix := frame_pixel_of_index prm hg n (by rw [← hn]; exact hb1)
  have hm : (n : Int) % prm.hdr_frm.n_columns = x := by
    rw [← hn, Int.add_mul_emod_self, Int.emod_eq_of_lt hx0 hx1]
  have hd : (n : Int) / prm.hdr_frm.n_columns = y := by
    rw [← hn, Int.add_mul_ediv_right _ _ hne, Int.ediv_eq_zero_of_lt hx0 hx1, zero_add]
  rw [hm, hd] at hpix
  have htn : (x + y * prm.hdr_frm.n_columns).toNat = n := by
    rw [hn]
    exact Int.toNat_ofNat n
  unfold set_defect_pixel
  rw [hnd]
  simp only [Bool.false_eq_true, if_false, hidx, hsz, hpix, htn]

theorem set_defect_pixel_wrap (prm : merlin_params) (x y : Int)
    (hg : frame_geometry_ok prm) :
    set_defect_pixel prm x y =
      if is_defect_pixel_xy prm x y then some (prm, 0)
      else some ({ prm with
        v_defect_corr := prm.v_defect_corr ++
          [{ idx := (x % prm.hdr_frm.n_columns
                + y % prm.hdr_frm.n_rows * prm.hdr_frm.n_columns).toNat
             x := x % prm.hdr_frm.n_columns, y := y % prm.hdr_frm.n_rows, v_idx_corr := [] }]
        defects_modified := true }, 0) := by
  have hc := hg.1
  have hr := hg.2.1
  have hx0 := Int.emod_nonneg x (show prm.hdr_frm.n_columns ≠ 0 by omega)
  have hx1 := Int.emod_lt_of_pos x hc
  have hy0 := Int.emod_nonneg y (show prm.hdr_frm.n_rows ≠ 0 by omega)
  have hy1 := Int.emod_lt_of_pos y hr
  have hidx : get_frame_pixel_idx prm x y
      = get_frame_pixel_idx prm (x % prm.hdr_frm.n_columns) (y % prm.hdr_frm.n_rows) := by
    rw [get_frame_pixel_idx_in_frame prm _ _ hg hx0 hx1 hy0 hy1]
    unfold get_frame_pixel_idx
    rw [if_neg (by omega), imod_eq_emod _ _ hc, imod_eq_emod _ _ hr]
  have hdef : is_defect_pixel_xy prm x y
      = is_defect_pixel_xy prm (x % prm.hdr_frm.n_columns) (y % prm.hdr_frm.n_rows) := by
    unfold is_defect_pixel_xy
    rw [hidx]
  have hset : set_defect_pixel prm x y
      = set_defect_pixel prm (x % prm.hdr_frm.n_columns) (y % prm.hdr_frm.n_rows) := by
    unfold set_defect_pixel
    rw [hdef, hidx]
  by_cases hd : is_defect_pixel_xy prm x y = true
  · rw [if_pos hd]
    unfold set_defect_pixel
    rw [if_pos hd]
  · rw [if_neg hd, hset]
    exact set_defect_pixel_in_frame prm _ _ hg hx0 hx1 hy0 hy1
      (by rw [← hdef]; simpa using hd)

theorem set_defect_pixel_str_pair (prm : merlin_params) (sx seps sy : List Char)
    (hx : ∀ c ∈ sx, is_separator c = false) (hs : ∀ c ∈ seps, is_separator c = true)
    (hy : ∀ c ∈ sy, is_separator c = false) (hend : seps = [] → sy = [])
    (hlen : (sx ++ (seps ++ sy)).length < 2 ^ 31) :
    set_defect_pixel_str prm (sx ++ (seps ++ sy)) = set_defect_pixel prm (atoi sx) (atoi sy) := by
  have p1 := read_param_run [] sx seps sy [] hx hs
    (fun c r h => hy c (by rw [h]; exact List.mem_cons_self c r)) hend
    (by rw [List.nil_append]; exact hlen)
  rw [List.nil_append] at p1
  have hprm1 : (if sx ≠ [] then sx else if seps = [] then ([] : List Char) else []) = sx := by
    by_cases h : sx = []
    · simp [h]
    · simp [h]
  rw [hprm1] at p1
  have e : sx ++ (seps ++ sy) = (sx ++ seps) ++ (sy ++ ([] ++ [])) := by
    simp only [List.append_assoc, List.append_nil]
  have p2 := read_param_run (sx ++ seps) sy [] [] sx hy (fun c hc => by simp at hc)
    (fun c r h => by simp at h) (fun _ => rfl) (by rw [← e]; exact hlen)
  rw [← e] at p2
  have hprm2 : (if sy ≠ [] then sy else if ([] : List Char) = [] then ([] : List Char) else sx)
      = sy := by
    by_cases h : sy = []
    · simp [h]
    · simp [h]
  rw [hprm2] at p2
  have hp0 : ((([] : List Char).length + sx.length + seps.length : Nat) : Int)
      = ((sx ++ seps).length : Int) := by
    simp only [List.length_nil, List.length_append, Nat.zero_add]
  rw [hp0] at p1
  have hz : ((([] : List Char).length : Nat) : Int) = 0 := rfl
  rw [hz] at p1
  unfold set_defect_pixel_str
  simp only [p1, p2]
  rw [if_neg (by omega), if_neg (by omega)]

/-- Claim C26, amended: `set_defect_pixel(string)` rejects no line of less than `2^31`
characters.  (1) For every line it calls `set_defect_pixel(x, y)` with x the `atoi` value of
the characters before the first separator (comma or blank) and y the `atoi` value of the
characters between the run of separators that follows and the next separator; `atoi` gives
0 for a token that is empty or no number.  (2) A line without separator gives `(atoi line, 0)`.
(3) A line of a token, a run of one or more separators and a token gives the `atoi` values
of the two tokens.  (4) On a frame with `0 < columns, rows <= 2^30` and
`columns * rows < 2^31` every line returns 0; the values wrap, the pixel of the values x, y
is `(x mod columns, y mod rows)`: if it is registered the list of defects stays as it is,
and if not, exactly this pixel is appended; for `0 <= x < columns` and `0 <= y < rows` that
is the pixel (x, y).  The values of `atoi` are in the range of `int`, and for these sizes
`imod` gives `x mod columns` and `y mod rows` also with the sums of the 32-bit `int`. -/
theorem defect_line_spec (prm : merlin_params) (line : List Char)
    (hlen : line.length < 2 ^ 31) :
    set_defect_pixel_str prm line =
      set_defect_pixel prm (atoi (line.takeWhile (fun c => !is_separator c)))
        (atoi (((line.dropWhile (fun c => !is_separator c)).dropWhile
          is_separator).takeWhile (fun c => !is_separator c))) ∧
    ((∀ c ∈ line, is_separator c = false) →
      set_defect_pixel_str prm line = set_defect_pixel prm (atoi line) 0) ∧
    (∀ sx seps sy : List Char, line = sx ++ (seps ++ sy) →
      (∀ c ∈ sx, is_separator c = false) → seps ≠ [] → (∀ c ∈ seps, is_separator c = true) →
      (∀ c ∈ sy, is_separator c = false) →
      set_defect_pixel_str prm line = set_defect_pixel prm (atoi sx) (atoi sy)) ∧
    (frame_geometry_ok prm → prm.hdr_frm.n_columns ≤ 2 ^ 30 → prm.hdr_frm.n_rows ≤ 2 ^ 30 →
      ∀ x y : Int, x = atoi (line.takeWhile (fun c => !is_separator c)) →
        y = atoi (((line.dropWhile (fun c => !is_separator c)).dropWhile
          is_separator).takeWhile (fun c => !is_separator c)) →
        (∃ prm1, set_defect_pixel_str prm line = some (prm1, 0)) ∧
        (is_defect_pixel_xy prm x y = true → set_defect_pixel_str prm line = some (prm, 0)) ∧
        (is_defect_pixel_xy prm x y = false →
          set_defect_pixel_str prm line =
            some ({ prm with
              v_defect_corr := prm.v_defect_corr ++
                [{ idx := (x % prm.hdr_frm.n_columns
                      + y % prm.hdr_frm.n_rows * prm.hdr_frm.n_columns).toNat
                   x := x % prm.hdr_frm.n_columns, y := y % prm.hdr_frm.n_rows
                   v_idx_corr := [] }]
              defects_modified := true }, 0)) ∧
        (0 ≤ x → x < prm.hdr_frm.n_columns → 0 ≤ y → y < prm.hdr_frm.n_rows →
          is_defect_pixel_xy prm x y = false →
          set_defect_pixel_str prm line =
            some ({ prm with
              v_defect_corr := prm.v_defect_corr ++
                [{ idx := (x + y * prm.hdr_frm.n_columns).toNat, x := x, y := y
                   v_idx_corr := [] }]
              defects_modified := true }, 0)) ∧
        (-(2 ^ 31) ≤ x ∧ x < 2 ^ 31 ∧ -(2 ^ 31) ≤ y ∧ y < 2 ^ 31 ∧
          imod_int32 x prm.hdr_frm.n_columns = x % prm.hdr_frm.n_columns ∧
          imod_int32 y prm.hdr_frm.n_rows = y % prm.hdr_frm.n_rows)) := by
  have hA := set_defect_pixel_str_tokens prm line hlen
  refine ⟨hA, ?_, ?_, ?_⟩
  · intro hfree
    have h := set_defect_pixel_str_pair prm line [] [] hfree (fun c hc => by simp at hc)
      (fun c hc => by simp at hc) (fun _ => rfl)
      (by simp only [List.append_nil]; exact hlen)
    simp only [List.append_nil] at h
    exact h
  · intro sx seps sy hl hx hne hs hy
    rw [hl]
    exact set_defect_pixel_str_pair prm sx seps sy hx hs hy (fun h => absurd h hne)
      (by rw [← hl]; exact hlen)
  · intro hg hcb hrb x y hx hy
    rw [hA, ← hx, ← hy]
    have hw := set_defect_pixel_wrap prm x y hg
    refine ⟨?_, ?_, ?_, ?_, ?_⟩
    rotate_left 4
    · rw [hx, hy]
      exact ⟨(atoi_range _).1, (atoi_range _).2, (atoi_range _).1, (atoi_range _).2,
        imod_int32_eq _ _ hg.1 hcb, imod_int32_eq _ _ hg.2.1 hrb⟩
    · by_cases hd : is_defect_pixel_xy prm x y = true
      · rw [if_pos hd] at hw
        exact ⟨_, hw⟩
      · rw [if_neg hd] at hw
        exact ⟨_, hw⟩
    · intro hd
      rw [if_pos hd] at hw
      exact hw
    · intro hd
      rw [if_neg (by rw [hd]; decide)] at hw
      exact hw
    · intro hx0 hx1 hy0 hy1 hd
      exact set_defect_pixel_in_frame prm x y hg hx0 hx1 hy0 hy1 hd

theorem defect_line_spec_witness :
    set_defect_pixel_str example_frame "7,9".toList =
      some ({ example_frame with
              v_defect_corr := [{ idx := 7, x := 3, y := 1, v_idx_corr := [] }]
              defects_modified := true }, 0) ∧
    set_defect_pixel_str example_frame "2, 1".toList =
      some ({ example_frame with
              v_defect_corr := [{ idx := 6, x := 2, y := 1, v_idx_corr := [] }]
              defects_modified := true }, 0) ∧
    set_defect_pixel_str example_frame "7".toList = set_defect_pixel example_frame 7 0 :=
  ⟨Eq.trans (((defect_line_spec example_frame "7,9".toList (by decide)).2.2.2
      ⟨by decide, by decide, by decide⟩ (by decide) (by decide) 7 9 (by decide)
      (by decide)).2.2.1 (by decide)) (by decide),
    Eq.trans (((defect_line_spec example_frame "2, 1".toList (by decide)).2.2.2
      ⟨by decide, by decide, by decide⟩ (by decide) (by decide) 2 1 (by decide)
      (by decide)).2.2.2.1 (by decide) (by decide) (by decide) (by decide) (by decide))
      (by decide),
    (defect_line_spec example_frame "7".toList (by decide)).2.1 (by decide)⟩

end Merlinio
